import Mathlib

/-!
Shallow embedding of the schedule-generation core of the football-tournament
repository (`src/lib/scheduler.ts` together with `src/lib/types.ts`), and
proofs of the specification claims about it.

Conventions of the embedding:
* JS timestamps (`Date.getTime()`) are modelled as `Int` milliseconds.
* `new Date(startDate + "T" + startTime)` is platform date parsing; its result
  is carried in the settings as `startDateTime : Option Int` (`none` models an
  invalid date, i.e. `isNaN(getTime())`).
* `new Date()` (the wall clock used for the placeholder times of freshly
  created matches) is passed in as an explicit `now : Int` argument.
* JS `x || d` on numbers (which treats `0` as absent) is `jsOrInt`.
* `Array.prototype.sort` is stable; it is modelled by a stable insertion
  sort (`sortByStart`, `sortByCount`), and JS string comparison by a
  lexicographic comparison on the character list (`strLtB`).
* JS `Map`s are modelled as insertion-ordered association lists.
-/

namespace Scheduler

/-- Team record from `types.ts`. -/
structure Team where
  id : String
  name : String
deriving DecidableEq, Repr

/-- Match mode from `types.ts`: `'full-time' | 'two-halves'`. -/
inductive MatchMode where
  | fullTime
  | twoHalves
deriving DecidableEq, Repr

/-- Scheduling mode from `types.ts`: `'round-robin' | 'limited-matches'`. -/
inductive SchedulingMode where
  | roundRobin
  | limitedMatches
deriving DecidableEq, Repr

/-- Tournament settings from `types.ts`.  `startDateTime` models the result of
`new Date(startDate + "T" + startTime)`: `some t` is a valid instant with
epoch-milliseconds `t`, `none` models an invalid (NaN) date. -/
structure TournamentSettings where
  name : String
  startDate : String
  startTime : String
  startDateTime : Option Int
  numPitches : Nat
  matchMode : MatchMode
  matchDurationMinutes : Option Int
  halfDurationMinutes : Option Int
  halftimeBreakMinutes : Option Int
  breakBetweenMatches : Int
deriving DecidableEq, Repr

/-- Scheduling configuration from `types.ts`. -/
structure SchedulingConfig where
  mode : SchedulingMode
  maxMatchesPerTeam : Option Int
  maxTotalMatches : Option Int
deriving DecidableEq, Repr

/-- Match record from `types.ts`; times are epoch milliseconds. -/
structure Match where
  id : String
  homeTeam : Team
  awayTeam : Team
  startTime : Int
  endTime : Int
  pitch : Nat
deriving DecidableEq, Repr

/-- Schedule conflict record from `types.ts`. -/
structure ScheduleConflict where
  team : Team
  «matches» : List Match
deriving DecidableEq, Repr

/-- Generated schedule record from `types.ts`. -/
structure GeneratedSchedule where
  «matches» : List Match
  conflicts : List ScheduleConflict
  warnings : List String
deriving DecidableEq, Repr

/-- Sentinel BYE team (`const BYE_TEAM` in `scheduler.ts`). -/
def BYE_TEAM : Team := { id := "BYE", name := "BYE" }

/-- Fallback for out-of-range list indexing of the team array; the scheduler
never indexes out of range, so this value is never observed. -/
def dummyTeam : Team := { id := "", name := "" }

/-- JS `x || d` for an optional number: `0` (and absence) falls back to `d`. -/
def jsOrInt (x : Option Int) (d : Int) : Int :=
  match x with
  | some v => if v = 0 then d else v
  | none => d

/-- Duration calculation, from `calculateMatchDuration` in `scheduler.ts`. -/
def calculateMatchDuration (settings : TournamentSettings) : Int :=
  match settings.matchMode with
  | MatchMode.fullTime => jsOrInt settings.matchDurationMinutes 30
  | MatchMode.twoHalves =>
      let halfDuration := jsOrInt settings.halfDurationMinutes 15
      let halftime := jsOrInt settings.halftimeBreakMinutes 5
      2 * halfDuration + halftime

/-- Lookup in an association list (models `Map.get`); prepending a key
shadows older entries, which models `Map.set` for the team end-time map. -/
def lookupEnd : List (String × Int) → String → Option Int
  | [], _ => none
  | (k, v) :: rest, key => if k = key then some v else lookupEnd rest key

/-- Mutable state of `assignTimeSlots`: the `teamLastEndTime` map and the
`pitchNextAvailable` array.  (`pitchSchedules` is write-only in the source
and is omitted.) -/
structure AssignState where
  teamLastEnd : List (String × Int)
  pitchAvail : List Int
deriving DecidableEq, Repr

/-- Computation of `earliestPossibleStart` in `assignTimeSlots`. -/
def earliestStart (start0 : Int) (homeLast awayLast : Option Int) : Int :=
  let e1 :=
    match homeLast with
    | some t => if start0 < t then t else start0
    | none => start0
  match awayLast with
  | some t => if e1 < t then t else e1
  | none => e1

/-- Scan of the pitch loop in `assignTimeSlots`: returns the pitch index with
the smallest candidate start time (`max earliest avail`), lowest index on
ties, together with that start time; `none` iff there are no pitches. -/
def bestSlot (earliest : Int) : List Int → Option (Nat × Int)
  | [] => none
  | avail :: rest =>
      let cand := max earliest avail
      match bestSlot earliest rest with
      | none => some (0, cand)
      | some (p, s) => if s < cand then some (p + 1, s) else some (0, cand)

/-- Body of the per-match loop of `assignTimeSlots`: places one match and
updates the state.  With no pitches (`bestPitch` stays `-1`) the match is
returned unchanged, as in the source. -/
def assignOne (dur brk start0 : Int) (st : AssignState) (m : Match) :
    Match × AssignState :=
  let earliest := earliestStart start0
    (lookupEnd st.teamLastEnd m.homeTeam.id)
    (lookupEnd st.teamLastEnd m.awayTeam.id)
  match bestSlot earliest st.pitchAvail with
  | none => (m, st)
  | some (p, s) =>
      let endT := s + dur * 60000
      ({ m with pitch := p + 1, startTime := s, endTime := endT },
       { teamLastEnd :=
           (m.awayTeam.id, endT) :: (m.homeTeam.id, endT) :: st.teamLastEnd,
         pitchAvail := st.pitchAvail.set p (endT + brk * 60000) })

/-- The `for (const match of matches)` loop of `assignTimeSlots`. -/
def assignLoop (dur brk start0 : Int) (st : AssignState) :
    List Match → List Match × AssignState
  | [] => ([], st)
  | m :: ms =>
      let r := assignOne dur brk start0 st m
      let rest := assignLoop dur brk start0 r.2 ms
      (r.1 :: rest.1, rest.2)

/-- Stable insertion of a match into a start-time-sorted list. -/
def insertByStart (m : Match) : List Match → List Match
  | [] => [m]
  | x :: xs =>
      if m.startTime ≤ x.startTime then m :: x :: xs else x :: insertByStart m xs

/-- Stable sort by start time, modelling the final
`matches.sort((a, b) => a.startTime.getTime() - b.startTime.getTime())`. -/
def sortByStart : List Match → List Match
  | [] => []
  | m :: ms => insertByStart m (sortByStart ms)

/-- Time-slot assignment, from `assignTimeSlots` in `scheduler.ts`.  An
invalid start date throws, modelled by `Except.error`. -/
def assignTimeSlots («matches» : List Match) (settings : TournamentSettings) :
    Except String (List Match) :=
  match settings.startDateTime with
  | none => Except.error ("Invalid tournament start date/time: " ++
      settings.startDate ++ " " ++ settings.startTime)
  | some start0 =>
      let matchDuration := calculateMatchDuration settings
      let init : AssignState :=
        { teamLastEnd := [],
          pitchAvail := List.replicate settings.numPitches start0 }
      let r := assignLoop matchDuration settings.breakBetweenMatches start0
        init «matches»
      Except.ok (sortByStart r.1)

/-- Construction of a freshly pushed match: `id` is `match-` followed by the
current length of the accumulator, times are the `new Date()` placeholder. -/
def mkRawMatch (k : Nat) (home away : Team) (now : Int) : Match :=
  { id := "match-" ++ toString k, homeTeam := home, awayTeam := away,
    startTime := now, endTime := now, pitch := 0 }

/-- Rotation step of the circle method: `teamIndexes.pop()` followed by
`teamIndexes.splice(1, 0, last)`. -/
def rotateTeams : List Nat → List Nat
  | [] => []
  | x :: rest =>
      match rest.getLast? with
      | none => [x]
      | some last => x :: last :: rest.dropLast

/-- Home/away index pair for slot `i` of one round, reading the current
`teamIndexes`. -/
def rrPairIdx (idxs : List Nat) (n i : Nat) : Nat × Nat :=
  if i = 0 then (idxs.getD 0 0, idxs.getD (n - 1) 0)
  else (idxs.getD i 0, idxs.getD (n - 1 - i) 0)

/-- Inner loop of one round of `generateRoundRobinMatches`: the JS loop bound
`match < n / 2` on the float `n / 2` runs `⌈n / 2⌉` times, i.e.
`(n + 1) / 2` in integer arithmetic. -/
def rrRoundAcc (teams : List Team) (idxs : List Nat) (n : Nat) (now : Int)
    (acc : List Match) : List Match :=
  (List.range ((n + 1) / 2)).foldl (fun acc i =>
    let pr := rrPairIdx idxs n i
    let homeTeam := teams.getD pr.1 dummyTeam
    let awayTeam := teams.getD pr.2 dummyTeam
    if homeTeam.id ≠ "BYE" ∧ awayTeam.id ≠ "BYE" then
      acc ++ [mkRawMatch acc.length homeTeam awayTeam now]
    else acc) acc

/-- Pair generation of `generateRoundRobinMatches` (the round/rotation loops),
before time assignment. -/
def roundRobinRaw (teams : List Team) (now : Int) : List Match :=
  let n := teams.length
  ((List.range (n - 1)).foldl
    (fun (st : List Nat × List Match) _ =>
      (rotateTeams st.1, rrRoundAcc teams st.1 n now st.2))
    (List.range n, [])).2

/-- Round-robin generation, from `generateRoundRobinMatches` in
`scheduler.ts`; with fewer than two teams the empty match list is returned
before `assignTimeSlots` ever runs. -/
def generateRoundRobinMatches (teams : List Team)
    (settings : TournamentSettings) (now : Int) :
    Except String (List Match) :=
  if teams.length < 2 then Except.ok []
  else assignTimeSlots (roundRobinRaw teams now) settings

/-- Generic association-list lookup (models `Map.get` for the remaining maps). -/
def lookupAssoc {α : Type} : List (String × α) → String → Option α
  | [], _ => none
  | (k, v) :: rest, key => if k = key then some v else lookupAssoc rest key

/-- Association-list update-or-append (models `Map.set`). -/
def setAssoc {α : Type} : List (String × α) → String → α → List (String × α)
  | [], k, v => [(k, v)]
  | (k', v') :: rest, k, v =>
      if k' = k then (k, v) :: rest else (k', v') :: setAssoc rest k v

/-- JS `teamMatchCounts.get(id) || 0`. -/
def getCount (counts : List (String × Nat)) (id : String) : Nat :=
  (lookupAssoc counts id).getD 0

/-- Lexicographic comparison of character lists, modelling JS string `<`. -/
def charListLt : List Char → List Char → Bool
  | _, [] => false
  | [], _ :: _ => true
  | a :: as, b :: bs => if a < b then true else if b < a then false else charListLt as bs

/-- JS string comparison `a < b`. -/
def strLtB (a b : String) : Bool := charListLt a.data b.data

/-- Pair key `[t1.id, t2.id].sort().join('-')` of `generateLimitedMatches`. -/
def pairKeyOf (a b : String) : String :=
  if strLtB b a then b ++ "-" ++ a else a ++ "-" ++ b

/-- Stable insertion for the ascending-by-count sort of `availableTeams`. -/
def insertByCount (counts : List (String × Nat)) (t : Team) :
    List Team → List Team
  | [] => [t]
  | x :: xs =>
      if getCount counts t.id ≤ getCount counts x.id then t :: x :: xs
      else x :: insertByCount counts t xs

/-- Stable ascending sort of `availableTeams` by current match count,
modelling the stable JS `sort((a, b) => countA - countB)`. -/
def sortByCount (counts : List (String × Nat)) : List Team → List Team
  | [] => []
  | t :: ts => insertByCount counts t (sortByCount counts ts)

/-- Inner scan of the pair-selection loops: the first team of `rest` whose
pairing with `t1` is not already used. -/
def findPartner (pairings : List String) (t1 : Team) : List Team → Option Team
  | [] => none
  | t2 :: rest =>
      if pairKeyOf t1.id t2.id ∈ pairings then findPartner pairings t1 rest
      else some t2

/-- Outer scan of the pair-selection loops of `generateLimitedMatches`. -/
def findUnusedPair (pairings : List String) : List Team → Option (Team × Team)
  | [] => none
  | t1 :: rest =>
      match findPartner pairings t1 rest with
      | some t2 => some (t1, t2)
      | none => findUnusedPair pairings rest

/-- Mutable state of the `generateLimitedMatches` while-loop. -/
structure LtdState where
  counts : List (String × Nat)
  pairings : List String
  «matches» : List Match
deriving DecidableEq, Repr

/-- While-loop guard `matches.length < targetMatches` where
`targetMatches = min(maxTotal, teams.length * maxPerTeam / 2)` (a JS float;
`none` models `Infinity`): for an integer length this is
`2*len < L*maxPerTeam` and `len < maxTotal`. -/
def ltdGuard (numTeams : Nat) (maxPerTeam : Int) (maxTotal : Option Int)
    (len : Nat) : Bool :=
  (2 * (len : Int) < (numTeams : Int) * maxPerTeam) &&
    (match maxTotal with
     | some mt => ((len : Int) < mt)
     | none => true)

/-- Attempt budget `maxAttempts = targetMatches * 10`: the loop makes at most
`min(maxTotal*10, teams.length*maxPerTeam*5)` iterations (the latter equals
`(teams.length*maxPerTeam/2)*10` exactly). -/
def ltdFuel (numTeams : Nat) (maxPerTeam : Int) (maxTotal : Option Int) : Nat :=
  let t10 : Int := (numTeams : Int) * maxPerTeam * 5
  (match maxTotal with
   | some mt => min (mt * 10) t10
   | none => t10).toNat

/-- One iteration body of the `generateLimitedMatches` while-loop; `none`
models the `break` when fewer than two teams remain available. -/
def ltdStep (teams : List Team) (maxPerTeam : Int) (now : Int)
    (st : LtdState) : Option LtdState :=
  let available := teams.filter
    (fun t => ((getCount st.counts t.id : Int) < maxPerTeam))
  if available.length < 2 then none
  else
    let sorted := sortByCount st.counts available
    let choice :=
      match findUnusedPair st.pairings sorted with
      | some pr => (pr.1, pr.2, pairKeyOf pr.1.id pr.2.id :: st.pairings)
      | none => (sorted.getD 0 dummyTeam, sorted.getD 1 dummyTeam, st.pairings)
    let homeTeam := choice.1
    let awayTeam := choice.2.1
    let c1 := setAssoc st.counts homeTeam.id (getCount st.counts homeTeam.id + 1)
    let c2 := setAssoc c1 awayTeam.id (getCount c1 awayTeam.id + 1)
    some { counts := c2, pairings := choice.2.2,
           «matches» := st.«matches» ++
             [mkRawMatch st.«matches».length homeTeam awayTeam now] }

/-- The while-loop of `generateLimitedMatches`, by fuel on the remaining
attempt budget. -/
def ltdLoop (teams : List Team) (maxPerTeam : Int) (maxTotal : Option Int)
    (now : Int) : Nat → LtdState → LtdState
  | 0, st => st
  | Nat.succ fuel, st =>
      if ltdGuard teams.length maxPerTeam maxTotal st.«matches».length then
        match ltdStep teams maxPerTeam now st with
        | none => st
        | some st' => ltdLoop teams maxPerTeam maxTotal now fuel st'
      else st

/-- Initialisation `teams.forEach(team => teamMatchCounts.set(team.id, 0))`. -/
def initCounts (teams : List Team) : List (String × Nat) :=
  teams.foldl (fun acc t => setAssoc acc t.id 0) []

/-- Warning emitted when `maxPerTeam` exceeds the unique-opponent ceiling. -/
def dupWarning (maxPerTeam maxUnique : Int) : String :=
  "Max matches per team (" ++ toString maxPerTeam ++
    ") exceeds unique opponents (" ++ toString maxUnique ++
    "). Duplicate matchups will occur."

/-- Effective `maxTotal`: JS `config.maxTotalMatches || Infinity`, with
`none` modelling `Infinity`. -/
def maxTotalEff (config : SchedulingConfig) : Option Int :=
  match config.maxTotalMatches with
  | some v => if v = 0 then none else some v
  | none => none

/-- The complete while-loop run of `generateLimitedMatches`: initial
per-team counters, empty pairing set, empty match list, full attempt budget. -/
def ltdRun (teams : List Team) (config : SchedulingConfig) (now : Int) :
    LtdState :=
  let maxPerTeam := jsOrInt config.maxMatchesPerTeam 3
  let maxTotal := maxTotalEff config
  ltdLoop teams maxPerTeam maxTotal now
    (ltdFuel teams.length maxPerTeam maxTotal)
    { counts := initCounts teams, pairings := [], «matches» := [] }

/-- Limited-matches generation, from `generateLimitedMatches` in
`scheduler.ts`.  Returns the assigned matches and the warnings the function
pushed into the caller-supplied warnings array. -/
def generateLimitedMatches (teams : List Team) (settings : TournamentSettings)
    (config : SchedulingConfig) (now : Int) :
    Except String (List Match × List String) :=
  let maxPerTeam := jsOrInt config.maxMatchesPerTeam 3
  let maxUniqueOpponents : Int := (teams.length : Int) - 1
  let warnings :=
    if maxUniqueOpponents < maxPerTeam then
      [dupWarning maxPerTeam maxUniqueOpponents]
    else []
  match assignTimeSlots (ltdRun teams config now).«matches» settings with
  | Except.error e => Except.error e
  | Except.ok assigned => Except.ok (assigned, warnings)

/-- Appends a match to the `(startTime)` bucket of one team's time map. -/
def pushBucket (inner : List (Int × List Match)) (tk : Int) (m : Match) :
    List (Int × List Match) :=
  match inner with
  | [] => [(tk, [m])]
  | (t, ms) :: rest =>
      if t = tk then (t, ms ++ [m]) :: rest else (t, ms) :: pushBucket rest tk m

/-- Appends a match to the `(teamId, startTime)` bucket of the grouping map
of `detectConflicts`; insertion order of keys is preserved, as for JS `Map`. -/
def pushTeamTime (outer : List (String × List (Int × List Match)))
    (tid : String) (tk : Int) (m : Match) :
    List (String × List (Int × List Match)) :=
  match outer with
  | [] => [(tid, [(tk, [m])])]
  | (id0, inner) :: rest =>
      if id0 = tid then (id0, pushBucket inner tk m) :: rest
      else (id0, inner) :: pushTeamTime rest tid tk m

/-- First grouping pass of `detectConflicts`: for each match, push it into the
buckets of its home team and then its away team (the `startTime.toISOString()`
bucket key is modelled by the timestamp itself). -/
def buildBuckets (ms : List Match) : List (String × List (Int × List Match)) :=
  ms.foldl (fun outer m =>
    pushTeamTime (pushTeamTime outer m.homeTeam.id m.startTime m)
      m.awayTeam.id m.startTime m) []

/-- Body of the emission loop of `detectConflicts` for a single bucket of one
team: emit a conflict when the bucket holds more than one match and its key
is not yet processed. -/
def conflictStep (tid : String)
    (acc : List ScheduleConflict × List (String × Int))
    (bucket : Int × List Match) :
    List ScheduleConflict × List (String × Int) :=
  match bucket.2 with
  | m0 :: _ :: _ =>
      if (tid, bucket.1) ∈ acc.2 then acc
      else
        let team := if m0.homeTeam.id = tid then m0.homeTeam else m0.awayTeam
        (acc.1 ++ [{ team := team, «matches» := bucket.2 }],
         (tid, bucket.1) :: acc.2)
  | _ => acc

/-- Emission loop of `detectConflicts` over the time map of one team. -/
def conflictEntry (acc : List ScheduleConflict × List (String × Int))
    (entry : String × List (Int × List Match)) :
    List ScheduleConflict × List (String × Int) :=
  entry.2.foldl (conflictStep entry.1) acc

/-- Second pass of `detectConflicts`: emit one conflict per bucket holding
more than one match; `processedConflicts` keys `teamId-timeKey` are modelled
as `(teamId, timestamp)` pairs. -/
def collectConflicts (outer : List (String × List (Int × List Match))) :
    List ScheduleConflict :=
  (outer.foldl conflictEntry ([], [])).1

/-- Conflict detection, from `detectConflicts` in `scheduler.ts`. -/
def detectConflicts (ms : List Match) : List ScheduleConflict :=
  collectConflicts (buildBuckets ms)

/-- Lookup of one team's time map in the grouping structure. -/
def innerGet (inner : List (Int × List Match)) (tk : Int) : List Match :=
  match inner with
  | [] => []
  | (t, ms) :: rest => if t = tk then ms else innerGet rest tk

/-- Lookup of a `(teamId, startTime)` bucket in the grouping structure. -/
def bucketGet (outer : List (String × List (Int × List Match)))
    (tid : String) (tk : Int) : List Match :=
  match outer with
  | [] => []
  | (id0, inner) :: rest =>
      if id0 = tid then innerGet inner tk else bucketGet rest tid tk

/-- Closed form of a `(teamId, startTime)` bucket: the matches involving the
team at that start time, pushed once per slot the team occupies. -/
def bucketsOf (tid : String) (tk : Int) : List Match → List Match
  | [] => []
  | m :: rest =>
      ((if m.homeTeam.id = tid ∧ m.startTime = tk then [m] else []) ++
        (if m.awayTeam.id = tid ∧ m.startTime = tk then [m] else [])) ++
        bucketsOf tid tk rest

/-- Well-formedness of the grouping structure: outer and inner keys are
unique. -/
def OuterWF (outer : List (String × List (Int × List Match))) : Prop :=
  (outer.map Prod.fst).Nodup ∧ ∀ e ∈ outer, (e.2.map Prod.fst).Nodup

/-- Validity of the duration-related fields per the data model:
`matchDurationMinutes ≥ 5`, `halfDurationMinutes ≥ 3` and
`halftimeBreakMinutes ≥ 0` whenever present. -/
def durationFieldsInBounds (s : TournamentSettings) : Prop :=
  (∀ v, s.matchDurationMinutes = some v → 5 ≤ v) ∧
  (∀ v, s.halfDurationMinutes = some v → 3 ≤ v) ∧
  (∀ v, s.halftimeBreakMinutes = some v → 0 ≤ v)

/-- Warning emitted when a BYE team is added for an odd team count. -/
def byeWarning : String :=
  "Odd number of teams: BYE team added for round-robin pairing"

/-- Summary warning emitted by `generateSchedule` when conflicts were found. -/
def conflictWarning (k : Nat) : String :=
  toString k ++
    " scheduling conflict(s) detected - same team playing multiple matches simultaneously"

/-- Warning emitted by `generateSchedule` for more than 100 matches. -/
def largeWarning (k : Nat) : String :=
  "Large tournament: " ++ toString k ++
    " matches scheduled. Consider breaking into phases."

/-- Tail of `generateSchedule`: conflict detection and the two policy-level
warnings (both are `push`ed, i.e. appended). -/
def finishSchedule (ms : List Match) (warnings1 : List String) :
    GeneratedSchedule :=
  let conflicts := detectConflicts ms
  let w2 :=
    if 0 < conflicts.length then warnings1 ++ [conflictWarning conflicts.length]
    else warnings1
  let w3 :=
    if 100 < ms.length then w2 ++ [largeWarning ms.length] else w2
  { «matches» := ms, conflicts := conflicts, warnings := w3 }

/-- Schedule generation, from `generateSchedule` in `scheduler.ts`.  `now`
models the wall clock read by `new Date()` for placeholder times. -/
def generateSchedule (settings : TournamentSettings) (teams : List Team)
    (config : SchedulingConfig) (now : Int) :
    Except String GeneratedSchedule :=
  let isOddRR :=
    config.mode = SchedulingMode.roundRobin ∧ teams.length % 2 ≠ 0
  let workingTeams := if isOddRR then teams ++ [BYE_TEAM] else teams
  let warnings0 : List String := if isOddRR then [byeWarning] else []
  match config.mode with
  | SchedulingMode.roundRobin =>
      match generateRoundRobinMatches workingTeams settings now with
      | Except.error e => Except.error e
      | Except.ok ms => Except.ok (finishSchedule ms warnings0)
  | SchedulingMode.limitedMatches =>
      match generateLimitedMatches workingTeams settings config now with
      | Except.error e => Except.error e
      | Except.ok pr =>
          -- the source passes its warnings array into generateLimitedMatches,
          -- which returns that same array, so `warnings.push(...result.warnings)`
          -- appends a copy of the accumulated warnings to themselves
          Except.ok (finishSchedule pr.1
            ((warnings0 ++ pr.2) ++ (warnings0 ++ pr.2)))

/-! Concrete fixtures used by the witness theorems. -/

/-- Team fixture with equal id and name. -/
def exTeam (s : String) : Team := { id := s, name := s }

/-- Settings fixture: two pitches, full-time 30-minute matches, 5-minute
breaks, valid start instant 0. -/
def exSettings : TournamentSettings :=
  { name := "cup", startDate := "2025-06-01", startTime := "09:00",
    startDateTime := some 0, numPitches := 2,
    matchMode := MatchMode.fullTime, matchDurationMinutes := some 30,
    halfDurationMinutes := none, halftimeBreakMinutes := none,
    breakBetweenMatches := 5 }

/-- Settings fixture in two-halves mode with a zero halftime break. -/
def exSettingsHalf : TournamentSettings :=
  { exSettings with
    numPitches := 1
    matchMode := MatchMode.twoHalves
    matchDurationMinutes := none
    halfDurationMinutes := some 3
    halftimeBreakMinutes := some 0 }

/-- Settings fixture whose start date/time does not parse. -/
def exSettingsBad : TournamentSettings :=
  { exSettings with
    startDate := "not-a-date"
    startDateTime := none }

/-- Round-robin configuration fixture. -/
def exRRConfig : SchedulingConfig :=
  { mode := SchedulingMode.roundRobin, maxMatchesPerTeam := none,
    maxTotalMatches := none }

/-- Limited-matches configuration fixture with `maxMatchesPerTeam = k`. -/
def exLtdConfig (k : Int) : SchedulingConfig :=
  { mode := SchedulingMode.limitedMatches, maxMatchesPerTeam := some k,
    maxTotalMatches := none }

/-- Four-team fixture list. -/
def exTeams4 : List Team := [exTeam "A", exTeam "B", exTeam "C", exTeam "D"]

/-! Predicates used to state the claims. -/

/-- The two matches involve a common team (by id). -/
def sharesTeam (m1 m2 : Match) : Prop :=
  m1.homeTeam.id = m2.homeTeam.id ∨ m1.homeTeam.id = m2.awayTeam.id ∨
  m1.awayTeam.id = m2.homeTeam.id ∨ m1.awayTeam.id = m2.awayTeam.id

/-- The half-open intervals `[startTime, endTime)` of the two matches meet. -/
def overlaps (m1 m2 : Match) : Prop :=
  m1.startTime < m2.endTime ∧ m2.startTime < m1.endTime

/-- No-overlap property of a pair of matches: same pitch or a common team
forces disjoint time intervals. -/
def noClash (m1 m2 : Match) : Prop :=
  (m1.pitch = m2.pitch → ¬ overlaps m1 m2) ∧
  (sharesTeam m1 m2 → ¬ overlaps m1 m2)

/-- Sequencing property established by the greedy assignment: a later-assigned
match on the same pitch or with a shared team starts no earlier than the end
of the earlier one. -/
def seqSep (m1 m2 : Match) : Prop :=
  (m1.pitch = m2.pitch ∨ sharesTeam m1 m2) → m1.endTime ≤ m2.startTime

/-- The match agrees with another one on identity and teams (the fields the
assignment loop never touches). -/
def sameCore (a b : Match) : Prop :=
  a.id = b.id ∧ a.homeTeam = b.homeTeam ∧ a.awayTeam = b.awayTeam

/-- State bound for one already-assigned match: both team entries of
`teamLastEndTime` and the pitch entry of `pitchNextAvailable` dominate its
end time. -/
def endBounded (st : AssignState) (m : Match) : Prop :=
  (∃ e, lookupEnd st.teamLastEnd m.homeTeam.id = some e ∧ m.endTime ≤ e) ∧
  (∃ e, lookupEnd st.teamLastEnd m.awayTeam.id = some e ∧ m.endTime ≤ e) ∧
  (∃ p, m.pitch = p + 1 ∧ p < st.pitchAvail.length ∧
    m.endTime ≤ st.pitchAvail.getD p 0)

/-- Loop invariant: every already-assigned match is state-bounded. -/
def DoneInv (done : List Match) (st : AssignState) : Prop :=
  ∀ m ∈ done, endBounded st m

/-- A match involves the team with the given id. -/
def involvesB (tid : String) (m : Match) : Bool :=
  m.homeTeam.id = tid || m.awayTeam.id = tid

/-- Number of matches of the list involving the team with the given id. -/
def appearCount (tid : String) (ms : List Match) : Nat :=
  ms.countP (involvesB tid)

/-- A match between the teams with the two given ids, in either orientation. -/
def isPairOf (a b : String) (m : Match) : Bool :=
  (m.homeTeam.id = a && m.awayTeam.id = b) ||
  (m.homeTeam.id = b && m.awayTeam.id = a)

/-- Number of matches of the list between the two given team ids. -/
def pairCount (a b : String) (ms : List Match) : Nat :=
  ms.countP (isPairOf a b)

/-- Replaces the placeholder times of a raw match by another wall-clock
reading; relates the raw matches produced under two different clocks. -/
def retime (now : Int) (m : Match) : Match :=
  { m with startTime := now, endTime := now }

/-- Pointwise `retime` on the match list of a limited-matches loop state. -/
def stRetime (now : Int) (st : LtdState) : LtdState :=
  { counts := st.counts, pairings := st.pairings,
    «matches» := st.«matches».map (retime now) }

/-! Closed forms used to analyse the circle method of
`generateRoundRobinMatches` (`m` abbreviates `n - 1` throughout). -/

/-- Closed form of the `teamIndexes` list after `r` rotations: position 0
always holds index 0, and position `j + 1` holds `(j - r) mod m + 1`,
written with natural subtraction as `(j + (m - r)) % m + 1`. -/
def rrIdxs (m r : Nat) : List Nat :=
  0 :: (List.range m).map (fun j => (j + (m - r)) % m + 1)

/-- Closed form of the index pair emitted at round `r`, slot `i`. -/
def slotPair (m r i : Nat) : Nat × Nat :=
  if i = 0 then (0, m - r)
  else ((i - 1 + (m - r)) % m + 1, (m - i - 1 + (m - r)) % m + 1)

/-- All index pairs of round `r` for `n` teams. -/
def roundPairs (n r : Nat) : List (Nat × Nat) :=
  (List.range ((n + 1) / 2)).map (slotPair (n - 1) r)

/-- All index pairs of the full circle-method schedule for `n` teams. -/
def allPairs (n : Nat) : List (Nat × Nat) :=
  (List.range (n - 1)).flatMap (roundPairs n)

/-- Canonical (sorted) form of an index pair. -/
def cpair (pr : Nat × Nat) : Nat × Nat := (min pr.1 pr.2, max pr.1 pr.2)

/-- The index pair `pr` is the unordered pair `{u, w}`. -/
def isUPair (u w : Nat) (pr : Nat × Nat) : Bool :=
  (pr.1 = u && pr.2 = w) || (pr.1 = w && pr.2 = u)

/-- The index pair `pr` contains the index `p`. -/
def containsIdx (p : Nat) (pr : Nat × Nat) : Bool :=
  pr.1 = p || pr.2 = p

/-- A raw match realises an index pair when its home and away teams are the
teams at those positions. -/
def matchAtPair (teams : List Team) (mt : Match) (pr : Nat × Nat) : Prop :=
  mt.homeTeam = teams.getD pr.1 dummyTeam ∧
  mt.awayTeam = teams.getD pr.2 dummyTeam

/-- The set of canonical index pairs over `n` indices. -/
def canonPairs (n : Nat) : Finset (Nat × Nat) :=
  ((Finset.range n) ×ˢ (Finset.range n)).filter (fun pr => pr.1 < pr.2)

/-- The conflict record the emission pass of `detectConflicts` builds for one
bucket of one team's time map: the team object is resolved from the first
match of the bucket, the matches list is the whole bucket. -/
def conflictOf (tid : String) (bucket : List Match) : ScheduleConflict :=
  match bucket with
  | m0 :: _ =>
      { team := if m0.homeTeam.id = tid then m0.homeTeam else m0.awayTeam,
        «matches» := bucket }
  | [] => { team := dummyTeam, «matches» := [] }

/-- The conflicts the emission pass produces from a grouping structure, in
traversal order: one record per bucket holding more than one match. -/
def emittedConflicts (outer : List (String × List (Int × List Match))) :
    List ScheduleConflict :=
  outer.flatMap (fun e =>
    (e.2.filter (fun b => 2 ≤ b.2.length)).map (fun b => conflictOf e.1 b.2))

/-- The while-loop guard as the SPEC words it: continue while the match
count is below `min(maxTotalMatches ?? ∞, ⌊teams.length*maxMatchesPerTeam/2⌋)`
with the quotient FLOORED — for comparison with `ltdGuard`, which renders the
source's unfloored float threshold `teams.length * maxMatchesPerTeam / 2`. -/
def ltdGuardSpec (numTeams : Nat) (maxPerTeam : Int) (maxTotal : Option Int)
    (len : Nat) : Bool :=
  ((len : Int) < (numTeams : Int) * maxPerTeam / 2) &&
    (match maxTotal with
     | some mt => ((len : Int) < mt)
     | none => true)

/-- Recogniser for the conflict record of the `(tid, tk)` bucket: a conflict
whose team id is `tid` and whose match list is exactly that bucket. -/
def conflictPred (tid : String) (tk : Int) (ms : List Match)
    (c : ScheduleConflict) : Bool :=
  decide (c.team.id = tid ∧ c.«matches» = bucketsOf tid tk ms)

/-- Two concrete matches sharing team B at the same start time. -/
def wM1 : Match :=
  { id := "m1", homeTeam := exTeam "A", awayTeam := exTeam "B",
    startTime := 0, endTime := 1, pitch := 1 }

/-- Second match of the concrete conflicting pair. -/
def wM2 : Match :=
  { id := "m2", homeTeam := exTeam "B", awayTeam := exTeam "C",
    startTime := 0, endTime := 1, pitch := 2 }

theorem sharesTeam_symm {m1 m2 : Match} (h : sharesTeam m1 m2) :
    sharesTeam m2 m1 := by
  unfold sharesTeam at h ⊢; tauto

theorem noClash_symm {m1 m2 : Match} (h : noClash m1 m2) : noClash m2 m1 := by
  obtain ⟨hp, ht⟩ := h
  refine ⟨fun he hov => hp he.symm ⟨hov.2, hov.1⟩,
    fun hs hov => ht (sharesTeam_symm hs) ⟨hov.2, hov.1⟩⟩

theorem seqSep_noClash {m1 m2 : Match} (h : seqSep m1 m2) : noClash m1 m2 := by
  constructor
  · intro hp hov
    exact absurd hov.2 (not_lt.mpr (h (Or.inl hp)))
  · intro hs hov
    exact absurd hov.2 (not_lt.mpr (h (Or.inr hs)))

/-! Permutation and membership facts about the stable sorts. -/

theorem insertByStart_perm (m : Match) (l : List Match) :
    (insertByStart m l).Perm (m :: l) := by
  induction l with
  | nil => simp [insertByStart]
  | cons x xs ih =>
      by_cases h : m.startTime ≤ x.startTime
      · simp [insertByStart, h]
      · simp only [insertByStart, if_neg h]
        exact ((ih.cons x).trans (List.Perm.swap m x xs))

theorem sortByStart_perm (l : List Match) : (sortByStart l).Perm l := by
  induction l with
  | nil => simp [sortByStart]
  | cons m ms ih =>
      exact (insertByStart_perm m (sortByStart ms)).trans (ih.cons m)

theorem insertByCount_perm (c : List (String × Nat)) (t : Team)
    (l : List Team) : (insertByCount c t l).Perm (t :: l) := by
  induction l with
  | nil => simp [insertByCount]
  | cons x xs ih =>
      by_cases h : getCount c t.id ≤ getCount c x.id
      · simp [insertByCount, h]
      · simp only [insertByCount, if_neg h]
        exact ((ih.cons x).trans (List.Perm.swap t x xs))

theorem sortByCount_perm (c : List (String × Nat)) (l : List Team) :
    (sortByCount c l).Perm l := by
  induction l with
  | nil => simp [sortByCount]
  | cons t ts ih =>
      exact (insertByCount_perm c t (sortByCount c ts)).trans (ih.cons t)

/-! Facts about `earliestStart` and `bestSlot`. -/

theorem earliestStart_ge_start (start0 : Int) (h a : Option Int) :
    start0 ≤ earliestStart start0 h a := by
  unfold earliestStart
  cases h with
  | none =>
      cases a with
      | none => simp
      | some t => dsimp only; split <;> omega
  | some t =>
      cases a with
      | none => dsimp only; split <;> omega
      | some u => dsimp only; split <;> split <;> omega

theorem earliestStart_ge_home (start0 : Int) {h : Option Int} (a : Option Int)
    {e : Int} (hh : h = some e) : e ≤ earliestStart start0 h a := by
  subst hh
  unfold earliestStart
  cases a with
  | none => dsimp only; split <;> omega
  | some u => dsimp only; split <;> split <;> omega

theorem earliestStart_ge_away (start0 : Int) (h : Option Int) {a : Option Int}
    {e : Int} (ha : a = some e) : e ≤ earliestStart start0 h a := by
  subst ha
  unfold earliestStart
  cases h with
  | none => dsimp only; split <;> omega
  | some t => dsimp only; split <;> split <;> omega

theorem bestSlot_isSome {l : List Int} (earliest : Int) (hl : l ≠ []) :
    ∃ p s, bestSlot earliest l = some (p, s) := by
  cases l with
  | nil => exact absurd rfl hl
  | cons a rest =>
      unfold bestSlot
      cases hrec : bestSlot earliest rest with
      | none => exact ⟨0, max earliest a, rfl⟩
      | some pr =>
          obtain ⟨p, s⟩ := pr
          by_cases hs : s < max earliest a
          · exact ⟨p + 1, s, by simp [hs]⟩
          · exact ⟨0, max earliest a, by simp [hs]⟩

theorem bestSlot_spec {l : List Int} {earliest : Int} {p : Nat} {s : Int}
    (h : bestSlot earliest l = some (p, s)) :
    p < l.length ∧ s = max earliest (l.getD p 0) := by
  induction l generalizing p s with
  | nil => simp [bestSlot] at h
  | cons a rest ih =>
      unfold bestSlot at h
      cases hrec : bestSlot earliest rest with
      | none =>
          rw [hrec] at h
          simp only [Option.some.injEq, Prod.mk.injEq] at h
          obtain ⟨hp, hs⟩ := h
          subst hp; subst hs
          simp
      | some pr =>
          obtain ⟨q, u⟩ := pr
          rw [hrec] at h
          by_cases hu : u < max earliest a
          · simp only [if_pos hu, Option.some.injEq, Prod.mk.injEq] at h
            obtain ⟨hp, hs⟩ := h
            obtain ⟨hq, hu'⟩ := ih hrec
            subst hs
            cases hp
            constructor
            · simpa using hq
            · simpa using hu'
          · simp only [if_neg hu, Option.some.injEq, Prod.mk.injEq] at h
            obtain ⟨hp, hs⟩ := h
            subst hp; subst hs
            simp

theorem bestSlot_ge_earliest {l : List Int} {earliest : Int} {p : Nat} {s : Int}
    (h : bestSlot earliest l = some (p, s)) : earliest ≤ s := by
  rcases bestSlot_spec h with ⟨-, hs⟩
  subst hs
  exact le_max_left _ _

/-! Invariant of the greedy assignment loop. -/

theorem lookup_after_update {st : AssignState} {m : Match} {endT : Int}
    {tid : String} {e : Int}
    (hold : lookupEnd st.teamLastEnd tid = some e)
    (hhome : ∀ e', lookupEnd st.teamLastEnd m.homeTeam.id = some e' → e' ≤ endT)
    (haway : ∀ e', lookupEnd st.teamLastEnd m.awayTeam.id = some e' → e' ≤ endT) :
    ∃ e2, lookupEnd ((m.awayTeam.id, endT) :: (m.homeTeam.id, endT) ::
      st.teamLastEnd) tid = some e2 ∧ e ≤ e2 := by
  by_cases ha : m.awayTeam.id = tid
  · refine ⟨endT, by simp [lookupEnd, ha], ?_⟩
    exact haway e (ha ▸ hold)
  · by_cases hh : m.homeTeam.id = tid
    · refine ⟨endT, by simp [lookupEnd, ha, hh], ?_⟩
      exact hhome e (hh ▸ hold)
    · exact ⟨e, by simp [lookupEnd, ha, hh, hold], le_refl e⟩

theorem assignOne_eq {dur brk start0 : Int} {st : AssignState} {m : Match}
    {p : Nat} {s : Int}
    (hbs : bestSlot (earliestStart start0
        (lookupEnd st.teamLastEnd m.homeTeam.id)
        (lookupEnd st.teamLastEnd m.awayTeam.id)) st.pitchAvail
      = some (p, s)) :
    assignOne dur brk start0 st m =
      ({ m with pitch := p + 1, startTime := s, endTime := s + dur * 60000 },
       { teamLastEnd := (m.awayTeam.id, s + dur * 60000) ::
           (m.homeTeam.id, s + dur * 60000) :: st.teamLastEnd,
         pitchAvail := st.pitchAvail.set p (s + dur * 60000 + brk * 60000) }) := by
  simp only [assignOne]
  rw [hbs]

theorem assignOne_spec (dur brk start0 : Int) (st : AssignState) (m : Match)
    (hdur : 0 ≤ dur) (hbrk : 0 ≤ brk) (hav : st.pitchAvail ≠ [])
    {done : List Match} (hinv : DoneInv done st) :
    sameCore (assignOne dur brk start0 st m).1 m ∧
    (assignOne dur brk start0 st m).1.endTime
      = (assignOne dur brk start0 st m).1.startTime + dur * 60000 ∧
    (assignOne dur brk start0 st m).2.pitchAvail.length
      = st.pitchAvail.length ∧
    DoneInv (done ++ [(assignOne dur brk start0 st m).1])
      (assignOne dur brk start0 st m).2 ∧
    (∀ x ∈ done, seqSep x (assignOne dur brk start0 st m).1) := by
  set E := earliestStart start0
    (lookupEnd st.teamLastEnd m.homeTeam.id)
    (lookupEnd st.teamLastEnd m.awayTeam.id) with hE
  obtain ⟨p, s, hbs⟩ := bestSlot_isSome E hav
  obtain ⟨hp, hsmax⟩ := bestSlot_spec hbs
  have hsE : E ≤ s := hsmax ▸ le_max_left _ _
  have hsavail : st.pitchAvail.getD p 0 ≤ s := hsmax ▸ le_max_right _ _
  have hdm : (0 : Int) ≤ dur * 60000 := by positivity
  have hbm : (0 : Int) ≤ brk * 60000 := by positivity
  rw [assignOne_eq hbs]
  have hhomeB : ∀ e', lookupEnd st.teamLastEnd m.homeTeam.id = some e' →
      e' ≤ s + dur * 60000 := by
    intro e' he'
    have := earliestStart_ge_home start0
      (lookupEnd st.teamLastEnd m.awayTeam.id) he'
    omega
  have hawayB : ∀ e', lookupEnd st.teamLastEnd m.awayTeam.id = some e' →
      e' ≤ s + dur * 60000 := by
    intro e' he'
    have := earliestStart_ge_away start0
      (lookupEnd st.teamLastEnd m.homeTeam.id) he'
    omega
  refine ⟨⟨rfl, rfl, rfl⟩, rfl, List.length_set _ _ _, ?_, ?_⟩
  · intro x hx
    rcases List.mem_append.mp hx with hxd | hxm
    · obtain ⟨⟨e1, hl1, he1⟩, ⟨e2, hl2, he2⟩, ⟨q, hq1, hq2, hq3⟩⟩ := hinv x hxd
      refine ⟨?_, ?_, ⟨q, hq1, by simpa using hq2, ?_⟩⟩
      · obtain ⟨e3, hl3, he3⟩ := lookup_after_update hl1 hhomeB hawayB
        exact ⟨e3, hl3, le_trans he1 he3⟩
      · obtain ⟨e3, hl3, he3⟩ := lookup_after_update hl2 hhomeB hawayB
        exact ⟨e3, hl3, le_trans he2 he3⟩
      · by_cases hqp : q = p
        · subst hqp
          rw [List.getD_eq_getElem?_getD, List.getElem?_set_self hq2]
          simp only [Option.getD_some]
          omega
        · rw [List.getD_eq_getElem?_getD, List.getElem?_set_ne (Ne.symm hqp),
            ← List.getD_eq_getElem?_getD]
          exact hq3
    · rw [List.mem_singleton.mp hxm]
      refine ⟨⟨s + dur * 60000, ?_, le_refl _⟩,
        ⟨s + dur * 60000, by simp [lookupEnd], le_refl _⟩,
        ⟨p, rfl, by simpa using hp, ?_⟩⟩
      · by_cases hha : m.awayTeam.id = m.homeTeam.id
        · simp [lookupEnd, hha]
        · simp [lookupEnd, hha]
      · rw [List.getD_eq_getElem?_getD, List.getElem?_set_self hp]
        simp only [Option.getD_some]
        omega
  · intro x hxd hcond
    dsimp only [sharesTeam] at hcond
    obtain ⟨⟨e1, hl1, he1⟩, ⟨e2, hl2, he2⟩, ⟨q, hq1, hq2, hq3⟩⟩ := hinv x hxd
    show x.endTime ≤ s
    rcases hcond with hpitch | hshare
    · have hqp : q = p := by
        have : q + 1 = p + 1 := by rw [← hq1]; exact hpitch
        omega
      subst hqp
      exact le_trans hq3 hsavail
    · rcases hshare with h1 | h1 | h1 | h1
      · have := earliestStart_ge_home start0
          (lookupEnd st.teamLastEnd m.awayTeam.id) (h1 ▸ hl1)
        omega
      · have := earliestStart_ge_away start0
          (lookupEnd st.teamLastEnd m.homeTeam.id) (h1 ▸ hl1)
        omega
      · have := earliestStart_ge_home start0
          (lookupEnd st.teamLastEnd m.awayTeam.id) (h1 ▸ hl2)
        omega
      · have := earliestStart_ge_away start0
          (lookupEnd st.teamLastEnd m.homeTeam.id) (h1 ▸ hl2)
        omega

theorem assignOne_core (dur brk start0 : Int) (st : AssignState) (m : Match) :
    sameCore (assignOne dur brk start0 st m).1 m := by
  simp only [assignOne]
  split
  · exact ⟨rfl, rfl, rfl⟩
  · exact ⟨rfl, rfl, rfl⟩

theorem assignLoop_cores (dur brk start0 : Int) :
    ∀ (input : List Match) (st : AssignState),
      List.Forall₂ sameCore (assignLoop dur brk start0 st input).1 input := by
  intro input
  induction input with
  | nil => intro st; exact List.Forall₂.nil
  | cons m ms ih =>
      intro st
      exact List.Forall₂.cons (assignOne_core dur brk start0 st m)
        (ih (assignOne dur brk start0 st m).2)

theorem assignLoop_spec (dur brk start0 : Int) (hdur : 0 ≤ dur)
    (hbrk : 0 ≤ brk) :
    ∀ (input done : List Match) (st : AssignState),
      st.pitchAvail ≠ [] → DoneInv done st → done.Pairwise seqSep →
      (done ++ (assignLoop dur brk start0 st input).1).Pairwise seqSep ∧
      DoneInv (done ++ (assignLoop dur brk start0 st input).1)
        (assignLoop dur brk start0 st input).2 ∧
      (∀ y ∈ (assignLoop dur brk start0 st input).1,
        y.endTime = y.startTime + dur * 60000) ∧
      (assignLoop dur brk start0 st input).2.pitchAvail.length
        = st.pitchAvail.length := by
  intro input
  induction input with
  | nil =>
      intro done st _ hinv hpw
      exact ⟨by simpa [assignLoop] using hpw, by simpa [assignLoop] using hinv,
        by simp [assignLoop], rfl⟩
  | cons m ms ih =>
      intro done st hav hinv hpw
      obtain ⟨hcore, hend, hlen, hinv', hsep'⟩ :=
        assignOne_spec dur brk start0 st m hdur hbrk hav hinv
      have hpw' : (done ++ [(assignOne dur brk start0 st m).1]).Pairwise seqSep := by
        rw [List.pairwise_append]
        exact ⟨hpw, List.pairwise_singleton _ _, by
          intro a ha b hb
          rw [List.mem_singleton.mp hb]
          exact hsep' a ha⟩
      have hav' : (assignOne dur brk start0 st m).2.pitchAvail ≠ [] := by
        intro hnil
        apply hav
        have : st.pitchAvail.length = 0 := by rw [← hlen, hnil]; rfl
        exact List.length_eq_zero.mp this
      obtain ⟨rpw, rinv, rend, rlen⟩ :=
        ih (done ++ [(assignOne dur brk start0 st m).1])
          (assignOne dur brk start0 st m).2 hav' hinv' hpw'
      have hshape : assignLoop dur brk start0 st (m :: ms) =
          ((assignOne dur brk start0 st m).1 ::
            (assignLoop dur brk start0
              (assignOne dur brk start0 st m).2 ms).1,
           (assignLoop dur brk start0
              (assignOne dur brk start0 st m).2 ms).2) := rfl
      rw [hshape]
      refine ⟨?_, ?_, ?_, ?_⟩
      · have : done ++ (assignOne dur brk start0 st m).1 ::
            (assignLoop dur brk start0
              (assignOne dur brk start0 st m).2 ms).1
            = (done ++ [(assignOne dur brk start0 st m).1]) ++
              (assignLoop dur brk start0
                (assignOne dur brk start0 st m).2 ms).1 := by
          simp
        rw [this]
        exact rpw
      · intro x hx
        apply rinv
        simp only [List.append_assoc, List.singleton_append] at hx ⊢
        exact hx
      · intro y hy
        rcases List.mem_cons.mp hy with hy1 | hy2
        · rw [hy1]; exact hend
        · exact rend y hy2
      · rw [rlen]; exact hlen

theorem assignTimeSlots_some {ms : List Match} {settings : TournamentSettings}
    {t : Int} (hsd : settings.startDateTime = some t) :
    assignTimeSlots ms settings = Except.ok (sortByStart
      (assignLoop (calculateMatchDuration settings)
        settings.breakBetweenMatches t
        ⟨[], List.replicate settings.numPitches t⟩ ms).1) := by
  unfold assignTimeSlots
  rw [hsd]

theorem assignTimeSlots_none {ms : List Match} {settings : TournamentSettings}
    (hsd : settings.startDateTime = none) :
    assignTimeSlots ms settings = Except.error
      ("Invalid tournament start date/time: " ++ settings.startDate ++ " " ++
        settings.startTime) := by
  unfold assignTimeSlots
  rw [hsd]

/-- Every `ok` result of `generateSchedule` carries either the empty match
list (round-robin with fewer than two working teams) or the output of
`assignTimeSlots` on some raw match list. -/
theorem generate_via_assign {settings : TournamentSettings}
    {teams : List Team} {config : SchedulingConfig} {now : Int}
    {sched : GeneratedSchedule}
    (hok : generateSchedule settings teams config now = Except.ok sched) :
    sched.«matches» = [] ∨
    ∃ raw, assignTimeSlots raw settings = Except.ok sched.«matches» := by
  obtain ⟨mode, mmax, mtot⟩ := config
  cases mode with
  | roundRobin =>
      simp only [generateSchedule, generateRoundRobinMatches, true_and] at hok
      by_cases hodd : teams.length % 2 ≠ 0
      · simp only [if_pos hodd] at hok
        by_cases hlen : (teams ++ [BYE_TEAM]).length < 2
        · simp only [if_pos hlen] at hok
          cases hok
          exact Or.inl rfl
        · simp only [if_neg hlen] at hok
          cases hres : assignTimeSlots (roundRobinRaw (teams ++ [BYE_TEAM]) now) settings with
          | error e => rw [hres] at hok; exact absurd hok (by simp)
          | ok out =>
              rw [hres] at hok
              cases hok
              exact Or.inr ⟨_, hres⟩
      · simp only [if_neg hodd] at hok
        by_cases hlen : teams.length < 2
        · simp only [if_pos hlen] at hok
          cases hok
          exact Or.inl rfl
        · simp only [if_neg hlen] at hok
          cases hres : assignTimeSlots (roundRobinRaw teams now) settings with
          | error e => rw [hres] at hok; exact absurd hok (by simp)
          | ok out =>
              rw [hres] at hok
              cases hok
              exact Or.inr ⟨_, hres⟩
  | limitedMatches =>
      simp only [generateSchedule, generateLimitedMatches] at hok
      simp only [show (SchedulingMode.limitedMatches = SchedulingMode.roundRobin ∧
          teams.length % 2 ≠ 0) = False from by simp, if_false] at hok
      split at hok
      · simp at hok
      · rename_i pr heq
        cases hok
        split at heq
        · exact absurd heq (by simp)
        · rename_i assigned hassign
          cases heq
          exact Or.inr ⟨_, hassign⟩

/-- Core no-overlap lemma: any `ok` schedule of `generateSchedule` with at
least one pitch, a parseable start and nonnegative duration and break has
pairwise non-clashing matches. -/
theorem generate_matches_noClash {settings : TournamentSettings}
    {teams : List Team} {config : SchedulingConfig} {now t : Int}
    {sched : GeneratedSchedule}
    (hp : 1 ≤ settings.numPitches)
    (hsd : settings.startDateTime = some t)
    (hdur : 0 ≤ calculateMatchDuration settings)
    (hbrk : 0 ≤ settings.breakBetweenMatches)
    (hok : generateSchedule settings teams config now = Except.ok sched) :
    sched.«matches».Pairwise noClash := by
  rcases generate_via_assign hok with hnil | ⟨raw, hassign⟩
  · rw [hnil]
    exact List.Pairwise.nil
  · rw [assignTimeSlots_some hsd] at hassign
    have heq := Except.ok.inj hassign
    rw [← heq]
    have hrepl : (⟨[], List.replicate settings.numPitches t⟩ :
        AssignState).pitchAvail ≠ [] := by
      intro h
      have := congrArg List.length h
      simp at this
      omega
    obtain ⟨hpw, -, -, -⟩ := assignLoop_spec (calculateMatchDuration settings)
      settings.breakBetweenMatches t hdur hbrk raw []
      ⟨[], List.replicate settings.numPitches t⟩ hrepl
      (fun m hm => absurd hm (List.not_mem_nil m)) List.Pairwise.nil
    simp only [List.nil_append] at hpw
    have hnc := hpw.imp (fun h => seqSep_noClash h)
    exact (List.Perm.pairwise_iff (fun h => noClash_symm h)
      (sortByStart_perm _)).mpr hnc

/-- C1: for every schedule returned by `generate` (with at least one pitch, a
parseable start date/time, positive effective match duration and nonnegative
break), no two matches on the same pitch have overlapping
`[startTime, endTime)` intervals, and no two matches sharing a team have
overlapping intervals. -/
theorem C1_no_overlap (settings : TournamentSettings) (teams : List Team)
    (config : SchedulingConfig) (now t : Int) (sched : GeneratedSchedule)
    (hp : 1 ≤ settings.numPitches)
    (hsd : settings.startDateTime = some t)
    (hdur : 0 < calculateMatchDuration settings)
    (hbrk : 0 ≤ settings.breakBetweenMatches)
    (hok : generateSchedule settings teams config now = Except.ok sched) :
    sched.«matches».Pairwise noClash :=
  generate_matches_noClash hp hsd (le_of_lt hdur) hbrk hok

/-- Witness for C1 at a concrete four-team round-robin tournament. -/
theorem C1_no_overlap_witness :
    ∃ sched, generateSchedule exSettings exTeams4 exRRConfig 0 =
      Except.ok sched ∧ sched.«matches».Pairwise noClash := by
  refine ⟨_, rfl, ?_⟩
  exact C1_no_overlap exSettings exTeams4 exRRConfig 0 0 _ (by decide) rfl
    (by decide) (by decide) rfl

/-- C4 counterexample: with an unparseable start date/time but an empty team
list in round-robin mode, `generate` returns a `GeneratedSchedule` (the
round-robin generator returns before the slot assigner, which hosts the date
check, ever runs) instead of failing with an error. -/
theorem C4_invalid_date_counterexample :
    generateSchedule exSettingsBad [] exRRConfig 0 =
      Except.ok { «matches» := [], conflicts := [], warnings := [] } := rfl

/-- C4 (amended): if the start date/time does not parse, `generate` fails
with the invalid-date error in limited-matches mode and in round-robin mode
with a nonempty team list; only round-robin with zero teams escapes the check. -/
theorem C4_invalid_date_error (settings : TournamentSettings)
    (teams : List Team) (config : SchedulingConfig) (now : Int)
    (hsd : settings.startDateTime = none)
    (hne : config.mode = SchedulingMode.limitedMatches ∨ teams ≠ []) :
    generateSchedule settings teams config now =
      Except.error ("Invalid tournament start date/time: " ++
        settings.startDate ++ " " ++ settings.startTime) := by
  obtain ⟨mode, mmax, mtot⟩ := config
  cases mode with
  | roundRobin =>
      have hteams : teams ≠ [] := by
        rcases hne with hmode | hne
        · exact absurd hmode (by simp)
        · exact hne
      have hlen1 : 1 ≤ teams.length := List.length_pos.mpr hteams
      simp only [generateSchedule, generateRoundRobinMatches, true_and]
      by_cases hodd : teams.length % 2 ≠ 0
      · have hlen : ¬ (teams ++ [BYE_TEAM]).length < 2 := by
          simp only [List.length_append, List.length_singleton]
          omega
        simp only [if_pos hodd, if_neg hlen]
        rw [assignTimeSlots_none hsd]
      · have hlen : ¬ teams.length < 2 := by omega
        simp only [if_neg hodd, if_neg hlen]
        rw [assignTimeSlots_none hsd]
  | limitedMatches =>
      simp only [generateSchedule, generateLimitedMatches,
        show (SchedulingMode.limitedMatches = SchedulingMode.roundRobin ∧
          teams.length % 2 ≠ 0) = False from by simp, if_false]
      rw [assignTimeSlots_none hsd]

/-- Witness for the amended C4 at a concrete one-team round-robin input. -/
theorem C4_invalid_date_error_witness :
    generateSchedule exSettingsBad [exTeam "A"] exRRConfig 0 =
      Except.error ("Invalid tournament start date/time: " ++
        exSettingsBad.startDate ++ " " ++ exSettingsBad.startTime) :=
  C4_invalid_date_error exSettingsBad [exTeam "A"] exRRConfig 0 rfl
    (Or.inr (by decide))

/-- C3 as a code bug: in two-halves mode with `halfDurationMinutes = 3` and
`halftimeBreakMinutes = 0` (a value the data model and the app's own form
validation allow), the code computes `2*3 + 5 = 11` minutes — the JS `|| 5`
treats the legitimate value `0` as absent — so `endTime - startTime` is
`11` minutes instead of the specified `2*3 + 0 = 6`. -/
theorem C3_duration_zero_halftime :
    exSettingsHalf.matchMode = MatchMode.twoHalves ∧
    exSettingsHalf.halfDurationMinutes = some 3 ∧
    exSettingsHalf.halftimeBreakMinutes = some 0 ∧
    calculateMatchDuration exSettingsHalf = 11 ∧
    ∃ sched m,
      generateSchedule exSettingsHalf [exTeam "A", exTeam "B"] exRRConfig 0 =
        Except.ok sched ∧
      sched.«matches» = [m] ∧
      m.endTime - m.startTime = 11 * 60000 ∧
      m.endTime - m.startTime ≠ (2 * 3 + 0) * 60000 := by
  refine ⟨rfl, rfl, rfl, rfl, _, _, rfl, rfl, by decide, by decide⟩

/-- Every `ok` result of `generateSchedule` is a `finishSchedule` value. -/
theorem generate_finish {settings : TournamentSettings} {teams : List Team}
    {config : SchedulingConfig} {now : Int} {sched : GeneratedSchedule}
    (hok : generateSchedule settings teams config now = Except.ok sched) :
    ∃ ms w, sched = finishSchedule ms w := by
  obtain ⟨mode, mmax, mtot⟩ := config
  cases mode with
  | roundRobin =>
      simp only [generateSchedule, generateRoundRobinMatches, true_and] at hok
      by_cases hodd : teams.length % 2 ≠ 0
      · simp only [if_pos hodd] at hok
        by_cases hlen : (teams ++ [BYE_TEAM]).length < 2
        · simp only [if_pos hlen] at hok
          cases hok
          exact ⟨_, _, rfl⟩
        · simp only [if_neg hlen] at hok
          cases hres : assignTimeSlots (roundRobinRaw (teams ++ [BYE_TEAM]) now)
              settings with
          | error e => rw [hres] at hok; exact absurd hok (by simp)
          | ok out =>
              rw [hres] at hok
              cases hok
              exact ⟨_, _, rfl⟩
      · simp only [if_neg hodd] at hok
        by_cases hlen : teams.length < 2
        · simp only [if_pos hlen] at hok
          cases hok
          exact ⟨_, _, rfl⟩
        · simp only [if_neg hlen] at hok
          cases hres : assignTimeSlots (roundRobinRaw teams now) settings with
          | error e => rw [hres] at hok; exact absurd hok (by simp)
          | ok out =>
              rw [hres] at hok
              cases hok
              exact ⟨_, _, rfl⟩
  | limitedMatches =>
      simp only [generateSchedule, generateLimitedMatches,
        show (SchedulingMode.limitedMatches = SchedulingMode.roundRobin ∧
          teams.length % 2 ≠ 0) = False from by simp, if_false] at hok
      split at hok
      · simp at hok
      · rename_i pr heq
        cases hok
        exact ⟨_, _, rfl⟩

/-- C9 counterexample: in limited-matches mode with a duplicated team id the
schedule carries conflicts, yet the conflict-summary warning sits after the
duplicate-matchup warnings — it is appended by `push`, not prepended. -/
theorem C9_prepend_counterexample :
    ∃ sched, generateSchedule exSettings [exTeam "A", exTeam "A"]
        (exLtdConfig 3) 0 = Except.ok sched ∧
      0 < sched.conflicts.length ∧
      sched.warnings = [dupWarning 3 1, dupWarning 3 1, conflictWarning 2] ∧
      sched.warnings.head? ≠ some (conflictWarning sched.conflicts.length) := by
  refine ⟨_, rfl, by decide, by decide, by decide⟩

/-- C9 (amended): when conflicts are found, the summary warning naming their
count is appended after the pipeline warnings (and before the
large-tournament warning); when more than 100 matches are scheduled, the
large-tournament warning is appended at the very end. -/
theorem C9_warning_positions (settings : TournamentSettings)
    (teams : List Team) (config : SchedulingConfig) (now : Int)
    (sched : GeneratedSchedule)
    (hok : generateSchedule settings teams config now = Except.ok sched) :
    (0 < sched.conflicts.length →
      ∃ w1, sched.warnings =
        (w1 ++ [conflictWarning sched.conflicts.length]) ++
          (if 100 < sched.«matches».length then
            [largeWarning sched.«matches».length] else [])) ∧
    (100 < sched.«matches».length →
      ∃ w2, sched.warnings = w2 ++ [largeWarning sched.«matches».length]) := by
  obtain ⟨ms, w, rfl⟩ := generate_finish hok
  constructor
  · intro hc
    refine ⟨w, ?_⟩
    show (if 100 < ms.length then
        (if 0 < (detectConflicts ms).length then
          w ++ [conflictWarning (detectConflicts ms).length] else w) ++
          [largeWarning ms.length]
      else
        (if 0 < (detectConflicts ms).length then
          w ++ [conflictWarning (detectConflicts ms).length] else w)) = _
    rw [if_pos (show 0 < (detectConflicts ms).length from hc)]
    by_cases hl : 100 < ms.length
    · rw [if_pos hl, if_pos (show 100 <
        (finishSchedule ms w).«matches».length from hl)]
      rfl
    · rw [if_neg hl, if_neg (show ¬ 100 <
        (finishSchedule ms w).«matches».length from hl)]
      simp only [List.append_nil]
      rfl
  · intro hl
    refine ⟨if 0 < (detectConflicts ms).length then
      w ++ [conflictWarning (detectConflicts ms).length] else w, ?_⟩
    show (if 100 < ms.length then _ ++ [largeWarning ms.length] else _) = _
    rw [if_pos (show 100 < ms.length from hl)]
    rfl

/-- Witness for the amended C9 at the concrete conflicting input. -/
theorem C9_warning_positions_witness :
    ∃ sched, generateSchedule exSettings [exTeam "A", exTeam "A"]
        (exLtdConfig 3) 0 = Except.ok sched ∧
      ∃ w1, sched.warnings =
        (w1 ++ [conflictWarning sched.conflicts.length]) ++
          (if 100 < sched.«matches».length then
            [largeWarning sched.«matches».length] else []) := by
  refine ⟨_, rfl, ?_⟩
  exact (C9_warning_positions exSettings [exTeam "A", exTeam "A"]
    (exLtdConfig 3) 0 _ rfl).1 (by decide)

/-! Association-list and selection lemmas for the limited-matches loop. -/

theorem getD_mem {α : Type} (l : List α) (n : Nat) (d : α)
    (h : n < l.length) : l.getD n d ∈ l := by
  rw [List.getD_eq_getElem?_getD, List.getElem?_eq_getElem h]
  exact List.getElem_mem h

theorem getCount_setAssoc_self (counts : List (String × Nat)) (k : String)
    (v : Nat) : getCount (setAssoc counts k v) k = v := by
  induction counts with
  | nil => simp [setAssoc, getCount, lookupAssoc]
  | cons kv rest ih =>
      obtain ⟨k', v'⟩ := kv
      by_cases hk : k' = k
      · simp [setAssoc, hk, getCount, lookupAssoc]
      · simp only [setAssoc, if_neg hk]
        simpa [getCount, lookupAssoc, hk] using ih

theorem getCount_setAssoc_ne (counts : List (String × Nat)) (k : String)
    (v : Nat) (k' : String) (h : k ≠ k') :
    getCount (setAssoc counts k v) k' = getCount counts k' := by
  induction counts with
  | nil => simp [setAssoc, getCount, lookupAssoc, h]
  | cons kv rest ih =>
      obtain ⟨k0, v0⟩ := kv
      by_cases hk : k0 = k
      · subst hk
        simp [setAssoc, getCount, lookupAssoc, h]
      · simp only [setAssoc, if_neg hk]
        by_cases hk' : k0 = k'
        · simp [getCount, lookupAssoc, hk']
        · simpa [getCount, lookupAssoc, hk'] using ih

theorem setAssoc_keys_of_mem (counts : List (String × Nat)) (k : String)
    (v : Nat) (h : k ∈ counts.map Prod.fst) :
    (setAssoc counts k v).map Prod.fst = counts.map Prod.fst := by
  induction counts with
  | nil => simp at h
  | cons kv rest ih =>
      obtain ⟨k0, v0⟩ := kv
      by_cases hk : k0 = k
      · simp [setAssoc, hk]
      · simp only [List.map_cons] at h
        rcases List.mem_cons.mp h with h1 | h1
        · exact absurd h1.symm hk
        · simp [setAssoc, if_neg hk, ih h1]

theorem setAssoc_sum_incr (counts : List (String × Nat)) (k : String)
    (h : k ∈ counts.map Prod.fst) :
    ((setAssoc counts k (getCount counts k + 1)).map Prod.snd).sum =
      (counts.map Prod.snd).sum + 1 := by
  induction counts with
  | nil => simp at h
  | cons kv rest ih =>
      obtain ⟨k0, v0⟩ := kv
      by_cases hk : k0 = k
      · subst hk
        simp [setAssoc, getCount, lookupAssoc]
        omega
      · simp only [List.map_cons] at h
        rcases List.mem_cons.mp h with h1 | h1
        · exact absurd h1.symm hk
        · have : getCount ((k0, v0) :: rest) k = getCount rest k := by
            simp [getCount, lookupAssoc, hk]
          rw [this]
          simp only [setAssoc, if_neg hk, List.map_cons, List.sum_cons, ih h1]
          omega

theorem setAssoc_values_bound (counts : List (String × Nat)) (k : String)
    (v : Nat) (P : Nat → Prop) (hall : ∀ kv ∈ counts, P kv.2) (hv : P v) :
    ∀ kv ∈ setAssoc counts k v, P kv.2 := by
  induction counts with
  | nil =>
      intro kv hkv
      simp only [setAssoc, List.mem_singleton] at hkv
      rw [hkv]
      exact hv
  | cons kv0 rest ih =>
      obtain ⟨k0, v0⟩ := kv0
      intro kv hkv
      by_cases hk : k0 = k
      · simp only [setAssoc, if_pos hk] at hkv
        rcases List.mem_cons.mp hkv with h1 | h1
        · rw [h1]; exact hv
        · exact hall kv (List.mem_cons_of_mem _ h1)
      · simp only [setAssoc, if_neg hk] at hkv
        rcases List.mem_cons.mp hkv with h1 | h1
        · rw [h1]; exact hall (k0, v0) (List.mem_cons_self _ _)
        · exact ih (fun x hx => hall x (List.mem_cons_of_mem _ hx)) kv h1

theorem findPartner_mem {pairings : List String} {t1 t2 : Team}
    {l : List Team} (h : findPartner pairings t1 l = some t2) : t2 ∈ l := by
  induction l with
  | nil => simp [findPartner] at h
  | cons x xs ih =>
      unfold findPartner at h
      by_cases hx : pairKeyOf t1.id x.id ∈ pairings
      · rw [if_pos hx] at h
        exact List.mem_cons_of_mem _ (ih h)
      · rw [if_neg hx] at h
        cases h
        exact List.mem_cons_self _ _

theorem findUnusedPair_mem {pairings : List String} {t1 t2 : Team}
    {l : List Team} (h : findUnusedPair pairings l = some (t1, t2)) :
    t1 ∈ l ∧ t2 ∈ l := by
  induction l with
  | nil => simp [findUnusedPair] at h
  | cons x xs ih =>
      unfold findUnusedPair at h
      cases hfp : findPartner pairings x xs with
      | some t2' =>
          rw [hfp] at h
          simp only [Option.some.injEq, Prod.mk.injEq] at h
          obtain ⟨h1, h2⟩ := h
          subst h1; subst h2
          exact ⟨List.mem_cons_self _ _,
            List.mem_cons_of_mem _ (findPartner_mem hfp)⟩
      | none =>
          rw [hfp] at h
          obtain ⟨h1, h2⟩ := ih h
          exact ⟨List.mem_cons_of_mem _ h1, List.mem_cons_of_mem _ h2⟩

theorem findUnusedPair_ne {pairings : List String} {t1 t2 : Team}
    {l : List Team} (hnd : (l.map Team.id).Nodup)
    (h : findUnusedPair pairings l = some (t1, t2)) : t1.id ≠ t2.id := by
  induction l with
  | nil => simp [findUnusedPair] at h
  | cons x xs ih =>
      unfold findUnusedPair at h
      simp only [List.map_cons, List.nodup_cons] at hnd
      cases hfp : findPartner pairings x xs with
      | some t2' =>
          rw [hfp] at h
          simp only [Option.some.injEq, Prod.mk.injEq] at h
          obtain ⟨h1, h2⟩ := h
          subst h1; subst h2
          intro heq
          exact hnd.1 (heq ▸ List.mem_map_of_mem Team.id (findPartner_mem hfp))
      | none =>
          rw [hfp] at h
          exact ih hnd.2 h

theorem nodup_getD_ne {l : List Team} (hnd : (l.map Team.id).Nodup)
    (hl : 2 ≤ l.length) : (l.getD 0 dummyTeam).id ≠ (l.getD 1 dummyTeam).id := by
  match l, hl with
  | a :: b :: rest, _ =>
      simp only [List.map_cons, List.nodup_cons] at hnd
      intro heq
      exact hnd.1 (by
        simp only [List.getD_cons_zero, List.getD_cons_succ] at heq
        rw [heq]
        exact List.mem_cons_self _ _)

theorem mem_available {teams : List Team} {counts : List (String × Nat)}
    {maxPerTeam : Int} {t : Team}
    (ht : t ∈ teams.filter
      (fun t => ((getCount counts t.id : Int) < maxPerTeam))) :
    t ∈ teams ∧ (getCount counts t.id : Int) < maxPerTeam := by
  have h := List.mem_filter.mp ht
  refine ⟨h.1, ?_⟩
  have := h.2
  simpa using this

theorem ltdStep_spec {teams : List Team} {maxPerTeam now : Int}
    {st st' : LtdState}
    (h : ltdStep teams maxPerTeam now st = some st') :
    ∃ home away : Team,
      home ∈ teams ∧ away ∈ teams ∧
      ((getCount st.counts home.id : Int) < maxPerTeam) ∧
      ((getCount st.counts away.id : Int) < maxPerTeam) ∧
      ((teams.map Team.id).Nodup → home.id ≠ away.id) ∧
      st'.«matches» = st.«matches» ++
        [mkRawMatch st.«matches».length home away now] ∧
      st'.counts =
        setAssoc (setAssoc st.counts home.id (getCount st.counts home.id + 1))
          away.id (getCount (setAssoc st.counts home.id
            (getCount st.counts home.id + 1)) away.id + 1) := by
  simp only [ltdStep] at h
  split at h
  · exact absurd h (by simp)
  · rename_i hlen2
    have hlen2' : 2 ≤ (teams.filter
        (fun t => ((getCount st.counts t.id : Int) < maxPerTeam))).length := by
      omega
    have hperm := sortByCount_perm st.counts (teams.filter
      (fun t => ((getCount st.counts t.id : Int) < maxPerTeam)))
    have hndsorted : (teams.map Team.id).Nodup →
        ((sortByCount st.counts (teams.filter
          (fun t => ((getCount st.counts t.id : Int) < maxPerTeam)))).map
            Team.id).Nodup := by
      intro hnd
      have hsub := (List.filter_sublist (l := teams)
        (p := fun t => ((getCount st.counts t.id : Int) < maxPerTeam))).map
          Team.id
      exact ((hperm.map Team.id).nodup_iff).mpr (hsub.nodup hnd)
    cases hfind : findUnusedPair st.pairings (sortByCount st.counts
        (teams.filter
          (fun t => ((getCount st.counts t.id : Int) < maxPerTeam)))) with
    | some pr =>
        rw [hfind] at h
        cases h
        obtain ⟨hm1, hm2⟩ := findUnusedPair_mem hfind
        obtain ⟨ht1, hc1⟩ := mem_available (hperm.mem_iff.mp hm1)
        obtain ⟨ht2, hc2⟩ := mem_available (hperm.mem_iff.mp hm2)
        exact ⟨pr.1, pr.2, ht1, ht2, hc1, hc2,
          fun hnd => findUnusedPair_ne (hndsorted hnd) (by
            rw [← hfind]), rfl, rfl⟩
    | none =>
        rw [hfind] at h
        cases h
        have hlens : 2 ≤ (sortByCount st.counts (teams.filter
            (fun t => ((getCount st.counts t.id : Int) < maxPerTeam)))).length := by
          rw [hperm.length_eq]
          exact hlen2'
        have hm1 := getD_mem (sortByCount st.counts (teams.filter
          (fun t => ((getCount st.counts t.id : Int) < maxPerTeam))))
          0 dummyTeam (by omega)
        have hm2 := getD_mem (sortByCount st.counts (teams.filter
          (fun t => ((getCount st.counts t.id : Int) < maxPerTeam))))
          1 dummyTeam (by omega)
        obtain ⟨ht1, hc1⟩ := mem_available (hperm.mem_iff.mp hm1)
        obtain ⟨ht2, hc2⟩ := mem_available (hperm.mem_iff.mp hm2)
        exact ⟨_, _, ht1, ht2, hc1, hc2,
          fun hnd => nodup_getD_ne (hndsorted hnd) hlens, rfl, rfl⟩

theorem appearCount_push (tid : String) (ms : List Match) (k : Nat)
    (h a : Team) (now : Int) :
    appearCount tid (ms ++ [mkRawMatch k h a now]) =
      appearCount tid ms + (if h.id = tid ∨ a.id = tid then 1 else 0) := by
  simp only [appearCount, List.countP_append, List.countP_cons,
    List.countP_nil, involvesB, mkRawMatch]
  by_cases hh : h.id = tid <;> by_cases ha : a.id = tid <;>
    simp [hh, ha]

theorem ltdLoop_appear_bound (teams : List Team) (maxPerTeam : Int)
    (maxTotal : Option Int) (now : Int) :
    ∀ (fuel : Nat) (st : LtdState),
      (∀ tid, (appearCount tid st.«matches» : Int) ≤
        (getCount st.counts tid : Int)) →
      (∀ tid, (appearCount tid st.«matches» : Int) ≤ maxPerTeam) →
      ∀ tid, (appearCount tid
        (ltdLoop teams maxPerTeam maxTotal now fuel st).«matches» : Int) ≤
          maxPerTeam := by
  intro fuel
  induction fuel with
  | zero =>
      intro st h1 h2 tid
      exact h2 tid
  | succ fuel ih =>
      intro st h1 h2
      show ∀ tid, (appearCount tid
        (if ltdGuard teams.length maxPerTeam maxTotal st.«matches».length then
          match ltdStep teams maxPerTeam now st with
          | none => st
          | some st' => ltdLoop teams maxPerTeam maxTotal now fuel st'
        else st).«matches» : Int) ≤ maxPerTeam
      by_cases hg : ltdGuard teams.length maxPerTeam maxTotal
          st.«matches».length
      · rw [if_pos hg]
        cases hstep : ltdStep teams maxPerTeam now st with
        | none => exact h2
        | some st' =>
            obtain ⟨home, away, -, -, hch, hca, -, hm, hc⟩ :=
              ltdStep_spec hstep
            apply ih st'
            · intro tid
              rw [hm, hc, appearCount_push]
              by_cases hta : away.id = tid
              · subst hta
                rw [getCount_setAssoc_self, if_pos (Or.inr rfl)]
                by_cases hha : home.id = away.id
                · rw [hha, getCount_setAssoc_self]
                  have := h1 away.id
                  omega
                · rw [getCount_setAssoc_ne _ _ _ _ hha]
                  have := h1 away.id
                  omega
              · by_cases hth : home.id = tid
                · subst hth
                  rw [getCount_setAssoc_ne _ _ _ _ hta,
                    getCount_setAssoc_self, if_pos (Or.inl rfl)]
                  have := h1 home.id
                  omega
                · rw [getCount_setAssoc_ne _ _ _ _ hta,
                    getCount_setAssoc_ne _ _ _ _ hth,
                    if_neg (by tauto : ¬ (home.id = tid ∨ away.id = tid))]
                  have := h1 tid
                  omega
            · intro tid
              rw [hm, appearCount_push]
              by_cases hinv : home.id = tid ∨ away.id = tid
              · rw [if_pos hinv]
                have h1t := h1 tid
                rcases hinv with hh | hh
                · subst hh
                  omega
                · subst hh
                  omega
              · rw [if_neg hinv]
                have := h2 tid
                omega
      · rw [if_neg hg]
        exact h2

theorem countP_of_forall₂ {p : Match → Bool} {l1 l2 : List Match}
    (h : List.Forall₂ sameCore l1 l2)
    (hp : ∀ m1 m2, sameCore m1 m2 → p m1 = p m2) :
    l1.countP p = l2.countP p := by
  induction h with
  | nil => rfl
  | @cons a b l1 l2 hab htail ih =>
      simp [List.countP_cons, ih, hp a b hab]

theorem assignTimeSlots_ok_inv {ms out : List Match}
    {settings : TournamentSettings}
    (hok : assignTimeSlots ms settings = Except.ok out) :
    ∃ t, settings.startDateTime = some t ∧
      out = sortByStart (assignLoop (calculateMatchDuration settings)
        settings.breakBetweenMatches t
        ⟨[], List.replicate settings.numPitches t⟩ ms).1 := by
  cases hsd : settings.startDateTime with
  | none =>
      rw [assignTimeSlots_none hsd] at hok
      exact absurd hok (by simp)
  | some t =>
      rw [assignTimeSlots_some hsd] at hok
      exact ⟨t, rfl, (Except.ok.inj hok).symm⟩

/-- Time assignment permutes the matches and rewrites only times and pitches,
so any counting predicate that depends only on id and teams is preserved. -/
theorem assignTimeSlots_countP {ms out : List Match}
    {settings : TournamentSettings} {p : Match → Bool}
    (hok : assignTimeSlots ms settings = Except.ok out)
    (hp : ∀ m1 m2, sameCore m1 m2 → p m1 = p m2) :
    out.countP p = ms.countP p := by
  obtain ⟨t, hsd, hout⟩ := assignTimeSlots_ok_inv hok
  rw [hout, List.Perm.countP_eq p (sortByStart_perm _)]
  exact countP_of_forall₂ (assignLoop_cores _ _ _ ms _) hp

theorem assignTimeSlots_length {ms out : List Match}
    {settings : TournamentSettings}
    (hok : assignTimeSlots ms settings = Except.ok out) :
    out.length = ms.length := by
  obtain ⟨t, hsd, hout⟩ := assignTimeSlots_ok_inv hok
  rw [hout, (sortByStart_perm _).length_eq]
  exact (assignLoop_cores _ _ _ ms _).length_eq

theorem generate_limited_eq {settings : TournamentSettings}
    {teams : List Team} {config : SchedulingConfig} {now : Int}
    {sched : GeneratedSchedule}
    (hmode : config.mode = SchedulingMode.limitedMatches)
    (hok : generateSchedule settings teams config now = Except.ok sched) :
    assignTimeSlots (ltdRun teams config now).«matches» settings =
      Except.ok sched.«matches» := by
  obtain ⟨mode, mmax, mtot⟩ := config
  cases mode with
  | roundRobin => exact absurd hmode (by simp)
  | limitedMatches =>
      simp only [generateSchedule, generateLimitedMatches,
        show (SchedulingMode.limitedMatches = SchedulingMode.roundRobin ∧
          teams.length % 2 ≠ 0) = False from by simp, if_false] at hok
      split at hok
      · simp at hok
      · rename_i pr heq
        cases hok
        split at heq
        · exact absurd heq (by simp)
        · rename_i assigned hassign
          cases heq
          exact hassign

/-- C5: in limited-matches mode with `maxMatchesPerTeam = k ≥ 1`, every team
appears, as home or away, in at most `k` of the returned matches — for every
team list and every optional `maxTotalMatches`. -/
theorem C5_per_team_bound (settings : TournamentSettings) (teams : List Team)
    (config : SchedulingConfig) (now : Int) (sched : GeneratedSchedule)
    (k : Int)
    (hmode : config.mode = SchedulingMode.limitedMatches)
    (hk : config.maxMatchesPerTeam = some k) (hk1 : 1 ≤ k)
    (hok : generateSchedule settings teams config now = Except.ok sched) :
    ∀ tid, (appearCount tid sched.«matches» : Int) ≤ k := by
  intro tid
  have hassign := generate_limited_eq hmode hok
  have hcount : appearCount tid sched.«matches» =
      appearCount tid (ltdRun teams config now).«matches» := by
    apply assignTimeSlots_countP hassign
    intro m1 m2 hcore
    simp [involvesB, hcore.2.1, hcore.2.2]
  rw [hcount]
  have hmt : jsOrInt config.maxMatchesPerTeam 3 = k := by
    rw [hk]
    simp only [jsOrInt]
    rw [if_neg (by omega)]
  have hloop := ltdLoop_appear_bound teams (jsOrInt config.maxMatchesPerTeam 3)
    (maxTotalEff config) now
    (ltdFuel teams.length (jsOrInt config.maxMatchesPerTeam 3)
      (maxTotalEff config))
    { counts := initCounts teams, pairings := [], «matches» := [] }
    (fun tid => by simp [appearCount]) (fun tid => by
      simp only [appearCount, List.countP_nil]
      rw [hmt]
      omega) tid
  rw [← hmt]
  exact hloop

/-- Witness for C5 at a concrete four-team limited-matches tournament. -/
theorem C5_per_team_bound_witness :
    ∃ sched, generateSchedule exSettings exTeams4 (exLtdConfig 2) 0 =
      Except.ok sched ∧
      ∀ tid, (appearCount tid sched.«matches» : Int) ≤ 2 := by
  refine ⟨_, rfl, ?_⟩
  exact C5_per_team_bound exSettings exTeams4 (exLtdConfig 2) 0 _ 2 rfl rfl
    (by decide) rfl

theorem setAssoc_append_of_not_mem {l : List (String × Nat)} {k : String}
    (v : Nat) (h : k ∉ l.map Prod.fst) : setAssoc l k v = l ++ [(k, v)] := by
  induction l with
  | nil => rfl
  | cons kv rest ih =>
      obtain ⟨k0, v0⟩ := kv
      simp only [List.map_cons, List.mem_cons] at h
      push_neg at h
      have hk : ¬ k0 = k := fun he => h.1 he.symm
      simp only [setAssoc, if_neg hk, List.cons_append]
      rw [ih h.2]

theorem initCounts_go_keys :
    ∀ (teams : List Team) (acc : List (String × Nat)),
      (∀ t ∈ teams, t.id ∉ acc.map Prod.fst) → (teams.map Team.id).Nodup →
      (teams.foldl (fun acc t => setAssoc acc t.id 0) acc).map Prod.fst =
        acc.map Prod.fst ++ teams.map Team.id := by
  intro teams
  induction teams with
  | nil => intro acc _ _; simp
  | cons t ts ih =>
      intro acc hdis hnd
      simp only [List.map_cons, List.nodup_cons] at hnd
      simp only [List.foldl_cons]
      rw [setAssoc_append_of_not_mem 0 (hdis t (List.mem_cons_self _ _)),
        ih _ ?_ hnd.2]
      · simp
      · intro u hu
        simp only [List.map_append, List.map_cons, List.map_nil,
          List.mem_append, List.mem_singleton]
        push_neg
        refine ⟨hdis u (List.mem_cons_of_mem _ hu), ?_⟩
        intro he
        exact hnd.1 (he ▸ List.mem_map_of_mem Team.id hu)

theorem initCounts_keys (teams : List Team)
    (hnd : (teams.map Team.id).Nodup) :
    (initCounts teams).map Prod.fst = teams.map Team.id := by
  have := initCounts_go_keys teams [] (by simp) hnd
  simpa [initCounts] using this

theorem initCounts_values :
    ∀ (teams : List Team) (acc : List (String × Nat)),
      (∀ kv ∈ acc, kv.2 = 0) →
      ∀ kv ∈ teams.foldl (fun acc t => setAssoc acc t.id 0) acc, kv.2 = 0 := by
  intro teams
  induction teams with
  | nil => intro acc h; simpa using h
  | cons t ts ih =>
      intro acc h
      simp only [List.foldl_cons]
      exact ih _ (setAssoc_values_bound acc t.id 0 (fun v => v = 0) h rfl)

theorem values_sum_le (l : List (String × Nat)) (M : Int)
    (hall : ∀ kv ∈ l, (kv.2 : Int) ≤ M) :
    ((l.map Prod.snd).sum : Int) ≤ (l.length : Int) * M := by
  induction l with
  | nil => simp
  | cons kv rest ih =>
      have h1 := hall kv (List.mem_cons_self _ _)
      have h2 := ih (fun x hx => hall x (List.mem_cons_of_mem _ hx))
      have hcast : (((kv.2 :: rest.map Prod.snd).sum : Nat) : Int) =
          (kv.2 : Int) + ((rest.map Prod.snd).sum : Int) := by
        simp [List.sum_cons]
      rw [List.map_cons, hcast, List.length_cons]
      have hlen : ((rest.length + 1 : Nat) : Int) = (rest.length : Int) + 1 := by
        push_cast
        ring
      rw [hlen, add_mul, one_mul]
      omega

theorem ltdLoop_inv_counts (teams : List Team) (maxPerTeam : Int)
    (maxTotal : Option Int) (now : Int)
    (hnd : (teams.map Team.id).Nodup) :
    ∀ (fuel : Nat) (st : LtdState),
      st.counts.map Prod.fst = teams.map Team.id →
      (∀ kv ∈ st.counts, (kv.2 : Int) ≤ maxPerTeam) →
      (st.counts.map Prod.snd).sum = 2 * st.«matches».length →
      (∀ mt, maxTotal = some mt → (st.«matches».length : Int) ≤ mt) →
      ((ltdLoop teams maxPerTeam maxTotal now fuel st).counts.map Prod.fst =
        teams.map Team.id) ∧
      (∀ kv ∈ (ltdLoop teams maxPerTeam maxTotal now fuel st).counts,
        (kv.2 : Int) ≤ maxPerTeam) ∧
      ((ltdLoop teams maxPerTeam maxTotal now fuel st).counts.map
        Prod.snd).sum =
        2 * (ltdLoop teams maxPerTeam maxTotal now fuel st).«matches».length ∧
      (∀ mt, maxTotal = some mt →
        ((ltdLoop teams maxPerTeam maxTotal now fuel st).«matches».length :
          Int) ≤ mt) := by
  intro fuel
  induction fuel with
  | zero =>
      intro st h1 h2 h3 h4
      exact ⟨h1, h2, h3, h4⟩
  | succ fuel ih =>
      intro st h1 h2 h3 h4
      have hunf : ltdLoop teams maxPerTeam maxTotal now (fuel + 1) st =
          (if ltdGuard teams.length maxPerTeam maxTotal
              st.«matches».length then
            match ltdStep teams maxPerTeam now st with
            | none => st
            | some st' => ltdLoop teams maxPerTeam maxTotal now fuel st'
          else st) := rfl
      rw [hunf]
      by_cases hg : ltdGuard teams.length maxPerTeam maxTotal
          st.«matches».length
      · simp only [if_pos hg]
        cases hstep : ltdStep teams maxPerTeam now st with
        | none => exact ⟨h1, h2, h3, h4⟩
        | some st' =>
            obtain ⟨home, away, hht, hat, hch, hca, hne, hm, hc⟩ :=
              ltdStep_spec hstep
            have hne' : home.id ≠ away.id := hne hnd
            have hhk : home.id ∈ st.counts.map Prod.fst := by
              rw [h1]
              exact List.mem_map_of_mem Team.id hht
            have hak : away.id ∈ st.counts.map Prod.fst := by
              rw [h1]
              exact List.mem_map_of_mem Team.id hat
            have hkeys1 : (setAssoc st.counts home.id
                (getCount st.counts home.id + 1)).map Prod.fst =
                st.counts.map Prod.fst :=
              setAssoc_keys_of_mem _ _ _ hhk
            have hak1 : away.id ∈ (setAssoc st.counts home.id
                (getCount st.counts home.id + 1)).map Prod.fst := by
              rw [hkeys1]
              exact hak
            have hgc1 : getCount (setAssoc st.counts home.id
                (getCount st.counts home.id + 1)) away.id =
                getCount st.counts away.id :=
              getCount_setAssoc_ne _ _ _ _ hne'
            apply ih st'
            · rw [hc, setAssoc_keys_of_mem _ _ _ hak1, hkeys1, h1]
            · rw [hc]
              refine setAssoc_values_bound _ _ _
                (fun v => (v : Int) ≤ maxPerTeam) ?_ ?_
              · refine setAssoc_values_bound _ _ _
                  (fun v => (v : Int) ≤ maxPerTeam) h2 ?_
                push_cast
                omega
              · rw [hgc1]
                push_cast
                omega
            · rw [hc, hm, setAssoc_sum_incr _ _ hak1,
                setAssoc_sum_incr _ _ hhk]
              simp only [List.length_append, List.length_singleton]
              omega
            · intro mt hmt
              rw [hm]
              simp only [List.length_append, List.length_singleton]
              have hgd := hg
              simp only [ltdGuard, hmt, Bool.and_eq_true,
                decide_eq_true_eq] at hgd
              push_cast
              omega
      · simp only [if_neg hg]
        exact ⟨h1, h2, h3, h4⟩

/-- C6: in limited-matches mode with valid configuration (per the data model:
distinct team ids, `maxMatchesPerTeam = k ≥ 1`, `maxTotalMatches ≥ 1` when
provided), the number of returned matches never exceeds
`⌊teams.length * k / 2⌋`, and never exceeds `maxTotalMatches` when provided. -/
theorem C6_total_bound (settings : TournamentSettings) (teams : List Team)
    (config : SchedulingConfig) (now : Int) (sched : GeneratedSchedule)
    (k : Int)
    (hmode : config.mode = SchedulingMode.limitedMatches)
    (hk : config.maxMatchesPerTeam = some k) (hk1 : 1 ≤ k)
    (hnd : (teams.map Team.id).Nodup)
    (hmtv : ∀ mt, config.maxTotalMatches = some mt → 1 ≤ mt)
    (hok : generateSchedule settings teams config now = Except.ok sched) :
    (sched.«matches».length : Int) ≤ ((teams.length : Int) * k) / 2 ∧
    (∀ mt, config.maxTotalMatches = some mt →
      (sched.«matches».length : Int) ≤ mt) := by
  have hassign := generate_limited_eq hmode hok
  have hlen := assignTimeSlots_length hassign
  have hmt : jsOrInt config.maxMatchesPerTeam 3 = k := by
    rw [hk]
    simp only [jsOrInt]
    rw [if_neg (by omega)]
  have hvals0 : ∀ kv ∈ initCounts teams,
      ((kv.2 : Nat) : Int) ≤ jsOrInt config.maxMatchesPerTeam 3 := by
    intro kv hkv
    have hz := initCounts_values teams [] (by simp) kv hkv
    rw [hz, hmt]
    simpa using le_trans zero_le_one hk1
  have hsum0 : ((initCounts teams).map Prod.snd).sum =
      2 * ([] : List Match).length := by
    simp only [List.length_nil, Nat.mul_zero]
    apply List.sum_eq_zero
    intro x hx
    obtain ⟨kv, hkv, hxeq⟩ := List.mem_map.mp hx
    rw [← hxeq]
    exact initCounts_values teams [] (by simp) kv hkv
  have hmt0 : ∀ mt, maxTotalEff config = some mt →
      ((([] : List Match).length : Nat) : Int) ≤ mt := by
    intro mt hmt'
    cases hc : config.maxTotalMatches with
    | none => simp [maxTotalEff, hc] at hmt'
    | some v =>
        simp only [maxTotalEff, hc] at hmt'
        by_cases hv : v = 0
        · rw [if_pos hv] at hmt'
          exact absurd hmt' (by simp)
        · rw [if_neg hv] at hmt'
          have := hmtv v hc
          cases hmt'
          simp
          omega
  obtain ⟨hkeysF, hvalsF, hsumF, hmtF⟩ := ltdLoop_inv_counts teams
    (jsOrInt config.maxMatchesPerTeam 3) (maxTotalEff config) now hnd
    (ltdFuel teams.length (jsOrInt config.maxMatchesPerTeam 3)
      (maxTotalEff config))
    { counts := initCounts teams, pairings := [], «matches» := [] }
    (initCounts_keys teams hnd) hvals0 hsum0 hmt0
  have hclen : ((ltdRun teams config now).counts.length : Int) =
      (teams.length : Int) := by
    have := congrArg List.length hkeysF
    simp only [List.length_map] at this
    exact_mod_cast this
  have hsum_le := values_sum_le (ltdRun teams config now).counts
    (jsOrInt config.maxMatchesPerTeam 3) hvalsF
  rw [hclen, hmt] at hsum_le
  have hsumF' : (((ltdRun teams config now).counts.map Prod.snd).sum : Int) =
      2 * ((ltdRun teams config now).«matches».length : Int) := by
    exact_mod_cast congrArg (Nat.cast : Nat → Int) hsumF
  rw [hsumF'] at hsum_le
  constructor
  · rw [hlen]
    generalize hT : (teams.length : Int) * k = T at hsum_le
    omega
  · intro mt hmt'
    have hne : maxTotalEff config = some mt := by
      simp only [maxTotalEff, hmt']
      rw [if_neg (by have := hmtv mt hmt'; omega)]
    rw [hlen]
    exact hmtF mt hne

/-- Witness for C6 at a concrete four-team limited-matches tournament. -/
theorem C6_total_bound_witness :
    ∃ sched, generateSchedule exSettings exTeams4 (exLtdConfig 2) 0 =
      Except.ok sched ∧
      (sched.«matches».length : Int) ≤ ((exTeams4.length : Int) * 2) / 2 := by
  refine ⟨_, rfl, ?_⟩
  exact (C6_total_bound exSettings exTeams4 (exLtdConfig 2) 0 _ 2 rfl rfl
    (by decide) (by decide) (by intro mt h; cases h) rfl).1

/-! Emptiness of the conflict detector on self-consistent schedules. -/

theorem duration_pos (s : TournamentSettings) (h : durationFieldsInBounds s) :
    0 < calculateMatchDuration s := by
  obtain ⟨h1, h2, h3⟩ := h
  unfold calculateMatchDuration
  cases s.matchMode with
  | fullTime =>
      cases hv : s.matchDurationMinutes with
      | none => simp [jsOrInt]
      | some v =>
          have := h1 v hv
          simp only [jsOrInt]
          split <;> omega
  | twoHalves =>
      have hhalf : 3 ≤ jsOrInt s.halfDurationMinutes 15 := by
        cases hv : s.halfDurationMinutes with
        | none => simp [jsOrInt]
        | some v =>
            have := h2 v hv
            simp only [jsOrInt]
            split <;> omega
      have hbreak : 0 ≤ jsOrInt s.halftimeBreakMinutes 5 := by
        cases hv : s.halftimeBreakMinutes with
        | none => simp [jsOrInt]
        | some v =>
            have := h3 v hv
            simp only [jsOrInt]
            split <;> omega
      dsimp only
      omega

theorem innerGet_push (inner : List (Int × List Match)) (tk' : Int)
    (m : Match) (tk : Int) :
    innerGet (pushBucket inner tk' m) tk =
      innerGet inner tk ++ (if tk' = tk then [m] else []) := by
  induction inner with
  | nil =>
      by_cases h : tk' = tk <;> simp [pushBucket, innerGet, h]
  | cons kv rest ih =>
      obtain ⟨t, ms⟩ := kv
      by_cases ht : t = tk'
      · subst ht
        by_cases htk : t = tk
        · subst htk
          simp [pushBucket, innerGet]
        · simp [pushBucket, innerGet, htk]
      · by_cases htk : t = tk
        · subst htk
          have hne : t ≠ tk' := ht
          simp [pushBucket, innerGet, ht, show tk' ≠ t from fun he => ht he.symm]
        · simp [pushBucket, innerGet, ht, htk, ih]

theorem bucketGet_push (outer : List (String × List (Int × List Match)))
    (tid' : String) (tk' : Int) (m : Match) (tid : String) (tk : Int) :
    bucketGet (pushTeamTime outer tid' tk' m) tid tk =
      bucketGet outer tid tk ++
        (if tid' = tid ∧ tk' = tk then [m] else []) := by
  induction outer with
  | nil =>
      by_cases hid : tid' = tid
      · subst hid
        by_cases htk : tk' = tk <;>
          simp [pushTeamTime, bucketGet, innerGet, htk]
      · simp [pushTeamTime, bucketGet, innerGet, hid]
  | cons kv rest ih =>
      obtain ⟨id0, inner⟩ := kv
      by_cases hid : id0 = tid'
      · subst hid
        by_cases htid : id0 = tid
        · subst htid
          simp only [pushTeamTime, if_pos rfl, bucketGet, if_pos rfl]
          rw [innerGet_push]
          by_cases htk : tk' = tk <;> simp [htk]
        · have hb : ¬ (id0 = tid ∧ tk' = tk) := fun hcc => htid hcc.1
          simp [pushTeamTime, bucketGet, htid, hb]
      · by_cases htid : id0 = tid
        · subst htid
          have hb : ¬ (tid' = id0 ∧ tk' = tk) := fun hcc => hid hcc.1.symm
          simp [pushTeamTime, bucketGet, hid, hb]
        · simp [pushTeamTime, bucketGet, hid, htid, ih]

theorem bucketGet_foldBuckets (tid : String) (tk : Int) :
    ∀ (ms : List Match) (outer : List (String × List (Int × List Match))),
      bucketGet (ms.foldl (fun outer m =>
        pushTeamTime (pushTeamTime outer m.homeTeam.id m.startTime m)
          m.awayTeam.id m.startTime m) outer) tid tk =
        bucketGet outer tid tk ++ bucketsOf tid tk ms := by
  intro ms
  induction ms with
  | nil => intro outer; simp [bucketsOf]
  | cons m rest ih =>
      intro outer
      simp only [List.foldl_cons]
      rw [ih, bucketGet_push, bucketGet_push, bucketsOf]
      simp [List.append_assoc]

theorem bucketGet_buildBuckets (ms : List Match) (tid : String) (tk : Int) :
    bucketGet (buildBuckets ms) tid tk = bucketsOf tid tk ms := by
  have := bucketGet_foldBuckets tid tk ms []
  simpa [buildBuckets, bucketGet] using this

theorem bucketsOf_eq_nil {tid : String} {tk : Int} {ms : List Match}
    (h : ∀ m ∈ ms, ¬((m.homeTeam.id = tid ∨ m.awayTeam.id = tid) ∧
      m.startTime = tk)) : bucketsOf tid tk ms = [] := by
  induction ms with
  | nil => rfl
  | cons m rest ih =>
      have hm := h m (List.mem_cons_self _ _)
      rw [bucketsOf, ih (fun x hx => h x (List.mem_cons_of_mem _ hx))]
      rw [if_neg (fun hc => hm ⟨Or.inl hc.1, hc.2⟩),
        if_neg (fun hc => hm ⟨Or.inr hc.1, hc.2⟩)]
      simp

theorem bucketsOf_length_le_one {tid : String} {tk : Int} {ms : List Match}
    (hself : ∀ m ∈ ms, m.homeTeam.id ≠ m.awayTeam.id)
    (hpw : ms.Pairwise (fun m1 m2 => sharesTeam m1 m2 →
      m1.startTime ≠ m2.startTime)) :
    (bucketsOf tid tk ms).length ≤ 1 := by
  induction ms with
  | nil => simp [bucketsOf]
  | cons m rest ih =>
      rw [List.pairwise_cons] at hpw
      obtain ⟨hm, hrest⟩ := hpw
      by_cases hc : (m.homeTeam.id = tid ∨ m.awayTeam.id = tid) ∧
          m.startTime = tk
      · have hrestnil : bucketsOf tid tk rest = [] := by
          apply bucketsOf_eq_nil
          intro m' hm' hcm'
          have hshares : sharesTeam m m' := by
            unfold sharesTeam
            rcases hc.1 with h1 | h1 <;> rcases hcm'.1 with h2 | h2 <;>
              [exact Or.inl (h1.trans h2.symm);
               exact Or.inr (Or.inl (h1.trans h2.symm));
               exact Or.inr (Or.inr (Or.inl (h1.trans h2.symm)));
               exact Or.inr (Or.inr (Or.inr (h1.trans h2.symm)))]
          exact hm m' hm' hshares (hc.2.trans hcm'.2.symm)
        rw [bucketsOf, hrestnil]
        have hnotboth : ¬(m.homeTeam.id = tid ∧ m.awayTeam.id = tid) := by
          intro hb
          exact hself m (List.mem_cons_self _ _) (hb.1.trans hb.2.symm)
        by_cases h1 : m.homeTeam.id = tid ∧ m.startTime = tk
        · rw [if_pos h1, if_neg (fun h2 => hnotboth ⟨h1.1, h2.1⟩)]
          simp
        · have h2 : m.awayTeam.id = tid ∧ m.startTime = tk := by
            rcases hc.1 with ha | ha
            · exact absurd ⟨ha, hc.2⟩ h1
            · exact ⟨ha, hc.2⟩
          rw [if_neg h1, if_pos h2]
          simp
      · rw [bucketsOf,
          if_neg (fun h1 => hc ⟨Or.inl h1.1, h1.2⟩),
          if_neg (fun h1 => hc ⟨Or.inr h1.1, h1.2⟩)]
        simpa using ih (fun x hx => hself x (List.mem_cons_of_mem _ hx)) hrest

theorem pushBucket_keys (inner : List (Int × List Match)) (tk : Int)
    (m : Match) :
    (pushBucket inner tk m).map Prod.fst =
      (if tk ∈ inner.map Prod.fst then inner.map Prod.fst
       else inner.map Prod.fst ++ [tk]) := by
  induction inner with
  | nil => simp [pushBucket]
  | cons kv rest ih =>
      obtain ⟨t, ms⟩ := kv
      by_cases ht : t = tk
      · subst ht
        simp [pushBucket]
      · simp only [pushBucket, if_neg ht, List.map_cons, ih]
        by_cases hmem : tk ∈ rest.map Prod.fst
        · rw [if_pos hmem, if_pos (by
            exact List.mem_cons_of_mem _ hmem)]
        · rw [if_neg hmem, if_neg (by
            intro hc
            rcases List.mem_cons.mp hc with h1 | h1
            · exact ht h1.symm
            · exact hmem h1)]
          simp

theorem pushTeamTime_keys (outer : List (String × List (Int × List Match)))
    (tid : String) (tk : Int) (m : Match) :
    (pushTeamTime outer tid tk m).map Prod.fst =
      (if tid ∈ outer.map Prod.fst then outer.map Prod.fst
       else outer.map Prod.fst ++ [tid]) := by
  induction outer with
  | nil => simp [pushTeamTime]
  | cons kv rest ih =>
      obtain ⟨id0, inner⟩ := kv
      by_cases hid : id0 = tid
      · subst hid
        simp [pushTeamTime]
      · simp only [pushTeamTime, if_neg hid, List.map_cons, ih]
        by_cases hmem : tid ∈ rest.map Prod.fst
        · rw [if_pos hmem, if_pos (List.mem_cons_of_mem _ hmem)]
        · rw [if_neg hmem, if_neg (by
            intro hc
            rcases List.mem_cons.mp hc with h1 | h1
            · exact hid h1.symm
            · exact hmem h1)]
          simp

theorem pushTeamTime_inner_nodup :
    ∀ (outer : List (String × List (Int × List Match))),
      (∀ e ∈ outer, (e.2.map Prod.fst).Nodup) →
      ∀ (tid : String) (tk : Int) (m : Match),
      ∀ e ∈ pushTeamTime outer tid tk m, (e.2.map Prod.fst).Nodup := by
  intro outer
  induction outer with
  | nil =>
      intro _ tid tk m e he
      simp only [pushTeamTime, List.mem_singleton] at he
      rw [he]
      simp
  | cons kv rest ih =>
      intro hinner tid tk m e he
      obtain ⟨id0, inner⟩ := kv
      by_cases hid : id0 = tid
      · simp only [pushTeamTime, if_pos hid] at he
        rcases List.mem_cons.mp he with h1 | h1
        · rw [h1]
          have hold := hinner (id0, inner) (List.mem_cons_self _ _)
          show ((pushBucket inner tk m).map Prod.fst).Nodup
          rw [pushBucket_keys]
          by_cases hmem : tk ∈ inner.map Prod.fst
          · rw [if_pos hmem]
            exact hold
          · rw [if_neg hmem]
            simp only [List.nodup_append, List.nodup_singleton]
            exact ⟨hold, by simp [hmem]⟩
        · exact hinner e (List.mem_cons_of_mem _ h1)
      · simp only [pushTeamTime, if_neg hid] at he
        rcases List.mem_cons.mp he with h1 | h1
        · rw [h1]
          exact hinner (id0, inner) (List.mem_cons_self _ _)
        · exact ih (fun x hx => hinner x (List.mem_cons_of_mem _ hx))
            tid tk m e h1

theorem pushTeamTime_WF {outer : List (String × List (Int × List Match))}
    (h : OuterWF outer) (tid : String) (tk : Int) (m : Match) :
    OuterWF (pushTeamTime outer tid tk m) := by
  obtain ⟨hkeys, hinner⟩ := h
  constructor
  · rw [pushTeamTime_keys]
    by_cases hmem : tid ∈ outer.map Prod.fst
    · rw [if_pos hmem]
      exact hkeys
    · rw [if_neg hmem]
      simp [List.nodup_append, hkeys, hmem]
  · exact pushTeamTime_inner_nodup outer hinner tid tk m

theorem buildBuckets_WF (ms : List Match) : OuterWF (buildBuckets ms) := by
  have hgen : ∀ (l : List Match) (outer), OuterWF outer →
      OuterWF (l.foldl (fun outer m =>
        pushTeamTime (pushTeamTime outer m.homeTeam.id m.startTime m)
          m.awayTeam.id m.startTime m) outer) := by
    intro l
    induction l with
    | nil => intro outer h; exact h
    | cons m rest ih =>
        intro outer h
        exact ih _ (pushTeamTime_WF (pushTeamTime_WF h _ _ _) _ _ _)
  exact hgen ms [] ⟨List.nodup_nil, fun e he => absurd he (List.not_mem_nil e)⟩

theorem innerGet_of_mem {inner : List (Int × List Match)} {tk : Int}
    {b : List Match} (hnd : (inner.map Prod.fst).Nodup)
    (hmem : (tk, b) ∈ inner) : innerGet inner tk = b := by
  induction inner with
  | nil => exact absurd hmem (List.not_mem_nil _)
  | cons kv rest ih =>
      obtain ⟨t, ms⟩ := kv
      simp only [List.map_cons, List.nodup_cons] at hnd
      rcases List.mem_cons.mp hmem with h1 | h1
      · cases h1
        simp [innerGet]
      · have ht : t ≠ tk := by
          intro he
          exact hnd.1 (he ▸ List.mem_map_of_mem Prod.fst h1)
        simp only [innerGet, if_neg ht]
        exact ih hnd.2 h1

theorem bucketGet_of_mem :
    ∀ {outer : List (String × List (Int × List Match))}, OuterWF outer →
    ∀ {tid : String} {inner : List (Int × List Match)} {tk : Int}
      {b : List Match},
      (tid, inner) ∈ outer → (tk, b) ∈ inner → bucketGet outer tid tk = b := by
  intro outer
  induction outer with
  | nil =>
      intro _ tid inner tk b h1 _
      exact absurd h1 (List.not_mem_nil _)
  | cons kv rest ih =>
      intro h tid inner tk b h1 h2
      obtain ⟨id0, inner0⟩ := kv
      obtain ⟨hkeys, hinner⟩ := h
      simp only [List.map_cons, List.nodup_cons] at hkeys
      rcases List.mem_cons.mp h1 with he | he
      · cases he
        simp only [bucketGet, if_pos rfl]
        exact innerGet_of_mem
          (hinner _ (List.mem_cons_self _ _)) h2
      · have hid : id0 ≠ tid := by
          intro heq
          exact hkeys.1 (heq ▸ List.mem_map_of_mem Prod.fst he)
        simp only [bucketGet, if_neg hid]
        exact ih ⟨hkeys.2,
          fun x hx => hinner x (List.mem_cons_of_mem _ hx)⟩ he h2

theorem conflictStep_skip {tid : String}
    {acc : List ScheduleConflict × List (String × Int)}
    {bucket : Int × List Match} (h : bucket.2.length ≤ 1) :
    conflictStep tid acc bucket = acc := by
  unfold conflictStep
  match hb : bucket.2 with
  | [] => rfl
  | [m0] => rfl
  | m0 :: m1 :: rest => rw [hb] at h; simp at h

theorem conflictEntry_skip {entry : String × List (Int × List Match)}
    (h : ∀ bucket ∈ entry.2, bucket.2.length ≤ 1) :
    ∀ acc, conflictEntry acc entry = acc := by
  obtain ⟨tid, inner⟩ := entry
  simp only [conflictEntry]
  induction inner with
  | nil => intro acc; rfl
  | cons bucket rest ih =>
      intro acc
      simp only [List.foldl_cons]
      rw [conflictStep_skip (h bucket (List.mem_cons_self _ _))]
      exact ih (fun b hb => h b (List.mem_cons_of_mem _ hb)) acc

theorem collectConflicts_nil
    {outer : List (String × List (Int × List Match))}
    (h : ∀ entry ∈ outer, ∀ bucket ∈ entry.2, bucket.2.length ≤ 1) :
    collectConflicts outer = [] := by
  have hgen : ∀ acc, outer.foldl conflictEntry acc = acc := by
    induction outer with
    | nil => intro acc; rfl
    | cons entry rest ih =>
        intro acc
        simp only [List.foldl_cons]
        rw [conflictEntry_skip (h entry (List.mem_cons_self _ _))]
        exact ih (fun e he => h e (List.mem_cons_of_mem _ he)) acc
  simp [collectConflicts, hgen]

/-- The conflict detector finds nothing on a match list in which no match
pairs a team id with itself and no two matches sharing a team start at the
same instant. -/
theorem detectConflicts_eq_nil {ms : List Match}
    (hself : ∀ m ∈ ms, m.homeTeam.id ≠ m.awayTeam.id)
    (hpw : ms.Pairwise (fun m1 m2 => sharesTeam m1 m2 →
      m1.startTime ≠ m2.startTime)) :
    detectConflicts ms = [] := by
  unfold detectConflicts
  apply collectConflicts_nil
  intro entry hentry bucket hbucket
  obtain ⟨tid, inner⟩ := entry
  obtain ⟨tk, b⟩ := bucket
  have hwf := buildBuckets_WF ms
  have hget := bucketGet_of_mem hwf hentry hbucket
  rw [bucketGet_buildBuckets] at hget
  show b.length ≤ 1
  rw [← hget]
  exact bucketsOf_length_le_one hself hpw

theorem nodup_getD_ne_nat {l : List Nat} (h : l.Nodup) {i j : Nat}
    (hi : i < l.length) (hj : j < l.length) (hij : i ≠ j) :
    l.getD i 0 ≠ l.getD j 0 := by
  rw [List.getD_eq_getElem?_getD, List.getElem?_eq_getElem hi,
    List.getD_eq_getElem?_getD, List.getElem?_eq_getElem hj]
  simp only [Option.getD_some]
  intro heq
  exact hij ((List.Nodup.getElem_inj_iff h).mp heq)

theorem rotateTeams_perm (l : List Nat) : (rotateTeams l).Perm l := by
  cases l with
  | nil => exact List.Perm.refl _
  | cons x rest =>
      cases hlast : rest.getLast? with
      | none =>
          have : rest = [] := List.getLast?_eq_none.mp hlast
          rw [this]
          exact List.Perm.refl _
      | some last =>
          have hne : rest ≠ [] := by
            intro h
            rw [h] at hlast
            cases hlast
          have hl : last = rest.getLast hne := by
            have := List.getLast?_eq_getLast rest hne
            rw [hlast] at this
            exact Option.some.inj this
          have hrw : rotateTeams (x :: rest) = x :: last :: rest.dropLast := by
            simp only [rotateTeams, hlast]
          rw [hrw]
          apply List.Perm.cons
          calc (last :: rest.dropLast).Perm (rest.dropLast ++ [last]) :=
                (List.perm_append_singleton _ _).symm
            _ = rest := by rw [hl, List.dropLast_append_getLast hne]

theorem rrRoundAcc_good {teams : List Team} {idxs : List Nat} {n : Nat}
    {now : Int} (h2 : 2 ≤ n) (heven : n % 2 = 0)
    (hnd : idxs.Nodup) (hlen : idxs.length = n)
    (hvals : ∀ v ∈ idxs, v < n) :
    ∀ (acc : List Match), ∀ m ∈ rrRoundAcc teams idxs n now acc,
      m ∈ acc ∨ ∃ h a, h < n ∧ a < n ∧ h ≠ a ∧
        m.homeTeam = teams.getD h dummyTeam ∧
        m.awayTeam = teams.getD a dummyTeam ∧
        m.homeTeam.id ≠ "BYE" ∧ m.awayTeam.id ≠ "BYE" := by
  unfold rrRoundAcc
  have hgen : ∀ (is : List Nat), (∀ i ∈ is, i < (n + 1) / 2) →
      ∀ (acc : List Match), ∀ m ∈ is.foldl (fun acc i =>
        if (teams.getD (rrPairIdx idxs n i).1 dummyTeam).id ≠ "BYE" ∧
            (teams.getD (rrPairIdx idxs n i).2 dummyTeam).id ≠ "BYE" then
          acc ++ [mkRawMatch acc.length
            (teams.getD (rrPairIdx idxs n i).1 dummyTeam)
            (teams.getD (rrPairIdx idxs n i).2 dummyTeam) now]
        else acc) acc,
      m ∈ acc ∨ ∃ h a, h < n ∧ a < n ∧ h ≠ a ∧
        m.homeTeam = teams.getD h dummyTeam ∧
        m.awayTeam = teams.getD a dummyTeam ∧
        m.homeTeam.id ≠ "BYE" ∧ m.awayTeam.id ≠ "BYE" := by
    intro is
    induction is with
    | nil => intro _ acc m hm; exact Or.inl hm
    | cons i rest ih =>
        intro his acc m hm
        simp only [List.foldl_cons] at hm
        have hi := his i (List.mem_cons_self _ _)
        have hstep := ih (fun j hj => his j (List.mem_cons_of_mem _ hj)) _ m hm
        rcases hstep with hstep | hgood
        · split at hstep
          · rename_i hbye
            rcases List.mem_append.mp hstep with hacc | hnew
            · exact Or.inl hacc
            · right
              rw [List.mem_singleton.mp hnew]
              have hpos : ∀ p1 p2 : Nat, p1 < n → p2 < n → p1 ≠ p2 →
                  rrPairIdx idxs n i = (idxs.getD p1 0, idxs.getD p2 0) →
                  ∃ h a, h < n ∧ a < n ∧ h ≠ a ∧
                    (mkRawMatch acc.length (teams.getD (rrPairIdx idxs n i).1
                      dummyTeam) (teams.getD (rrPairIdx idxs n i).2 dummyTeam)
                      now).homeTeam =
                      teams.getD h dummyTeam ∧
                    (mkRawMatch acc.length (teams.getD (rrPairIdx idxs n i).1
                      dummyTeam) (teams.getD (rrPairIdx idxs n i).2 dummyTeam)
                      now).awayTeam =
                      teams.getD a dummyTeam ∧
                    (teams.getD (rrPairIdx idxs n i).1 dummyTeam).id ≠ "BYE" ∧
                    (teams.getD (rrPairIdx idxs n i).2 dummyTeam).id ≠
                      "BYE" := by
                intro p1 p2 hp1 hp2 hpne hpr
                refine ⟨idxs.getD p1 0, idxs.getD p2 0,
                  hvals _ (getD_mem idxs p1 0 (by omega)),
                  hvals _ (getD_mem idxs p2 0 (by omega)),
                  nodup_getD_ne_nat hnd (by omega) (by omega) hpne,
                  by rw [hpr]; rfl, by rw [hpr]; rfl,
                  by rw [hpr] at hbye ⊢; exact hbye.1,
                  by rw [hpr] at hbye ⊢; exact hbye.2⟩
              by_cases hi0 : i = 0
              · subst hi0
                exact hpos 0 (n - 1) (by omega) (by omega) (by omega)
                  (by simp [rrPairIdx])
              · have hin : i < (n + 1) / 2 := hi
                exact hpos i (n - 1 - i) (by omega) (by omega) (by omega)
                  (by simp [rrPairIdx, hi0])
          · exact Or.inl hstep
        · exact Or.inr hgood
  intro acc m hm
  exact hgen (List.range ((n + 1) / 2)) (fun i hi => List.mem_range.mp hi)
    acc m hm

theorem roundRobinRaw_good {teams : List Team} {now : Int}
    (h2 : 2 ≤ teams.length) (heven : teams.length % 2 = 0) :
    ∀ m ∈ roundRobinRaw teams now,
      ∃ h a, h < teams.length ∧ a < teams.length ∧ h ≠ a ∧
        m.homeTeam = teams.getD h dummyTeam ∧
        m.awayTeam = teams.getD a dummyTeam ∧
        m.homeTeam.id ≠ "BYE" ∧ m.awayTeam.id ≠ "BYE" := by
  unfold roundRobinRaw
  have hgen : ∀ (rounds : List Nat) (st : List Nat × List Match),
      st.1.Nodup → st.1.length = teams.length →
      (∀ v ∈ st.1, v < teams.length) →
      (∀ m ∈ st.2, ∃ h a, h < teams.length ∧ a < teams.length ∧ h ≠ a ∧
        m.homeTeam = teams.getD h dummyTeam ∧
        m.awayTeam = teams.getD a dummyTeam ∧
        m.homeTeam.id ≠ "BYE" ∧ m.awayTeam.id ≠ "BYE") →
      ∀ m ∈ (rounds.foldl (fun (st : List Nat × List Match) _ =>
        (rotateTeams st.1, rrRoundAcc teams st.1 teams.length now st.2))
        st).2,
      ∃ h a, h < teams.length ∧ a < teams.length ∧ h ≠ a ∧
        m.homeTeam = teams.getD h dummyTeam ∧
        m.awayTeam = teams.getD a dummyTeam ∧
        m.homeTeam.id ≠ "BYE" ∧ m.awayTeam.id ≠ "BYE" := by
    intro rounds
    induction rounds with
    | nil => intro st _ _ _ hacc m hm; exact hacc m hm
    | cons r rest ih =>
        intro st hnd hlen hvals hacc m hm
        simp only [List.foldl_cons] at hm
        have hperm := rotateTeams_perm st.1
        refine ih (rotateTeams st.1, rrRoundAcc teams st.1 teams.length now
          st.2) (hperm.nodup_iff.mpr hnd) (by rw [hperm.length_eq]; exact hlen)
          (fun v hv => hvals v (hperm.mem_iff.mp hv)) ?_ m hm
        intro x hx
        rcases rrRoundAcc_good h2 heven hnd hlen hvals st.2 x hx with
          hold | hnew
        · exact hacc x hold
        · exact hnew
  intro m hm
  exact hgen (List.range (teams.length - 1)) (List.range teams.length, [])
    (List.nodup_range _) (List.length_range _)
    (fun v hv => List.mem_range.mp hv)
    (fun x hx => absurd hx (List.not_mem_nil x)) m hm

theorem nodup_getD_ne_team {l : List Team} (hnd : (l.map Team.id).Nodup)
    {i j : Nat} (hi : i < l.length) (hj : j < l.length) (hij : i ≠ j) :
    (l.getD i dummyTeam).id ≠ (l.getD j dummyTeam).id := by
  intro heq
  rw [List.getD_eq_getElem?_getD, List.getElem?_eq_getElem hi,
    List.getD_eq_getElem?_getD, List.getElem?_eq_getElem hj] at heq
  simp only [Option.getD_some] at heq
  have hi2 : i < (l.map Team.id).length := by simpa using hi
  have hj2 : j < (l.map Team.id).length := by simpa using hj
  have hmap : (l.map Team.id)[i] = (l.map Team.id)[j] := by
    rw [List.getElem_map, List.getElem_map]
    exact heq
  exact hij ((List.Nodup.getElem_inj_iff hnd).mp hmap)

theorem forall₂_mem_left {R : Match → Match → Prop} :
    ∀ {l1 l2 : List Match}, List.Forall₂ R l1 l2 →
      ∀ m ∈ l1, ∃ m2 ∈ l2, R m m2 := by
  intro l1 l2 h
  induction h with
  | nil => intro m hm; exact absurd hm (List.not_mem_nil m)
  | @cons a b t1 t2 hab htail ih =>
      intro m hm
      rcases List.mem_cons.mp hm with he | he
      · exact ⟨b, List.mem_cons_self _ _, by rw [he]; exact hab⟩
      · obtain ⟨m2, hm2, hr⟩ := ih m he
        exact ⟨m2, List.mem_cons_of_mem _ hm2, hr⟩

/-- Time assignment never introduces a match pairing a team id with itself:
the home and away teams are copied unchanged from the raw pairing. -/
theorem assignTimeSlots_no_self {ms out : List Match}
    {settings : TournamentSettings}
    (hok : assignTimeSlots ms settings = Except.ok out)
    (h : ∀ m ∈ ms, m.homeTeam.id ≠ m.awayTeam.id) :
    ∀ m ∈ out, m.homeTeam.id ≠ m.awayTeam.id := by
  obtain ⟨t, hsd, hout⟩ := assignTimeSlots_ok_inv hok
  intro m hm
  rw [hout] at hm
  have hm2 := (sortByStart_perm _).mem_iff.mp hm
  obtain ⟨m2, hmem, hcore⟩ :=
    forall₂_mem_left (assignLoop_cores _ _ _ ms _) m hm2
  rw [hcore.2.1, hcore.2.2]
  exact h m2 hmem

/-- The circle method never pairs a position with itself, so with distinct
team ids no raw round-robin match is a self-pairing. -/
theorem roundRobinRaw_no_self {teams : List Team} {now : Int}
    (h2 : 2 ≤ teams.length) (heven : teams.length % 2 = 0)
    (hnd : (teams.map Team.id).Nodup) :
    ∀ m ∈ roundRobinRaw teams now, m.homeTeam.id ≠ m.awayTeam.id := by
  intro m hm
  obtain ⟨h, a, hh, ha, hha, hhome, haway, -, -⟩ :=
    roundRobinRaw_good h2 heven m hm
  rw [hhome, haway]
  exact nodup_getD_ne_team hnd hh ha hha

/-- The limited-matches loop never pairs a team with itself when the team ids
are distinct. -/
theorem ltdLoop_no_self (teams : List Team) (maxPerTeam : Int)
    (maxTotal : Option Int) (now : Int)
    (hnd : (teams.map Team.id).Nodup) :
    ∀ (fuel : Nat) (st : LtdState),
      (∀ m ∈ st.«matches», m.homeTeam.id ≠ m.awayTeam.id) →
      ∀ m ∈ (ltdLoop teams maxPerTeam maxTotal now fuel st).«matches»,
        m.homeTeam.id ≠ m.awayTeam.id := by
  intro fuel
  induction fuel with
  | zero => intro st h; exact h
  | succ fuel ih =>
      intro st h
      show ∀ m ∈ (if ltdGuard teams.length maxPerTeam maxTotal
          st.«matches».length then
          match ltdStep teams maxPerTeam now st with
          | none => st
          | some st' => ltdLoop teams maxPerTeam maxTotal now fuel st'
        else st).«matches», m.homeTeam.id ≠ m.awayTeam.id
      by_cases hg : ltdGuard teams.length maxPerTeam maxTotal
          st.«matches».length
      · rw [if_pos hg]
        cases hstep : ltdStep teams maxPerTeam now st with
        | none => exact h
        | some st' =>
            obtain ⟨home, away, -, -, -, -, hne, hm, -⟩ := ltdStep_spec hstep
            apply ih st'
            intro x hx
            rw [hm] at hx
            rcases List.mem_append.mp hx with h1 | h1
            · exact h x h1
            · rw [List.mem_singleton.mp h1]
              exact hne hnd
      · rw [if_neg hg]
        exact h

/-- No schedule returned by `generateSchedule` on a team list with distinct
non-BYE ids contains a match whose home and away side share a team id. -/
theorem generate_no_self {settings : TournamentSettings} {teams : List Team}
    {config : SchedulingConfig} {now : Int} {sched : GeneratedSchedule}
    (hnd : (teams.map Team.id).Nodup)
    (hbye : ∀ tm ∈ teams, tm.id ≠ "BYE")
    (hok : generateSchedule settings teams config now = Except.ok sched) :
    ∀ m ∈ sched.«matches», m.homeTeam.id ≠ m.awayTeam.id := by
  obtain ⟨mode, mmax, mtot⟩ := config
  cases mode with
  | roundRobin =>
      simp only [generateSchedule, generateRoundRobinMatches, true_and] at hok
      by_cases hodd : teams.length % 2 ≠ 0
      · simp only [if_pos hodd] at hok
        by_cases hlen : (teams ++ [BYE_TEAM]).length < 2
        · simp only [if_pos hlen] at hok
          cases hok
          intro m hm
          exact absurd hm (List.not_mem_nil m)
        · simp only [if_neg hlen] at hok
          cases hres : assignTimeSlots (roundRobinRaw (teams ++ [BYE_TEAM]) now)
              settings with
          | error e => rw [hres] at hok; exact absurd hok (by simp)
          | ok out =>
              rw [hres] at hok
              cases hok
              intro m hm
              have hm2 : m ∈ out := hm
              have hlen2 : 2 ≤ (teams ++ [BYE_TEAM]).length := by omega
              have heven2 : (teams ++ [BYE_TEAM]).length % 2 = 0 := by
                simp only [List.length_append, List.length_cons,
                  List.length_nil]
                omega
              have hnd2 : ((teams ++ [BYE_TEAM]).map Team.id).Nodup := by
                rw [List.map_append]
                refine List.Nodup.append hnd (by simp) ?_
                intro x hx hx2
                simp only [List.map_cons, List.map_nil,
                  List.mem_singleton] at hx2
                obtain ⟨tm, htm, hid⟩ := List.mem_map.mp hx
                exact hbye tm htm (by rw [hid, hx2]; rfl)
              exact assignTimeSlots_no_self hres
                (roundRobinRaw_no_self hlen2 heven2 hnd2) m hm2
      · simp only [if_neg hodd] at hok
        by_cases hlen : teams.length < 2
        · simp only [if_pos hlen] at hok
          cases hok
          intro m hm
          exact absurd hm (List.not_mem_nil m)
        · simp only [if_neg hlen] at hok
          cases hres : assignTimeSlots (roundRobinRaw teams now) settings with
          | error e => rw [hres] at hok; exact absurd hok (by simp)
          | ok out =>
              rw [hres] at hok
              cases hok
              intro m hm
              have hm2 : m ∈ out := hm
              have hlen2 : 2 ≤ teams.length := by omega
              have heven2 : teams.length % 2 = 0 := not_not.mp hodd
              exact assignTimeSlots_no_self hres
                (roundRobinRaw_no_self hlen2 heven2 hnd) m hm2
  | limitedMatches =>
      have hassign := generate_limited_eq rfl hok
      intro m hm
      refine assignTimeSlots_no_self hassign ?_ m hm
      intro x hx
      simp only [ltdRun] at hx
      exact ltdLoop_no_self teams _ _ now hnd _ _
        (fun y hy => absurd hy (List.not_mem_nil y)) x hx

/-- With at least one pitch, positive duration and nonnegative break, the
slot assigner gives any two matches sharing a team distinct start times. -/
theorem assignTimeSlots_strict {ms out : List Match}
    {settings : TournamentSettings}
    (hok : assignTimeSlots ms settings = Except.ok out)
    (hp : 1 ≤ settings.numPitches)
    (hdur : 0 < calculateMatchDuration settings)
    (hbrk : 0 ≤ settings.breakBetweenMatches) :
    out.Pairwise (fun m1 m2 => sharesTeam m1 m2 →
      m1.startTime ≠ m2.startTime) := by
  obtain ⟨t, -, hout⟩ := assignTimeSlots_ok_inv hok
  have hrepl : (⟨[], List.replicate settings.numPitches t⟩ :
      AssignState).pitchAvail ≠ [] := by
    intro h
    have := congrArg List.length h
    simp at this
    omega
  obtain ⟨hpw, -, hend, -⟩ := assignLoop_spec (calculateMatchDuration settings)
    settings.breakBetweenMatches t (le_of_lt hdur) hbrk ms []
    ⟨[], List.replicate settings.numPitches t⟩ hrepl
    (fun m hm => absurd hm (List.not_mem_nil m)) List.Pairwise.nil
  simp only [List.nil_append] at hpw
  rw [hout]
  refine (List.Perm.pairwise_iff
    (fun hab hs => (hab (sharesTeam_symm hs)).symm)
    (sortByStart_perm _)).mpr ?_
  refine List.Pairwise.imp_of_mem ?_ hpw
  intro a b ha hb hsep hshare heq
  have h1 := hsep (Or.inr hshare)
  have h2 := hend a ha
  have h3 : 0 < calculateMatchDuration settings * 60000 := by positivity
  omega

/-- Start-time separation at the `generateSchedule` level. -/
theorem generate_matches_strict {settings : TournamentSettings}
    {teams : List Team} {config : SchedulingConfig} {now : Int}
    {sched : GeneratedSchedule}
    (hp : 1 ≤ settings.numPitches)
    (hdur : 0 < calculateMatchDuration settings)
    (hbrk : 0 ≤ settings.breakBetweenMatches)
    (hok : generateSchedule settings teams config now = Except.ok sched) :
    sched.«matches».Pairwise (fun m1 m2 => sharesTeam m1 m2 →
      m1.startTime ≠ m2.startTime) := by
  rcases generate_via_assign hok with hnil | ⟨raw, hassign⟩
  · rw [hnil]
    exact List.Pairwise.nil
  · exact assignTimeSlots_strict hassign hp hdur hbrk

/-- The only warning `generateLimitedMatches` pushes is the
duplicate-matchup warning. -/
theorem ltdWarnings_shape {teams : List Team} {config : SchedulingConfig}
    {settings : TournamentSettings} {now : Int}
    {pr : List Match × List String}
    (h : generateLimitedMatches teams settings config now = Except.ok pr) :
    ∀ x ∈ pr.2, ∃ a b, x = dupWarning a b := by
  simp only [generateLimitedMatches] at h
  split at h
  · exact absurd h (by simp)
  · rename_i assigned hassign
    cases h
    intro x hx
    split at hx
    · rw [List.mem_singleton.mp hx]
      exact ⟨_, _, rfl⟩
    · exact absurd hx (List.not_mem_nil x)

/-- Every warning accumulated before the `finishSchedule` tail is the BYE
warning or a duplicate-matchup warning. -/
theorem generate_warnings_shape {settings : TournamentSettings}
    {teams : List Team} {config : SchedulingConfig} {now : Int}
    {sched : GeneratedSchedule}
    (hok : generateSchedule settings teams config now = Except.ok sched) :
    ∃ ms w, sched = finishSchedule ms w ∧
      ∀ x ∈ w, x = byeWarning ∨ ∃ a b, x = dupWarning a b := by
  obtain ⟨mode, mmax, mtot⟩ := config
  cases mode with
  | roundRobin =>
      simp only [generateSchedule, generateRoundRobinMatches, true_and] at hok
      by_cases hodd : teams.length % 2 ≠ 0
      · simp only [if_pos hodd] at hok
        by_cases hlen : (teams ++ [BYE_TEAM]).length < 2
        · simp only [if_pos hlen] at hok
          cases hok
          refine ⟨_, _, rfl, ?_⟩
          intro x hx
          rw [List.mem_singleton.mp hx]
          exact Or.inl rfl
        · simp only [if_neg hlen] at hok
          cases hres : assignTimeSlots (roundRobinRaw (teams ++ [BYE_TEAM]) now)
              settings with
          | error e => rw [hres] at hok; exact absurd hok (by simp)
          | ok out =>
              rw [hres] at hok
              cases hok
              refine ⟨_, _, rfl, ?_⟩
              intro x hx
              rw [List.mem_singleton.mp hx]
              exact Or.inl rfl
      · simp only [if_neg hodd] at hok
        by_cases hlen : teams.length < 2
        · simp only [if_pos hlen] at hok
          cases hok
          exact ⟨_, _, rfl, fun x hx => absurd hx (List.not_mem_nil x)⟩
        · simp only [if_neg hlen] at hok
          cases hres : assignTimeSlots (roundRobinRaw teams now) settings with
          | error e => rw [hres] at hok; exact absurd hok (by simp)
          | ok out =>
              rw [hres] at hok
              cases hok
              exact ⟨_, _, rfl, fun x hx => absurd hx (List.not_mem_nil x)⟩
  | limitedMatches =>
      simp only [generateSchedule,
        show (SchedulingMode.limitedMatches = SchedulingMode.roundRobin ∧
          teams.length % 2 ≠ 0) = False from by simp, if_false] at hok
      split at hok
      · simp at hok
      · rename_i pr heq
        cases hok
        refine ⟨_, _, rfl, ?_⟩
        intro x hx
        simp only [List.nil_append, List.mem_append] at hx
        have hshape := ltdWarnings_shape heq
        rcases hx with hx | hx
        · exact Or.inr (hshape x hx)
        · exact Or.inr (hshape x hx)

/-- The conflict-summary warning ends in the letter of "simultaneously". -/
theorem conflictWarning_last (k : Nat) :
    (conflictWarning k).data.getLast? = some 'y' := by
  simp [conflictWarning, String.data_append, List.getLast?_append,
    show (" scheduling conflict(s) detected - same team playing multiple matches simultaneously".data).getLast? = some 'y' from by decide]

/-- The duplicate-matchup warning ends in a full stop. -/
theorem dupWarning_last (a b : Int) :
    (dupWarning a b).data.getLast? = some '.' := by
  unfold dupWarning
  rw [String.data_append, List.getLast?_append,
    show ("). Duplicate matchups will occur.".data).getLast? = some '.' from by
      decide]
  rfl

/-- The large-tournament warning ends in a full stop. -/
theorem largeWarning_last (k : Nat) :
    (largeWarning k).data.getLast? = some '.' := by
  unfold largeWarning
  rw [String.data_append, List.getLast?_append,
    show (" matches scheduled. Consider breaking into phases.".data).getLast? = some '.' from by
      decide]
  rfl

theorem conflictWarning_ne_bye (k : Nat) : conflictWarning k ≠ byeWarning := by
  intro h
  have h2 : (conflictWarning k).data.getLast? = byeWarning.data.getLast? := by
    rw [h]
  rw [conflictWarning_last,
    show byeWarning.data.getLast? = some 'g' from by decide] at h2
  exact absurd h2 (by decide)

theorem conflictWarning_ne_dup (k : Nat) (a b : Int) :
    conflictWarning k ≠ dupWarning a b := by
  intro h
  have h2 : (conflictWarning k).data.getLast? =
      (dupWarning a b).data.getLast? := by
    rw [h]
  rw [conflictWarning_last, dupWarning_last] at h2
  exact absurd h2 (by decide)

theorem conflictWarning_ne_large (k j : Nat) :
    conflictWarning k ≠ largeWarning j := by
  intro h
  have h2 : (conflictWarning k).data.getLast? =
      (largeWarning j).data.getLast? := by
    rw [h]
  rw [conflictWarning_last, largeWarning_last] at h2
  exact absurd h2 (by decide)

/-- C10: for every valid input (at least one pitch, parseable start
date/time, duration fields within the data-model bounds, nonnegative break
between matches, distinct non-BYE team ids), `generate` returns an empty
conflicts list — the slot assigner never gives two matches of a team the
same start time, so the internal detector finds nothing — and the
conflict-count summary warning never appears among the warnings. -/
theorem C10_generated_schedule_conflict_free (settings : TournamentSettings)
    (teams : List Team) (config : SchedulingConfig) (now t : Int)
    (sched : GeneratedSchedule)
    (hp : 1 ≤ settings.numPitches)
    (hsd : settings.startDateTime = some t)
    (hdf : durationFieldsInBounds settings)
    (hbrk : 0 ≤ settings.breakBetweenMatches)
    (hnd : (teams.map Team.id).Nodup)
    (hbye : ∀ tm ∈ teams, tm.id ≠ "BYE")
    (hok : generateSchedule settings teams config now = Except.ok sched) :
    sched.conflicts = [] ∧ ∀ k, conflictWarning k ∉ sched.warnings := by
  have hself := generate_no_self hnd hbye hok
  have hstrict := generate_matches_strict hp (duration_pos settings hdf)
    hbrk hok
  have hconf : detectConflicts sched.«matches» = [] :=
    detectConflicts_eq_nil hself hstrict
  obtain ⟨ms, w, hsched, hw⟩ := generate_warnings_shape hok
  subst hsched
  have hconf2 : detectConflicts ms = [] := hconf
  have hwarn : (finishSchedule ms w).warnings =
      if 100 < ms.length then w ++ [largeWarning ms.length] else w := by
    simp only [finishSchedule, hconf2, List.length_nil]
    rw [if_neg (lt_irrefl 0)]
  constructor
  · show detectConflicts ms = []
    exact hconf2
  · intro k hk
    rw [hwarn] at hk
    have hx : conflictWarning k ∈ w ∨
        conflictWarning k = largeWarning ms.length := by
      split at hk
      · rcases List.mem_append.mp hk with h1 | h1
        · exact Or.inl h1
        · exact Or.inr (List.mem_singleton.mp h1)
      · exact Or.inl hk
    rcases hx with hx | hx
    · rcases hw _ hx with hb | ⟨a, b, hd⟩
      · exact conflictWarning_ne_bye k hb
      · exact conflictWarning_ne_dup k a b hd
    · exact conflictWarning_ne_large k ms.length hx

/-- Witness for C10 at the concrete four-team round-robin tournament. -/
theorem C10_generated_schedule_conflict_free_witness :
    ∃ sched, generateSchedule exSettings exTeams4 exRRConfig 0 =
        Except.ok sched ∧
      sched.conflicts = [] ∧ ∀ k, conflictWarning k ∉ sched.warnings := by
  refine ⟨_, rfl, ?_⟩
  exact C10_generated_schedule_conflict_free exSettings exTeams4 exRRConfig
    0 0 _ (by decide) rfl
    ⟨fun v hv => by
        simp only [exSettings, Option.some.injEq] at hv
        omega,
      fun v hv => by
        simp only [exSettings] at hv
        exact Option.noConfusion hv,
      fun v hv => by
        simp only [exSettings] at hv
        exact Option.noConfusion hv⟩
    (by decide) (by decide) (by decide) rfl

/-! Wall-clock independence: the `new Date()` placeholder read by the pair
generators is overwritten by the slot assigner, so the generated schedule
does not depend on it. -/

theorem rrRoundAcc_retime (teams : List Team) (idxs : List Nat) (n : Nat)
    (now₁ now₂ : Int) :
    ∀ acc, rrRoundAcc teams idxs n now₁ (acc.map (retime now₁)) =
      (rrRoundAcc teams idxs n now₂ acc).map (retime now₁) := by
  unfold rrRoundAcc
  have hgen : ∀ (is : List Nat) (acc : List Match),
      is.foldl (fun acc i =>
        if (teams.getD (rrPairIdx idxs n i).1 dummyTeam).id ≠ "BYE" ∧
            (teams.getD (rrPairIdx idxs n i).2 dummyTeam).id ≠ "BYE" then
          acc ++ [mkRawMatch acc.length
            (teams.getD (rrPairIdx idxs n i).1 dummyTeam)
            (teams.getD (rrPairIdx idxs n i).2 dummyTeam) now₁]
        else acc) (acc.map (retime now₁)) =
      (is.foldl (fun acc i =>
        if (teams.getD (rrPairIdx idxs n i).1 dummyTeam).id ≠ "BYE" ∧
            (teams.getD (rrPairIdx idxs n i).2 dummyTeam).id ≠ "BYE" then
          acc ++ [mkRawMatch acc.length
            (teams.getD (rrPairIdx idxs n i).1 dummyTeam)
            (teams.getD (rrPairIdx idxs n i).2 dummyTeam) now₂]
        else acc) acc).map (retime now₁) := by
    intro is
    induction is with
    | nil => intro acc; rfl
    | cons i rest ih =>
        intro acc
        simp only [List.foldl_cons]
        by_cases hc : (teams.getD (rrPairIdx idxs n i).1 dummyTeam).id ≠ "BYE" ∧
            (teams.getD (rrPairIdx idxs n i).2 dummyTeam).id ≠ "BYE"
        · rw [if_pos hc, if_pos hc]
          rw [show acc.map (retime now₁) ++
              [mkRawMatch (acc.map (retime now₁)).length
                (teams.getD (rrPairIdx idxs n i).1 dummyTeam)
                (teams.getD (rrPairIdx idxs n i).2 dummyTeam) now₁] =
            (acc ++ [mkRawMatch acc.length
                (teams.getD (rrPairIdx idxs n i).1 dummyTeam)
                (teams.getD (rrPairIdx idxs n i).2 dummyTeam) now₂]).map
              (retime now₁) from by
            simp only [List.map_append, List.map_cons, List.map_nil,
              List.length_map]
            rfl]
          exact ih _
        · rw [if_neg hc, if_neg hc]
          exact ih acc
  intro acc
  exact hgen (List.range ((n + 1) / 2)) acc

theorem roundRobinRaw_retime (teams : List Team) (now₁ now₂ : Int) :
    roundRobinRaw teams now₁ = (roundRobinRaw teams now₂).map (retime now₁) := by
  unfold roundRobinRaw
  have hgen : ∀ (rounds : List Nat) (idxs : List Nat) (ms : List Match),
      (rounds.foldl (fun (st : List Nat × List Match) _ =>
        (rotateTeams st.1, rrRoundAcc teams st.1 teams.length now₁ st.2))
        (idxs, ms.map (retime now₁))).2 =
      ((rounds.foldl (fun (st : List Nat × List Match) _ =>
        (rotateTeams st.1, rrRoundAcc teams st.1 teams.length now₂ st.2))
        (idxs, ms)).2).map (retime now₁) := by
    intro rounds
    induction rounds with
    | nil => intro idxs ms; rfl
    | cons r rest ih =>
        intro idxs ms
        simp only [List.foldl_cons]
        rw [rrRoundAcc_retime teams idxs teams.length now₁ now₂ ms]
        exact ih (rotateTeams idxs) _
  exact hgen (List.range (teams.length - 1)) (List.range teams.length) []

theorem ltdStep_retime (teams : List Team) (maxPerTeam now₁ now₂ : Int)
    (counts : List (String × Nat)) (pairings : List String)
    (ms : List Match) :
    ltdStep teams maxPerTeam now₁ ⟨counts, pairings, ms.map (retime now₁)⟩ =
      Option.map (stRetime now₁)
        (ltdStep teams maxPerTeam now₂ ⟨counts, pairings, ms⟩) := by
  simp only [ltdStep]
  by_cases hc : (teams.filter
      (fun t => ((getCount counts t.id : Int) < maxPerTeam))).length < 2
  · rw [if_pos hc, if_pos hc]
    rfl
  · rw [if_neg hc, if_neg hc]
    simp only [Option.map_some', stRetime, List.map_append, List.map_cons,
      List.map_nil, List.length_map]
    rfl

theorem ltdLoop_retime (teams : List Team) (maxPerTeam : Int)
    (maxTotal : Option Int) (now₁ now₂ : Int) :
    ∀ (fuel : Nat) (counts : List (String × Nat)) (pairings : List String)
      (ms : List Match),
      ltdLoop teams maxPerTeam maxTotal now₁ fuel
          ⟨counts, pairings, ms.map (retime now₁)⟩ =
        stRetime now₁ (ltdLoop teams maxPerTeam maxTotal now₂ fuel
          ⟨counts, pairings, ms⟩) := by
  intro fuel
  induction fuel with
  | zero => intro counts pairings ms; rfl
  | succ fuel ih =>
      intro counts pairings ms
      have hunf : ∀ (nw : Int) (s : LtdState),
          ltdLoop teams maxPerTeam maxTotal nw (fuel + 1) s =
          if ltdGuard teams.length maxPerTeam maxTotal
              s.«matches».length then
            match ltdStep teams maxPerTeam nw s with
            | none => s
            | some st' => ltdLoop teams maxPerTeam maxTotal nw fuel st'
          else s := fun nw s => rfl
      rw [hunf, hunf]
      rw [show ((⟨counts, pairings, ms.map (retime now₁)⟩ :
          LtdState)).«matches».length = ((⟨counts, pairings, ms⟩ :
          LtdState)).«matches».length from List.length_map _ _]
      rw [ltdStep_retime teams maxPerTeam now₁ now₂ counts pairings ms]
      by_cases hg : ltdGuard teams.length maxPerTeam maxTotal
          ((⟨counts, pairings, ms⟩ : LtdState)).«matches».length
      · rw [if_pos hg, if_pos hg]
        cases hstep : ltdStep teams maxPerTeam now₂
            (⟨counts, pairings, ms⟩ : LtdState) with
        | none => rfl
        | some st' => exact ih st'.counts st'.pairings st'.«matches»
      · rw [if_neg hg, if_neg hg]
        rfl

theorem ltdRun_retime (teams : List Team) (config : SchedulingConfig)
    (now₁ now₂ : Int) :
    ltdRun teams config now₁ = stRetime now₁ (ltdRun teams config now₂) := by
  simp only [ltdRun]
  exact ltdLoop_retime teams (jsOrInt config.maxMatchesPerTeam 3)
    (maxTotalEff config) now₁ now₂
    (ltdFuel teams.length (jsOrInt config.maxMatchesPerTeam 3)
      (maxTotalEff config)) (initCounts teams) [] []

theorem assignOne_avail_length (dur brk start0 : Int) (st : AssignState)
    (m : Match) :
    (assignOne dur brk start0 st m).2.pitchAvail.length =
      st.pitchAvail.length := by
  simp only [assignOne]
  cases hbs : bestSlot (earliestStart start0
      (lookupEnd st.teamLastEnd m.homeTeam.id)
      (lookupEnd st.teamLastEnd m.awayTeam.id)) st.pitchAvail with
  | none => rfl
  | some ps =>
      obtain ⟨p, s⟩ := ps
      simp [List.length_set]

/-- With at least one pitch available the assigner overwrites the placeholder
times, so its output does not depend on them. -/
theorem assignOne_retime (dur brk start0 : Int) (st : AssignState)
    (m : Match) (now : Int) (hav : st.pitchAvail ≠ []) :
    assignOne dur brk start0 st (retime now m) =
      assignOne dur brk start0 st m := by
  obtain ⟨p, s, hbs⟩ := bestSlot_isSome (earliestStart start0
    (lookupEnd st.teamLastEnd m.homeTeam.id)
    (lookupEnd st.teamLastEnd m.awayTeam.id)) hav
  have hbs2 : bestSlot (earliestStart start0
      (lookupEnd st.teamLastEnd (retime now m).homeTeam.id)
      (lookupEnd st.teamLastEnd (retime now m).awayTeam.id)) st.pitchAvail
      = some (p, s) := hbs
  rw [assignOne_eq hbs2, assignOne_eq hbs]
  rfl

theorem assignLoop_retime (dur brk start0 now : Int) :
    ∀ (ms : List Match) (st : AssignState), st.pitchAvail ≠ [] →
      assignLoop dur brk start0 st (ms.map (retime now)) =
        assignLoop dur brk start0 st ms := by
  intro ms
  induction ms with
  | nil => intro st _; rfl
  | cons m rest ih =>
      intro st hav
      have hav2 : (assignOne dur brk start0 st m).2.pitchAvail ≠ [] := by
        intro hnil
        apply hav
        have h0 : st.pitchAvail.length = 0 := by
          rw [← assignOne_avail_length dur brk start0 st m, hnil]
          rfl
        exact List.length_eq_zero.mp h0
      simp only [List.map_cons, assignLoop]
      rw [assignOne_retime dur brk start0 st m now hav,
        ih (assignOne dur brk start0 st m).2 hav2]

theorem assignTimeSlots_retime {settings : TournamentSettings} (now : Int)
    (ms : List Match) (hp : 1 ≤ settings.numPitches) :
    assignTimeSlots (ms.map (retime now)) settings =
      assignTimeSlots ms settings := by
  cases hsd : settings.startDateTime with
  | none => rw [assignTimeSlots_none hsd, assignTimeSlots_none hsd]
  | some t =>
      have hrepl : (⟨[], List.replicate settings.numPitches t⟩ :
          AssignState).pitchAvail ≠ [] := by
        intro h
        have := congrArg List.length h
        simp at this
        omega
      rw [assignTimeSlots_some hsd, assignTimeSlots_some hsd,
        assignLoop_retime (calculateMatchDuration settings)
          settings.breakBetweenMatches t now ms
          ⟨[], List.replicate settings.numPitches t⟩ hrepl]

theorem generateRR_retime (teams : List Team)
    (settings : TournamentSettings) (now₁ now₂ : Int)
    (hp : 1 ≤ settings.numPitches) :
    generateRoundRobinMatches teams settings now₁ =
      generateRoundRobinMatches teams settings now₂ := by
  unfold generateRoundRobinMatches
  by_cases h : teams.length < 2
  · rw [if_pos h, if_pos h]
  · rw [if_neg h, if_neg h, roundRobinRaw_retime teams now₁ now₂,
      assignTimeSlots_retime now₁ (roundRobinRaw teams now₂) hp]

theorem generateLtd_retime (teams : List Team)
    (settings : TournamentSettings) (config : SchedulingConfig)
    (now₁ now₂ : Int) (hp : 1 ≤ settings.numPitches) :
    generateLimitedMatches teams settings config now₁ =
      generateLimitedMatches teams settings config now₂ := by
  unfold generateLimitedMatches
  rw [show (ltdRun teams config now₁).«matches» =
      ((ltdRun teams config now₂).«matches»).map (retime now₁) from by
    rw [ltdRun_retime teams config now₁ now₂]
    rfl]
  rw [assignTimeSlots_retime now₁ (ltdRun teams config now₂).«matches» hp]

/-- C8: `generate` is deterministic.  The model is a pure function of
`settings`, `teams`, `config` and the wall-clock reading `now` taken by
`new Date()`, so two calls with identical inputs trivially agree; this
theorem proves the substantive half of the claim, that the result does not
depend on the wall clock either — with at least one pitch and a parseable
start date/time the full returned schedule (matches with ids, teams,
pitches, start and end times, in order, conflicts and warnings) is
identical across any two clock readings. -/
theorem C8_deterministic (settings : TournamentSettings) (teams : List Team)
    (config : SchedulingConfig) (now₁ now₂ t : Int)
    (hp : 1 ≤ settings.numPitches)
    (hsd : settings.startDateTime = some t) :
    generateSchedule settings teams config now₁ =
      generateSchedule settings teams config now₂ := by
  obtain ⟨mode, mmax, mtot⟩ := config
  cases mode with
  | roundRobin =>
      simp only [generateSchedule, true_and]
      rw [generateRR_retime _ settings now₁ now₂ hp]
  | limitedMatches =>
      simp only [generateSchedule]
      rw [generateLtd_retime _ settings _ now₁ now₂ hp]

/-- Witness for C8 at two distinct wall-clock readings. -/
theorem C8_deterministic_witness :
    1 ≤ exSettings.numPitches ∧
      generateSchedule exSettings exTeams4 exRRConfig 123456 =
        generateSchedule exSettings exTeams4 exRRConfig 0 :=
  ⟨by decide,
    C8_deterministic exSettings exTeams4 exRRConfig 123456 0 0
      (by decide) rfl⟩

/-! Round-robin completeness: closed form of the rotating index list. -/

theorem rrIdxs_zero (m : Nat) : rrIdxs m 0 = List.range (m + 1) := by
  unfold rrIdxs
  rw [List.range_succ_eq_map]
  congr 1
  apply List.map_congr_left
  intro j hj
  have hjm := List.mem_range.mp hj
  have h1 : j + (m - 0) = j + m := by omega
  rw [h1, Nat.add_mod_right, Nat.mod_eq_of_lt hjm]

theorem rrIdxs_rotate {m : Nat} (r : Nat) (hr : r < m) :
    rotateTeams (rrIdxs m r) = rrIdxs m (r + 1) := by
  obtain ⟨k, rfl⟩ : ∃ k, m = k + 1 := ⟨m - 1, by omega⟩
  show rotateTeams (0 :: (List.range (k + 1)).map
      (fun j => (j + (k + 1 - r)) % (k + 1) + 1)) = _
  rw [List.range_succ, List.map_append, List.map_cons, List.map_nil]
  have hlast : ((List.range k).map
      (fun j => (j + (k + 1 - r)) % (k + 1) + 1) ++
        [(k + (k + 1 - r)) % (k + 1) + 1]).getLast? =
      some ((k + (k + 1 - r)) % (k + 1) + 1) := List.getLast?_concat _
  have hrw : rotateTeams (0 :: ((List.range k).map
      (fun j => (j + (k + 1 - r)) % (k + 1) + 1) ++
        [(k + (k + 1 - r)) % (k + 1) + 1])) =
      0 :: ((k + (k + 1 - r)) % (k + 1) + 1) ::
        ((List.range k).map (fun j => (j + (k + 1 - r)) % (k + 1) + 1) ++
          [(k + (k + 1 - r)) % (k + 1) + 1]).dropLast := by
    simp only [rotateTeams, hlast]
  rw [hrw, List.dropLast_concat]
  show _ = 0 :: (List.range (k + 1)).map
    (fun j => (j + (k + 1 - (r + 1))) % (k + 1) + 1)
  rw [List.range_succ_eq_map, List.map_cons, List.map_map]
  congr 1
  congr 1
  · have h1 : k + (k + 1 - r) = (k - r) + (k + 1) := by omega
    have h2 : 0 + (k + 1 - (r + 1)) = k - r := by omega
    rw [h1, h2, Nat.add_mod_right, Nat.mod_eq_of_lt (by omega)]
  · apply List.map_congr_left
    intro j hj
    simp only [Function.comp_apply]
    have h3 : j.succ + (k + 1 - (r + 1)) = j + (k + 1 - r) := by omega
    rw [h3]

theorem rrIdxs_perm (m : Nat) :
    ∀ r, r ≤ m → (rrIdxs m r).Perm (List.range (m + 1)) := by
  intro r
  induction r with
  | zero =>
      intro _
      rw [rrIdxs_zero]
  | succ r ih =>
      intro h
      rw [← rrIdxs_rotate r (by omega)]
      exact (rotateTeams_perm _).trans (ih (by omega))

theorem rrIdxs_getD_zero (m r : Nat) : (rrIdxs m r).getD 0 0 = 0 := rfl

theorem rrIdxs_getD (m r p : Nat) (h1 : 1 ≤ p) (hp : p ≤ m) :
    (rrIdxs m r).getD p 0 = (p - 1 + (m - r)) % m + 1 := by
  obtain ⟨q, rfl⟩ : ∃ q, p = q + 1 := ⟨p - 1, by omega⟩
  show ((List.range m).map (fun j => (j + (m - r)) % m + 1)).getD q 0 = _
  have hq : q < ((List.range m).map
      (fun j => (j + (m - r)) % m + 1)).length := by
    simp
    omega
  rw [List.getD_eq_getElem?_getD, List.getElem?_eq_getElem hq]
  simp [List.getElem_map, List.getElem_range]

theorem slotPair_zero (m r : Nat) : slotPair m r 0 = (0, m - r) := rfl

theorem slotPair_pos (m r i : Nat) (h1 : 1 ≤ i) :
    slotPair m r i =
      ((i - 1 + (m - r)) % m + 1, (m - i - 1 + (m - r)) % m + 1) := by
  unfold slotPair
  rw [if_neg (by omega)]

theorem rrPairIdx_slot (m r i : Nat) (hm : 1 ≤ m) (hr : r < m)
    (hi : i = 0 ∨ (1 ≤ i ∧ i ≤ m - 1)) :
    rrPairIdx (rrIdxs m r) (m + 1) i = slotPair m r i := by
  rcases hi with rfl | ⟨h1, h2⟩
  · simp only [rrPairIdx, if_pos rfl, slotPair_zero]
    have hpos : m + 1 - 1 = m := by omega
    rw [hpos, rrIdxs_getD_zero, rrIdxs_getD m r m hm (le_refl m)]
    have h3 : m - 1 + (m - r) = (m - r - 1) + m := by omega
    rw [h3, Nat.add_mod_right, Nat.mod_eq_of_lt (by omega)]
    have h4 : m - r - 1 + 1 = m - r := by omega
    rw [h4]
    simp only [if_true]
  · simp only [rrPairIdx, if_neg (by omega : ¬ i = 0)]
    rw [slotPair_pos m r i h1]
    have hpos : m + 1 - 1 - i = m - i := by omega
    rw [hpos, rrIdxs_getD m r i h1 (by omega),
      rrIdxs_getD m r (m - i) (by omega) (by omega)]

theorem slotPair_bounds (m r i : Nat) (hm : 1 ≤ m) (hr : r < m) :
    1 ≤ (slotPair m r i).2 ∧ (slotPair m r i).1 ≤ m ∧
      (slotPair m r i).2 ≤ m := by
  unfold slotPair
  split
  · refine ⟨by omega, by omega, by omega⟩
  · have hlt1 := Nat.mod_lt (i - 1 + (m - r)) (show 0 < m by omega)
    have hlt2 := Nat.mod_lt (m - i - 1 + (m - r)) (show 0 < m by omega)
    refine ⟨by omega, by omega, by omega⟩

/-! Modular-arithmetic facts about the slot pairs. -/

theorem modeq_bounded_eq {a b m : Nat} (h : a ≡ b [MOD m]) (ha : a < m)
    (hb : b < m) : a = b := by
  have h2 : a % m = b % m := h
  rwa [Nat.mod_eq_of_lt ha, Nat.mod_eq_of_lt hb] at h2

theorem modeq_cancel_two {m a b : Nat} (hm2 : m % 2 = 1)
    (h : 2 * a ≡ 2 * b [MOD m]) : a ≡ b [MOD m] := by
  have hg : Nat.gcd m 2 = 1 := by
    rw [Nat.gcd_comm, Nat.gcd_rec, hm2]
    exact Nat.gcd_one_left 2
  exact Nat.ModEq.cancel_left_of_coprime hg h

theorem slot_first_inj {m r i i' : Nat} (h1 : 1 ≤ i) (h2 : i ≤ m - 1)
    (h1' : 1 ≤ i') (h2' : i' ≤ m - 1)
    (h : (i - 1 + (m - r)) % m = (i' - 1 + (m - r)) % m) : i = i' := by
  have hmeq : (i - 1) ≡ (i' - 1) [MOD m] :=
    Nat.ModEq.add_right_cancel' (m - r) h
  have h3 : (i - 1) % m = (i' - 1) % m := hmeq
  rw [Nat.mod_eq_of_lt (by omega), Nat.mod_eq_of_lt (by omega)] at h3
  omega

theorem slot_cross_ne {m r i i' : Nat} (h1 : 1 ≤ i) (h2 : 2 * i ≤ m - 1)
    (h1' : 1 ≤ i') (h2' : 2 * i' ≤ m - 1)
    (h : (i - 1 + (m - r)) % m = (m - i' - 1 + (m - r)) % m) : False := by
  have hmeq : (i - 1) ≡ (m - i' - 1) [MOD m] :=
    Nat.ModEq.add_right_cancel' (m - r) h
  have h3 : (i - 1) + (i' + 1) ≡ (m - i' - 1) + (i' + 1) [MOD m] :=
    Nat.ModEq.add_right _ hmeq
  have h4 : i + i' ≡ m [MOD m] := by
    have e1 : (i - 1) + (i' + 1) = i + i' := by omega
    have e2 : (m - i' - 1) + (i' + 1) = m := by omega
    rwa [e1, e2] at h3
  have h5 : (i + i') % m = 0 := by
    have h6 : (i + i') % m = m % m := h4
    rwa [Nat.mod_self] at h6
  rw [Nat.mod_eq_of_lt (by omega)] at h5
  omega

theorem slot_sum_modeq {m r i : Nat} (hr : r < m) (h1 : 1 ≤ i)
    (h2 : i ≤ m - 1) :
    (slotPair m r i).1 + (slotPair m r i).2 + 2 * r ≡ 0 [MOD m] := by
  rw [slotPair_pos m r i h1]
  have ha : (i - 1 + (m - r)) % m ≡ (i - 1 + (m - r)) [MOD m] :=
    Nat.mod_modEq _ _
  have hb : (m - i - 1 + (m - r)) % m ≡ (m - i - 1 + (m - r)) [MOD m] :=
    Nat.mod_modEq _ _
  calc ((i - 1 + (m - r)) % m + 1) + ((m - i - 1 + (m - r)) % m + 1) + 2 * r
      ≡ ((i - 1 + (m - r)) + 1) + ((m - i - 1 + (m - r)) + 1) + 2 * r
        [MOD m] :=
        Nat.ModEq.add_right _
          (Nat.ModEq.add (Nat.ModEq.add_right 1 ha) (Nat.ModEq.add_right 1 hb))
    _ = 3 * m := by omega
    _ ≡ 0 [MOD m] := by
        show 3 * m % m = 0 % m
        rw [Nat.mul_mod_left, Nat.zero_mod]

theorem cpair_eq_cases {p q : Nat × Nat} (h : cpair p = cpair q) :
    (p.1 = q.1 ∧ p.2 = q.2) ∨ (p.1 = q.2 ∧ p.2 = q.1) := by
  unfold cpair at h
  rw [Prod.mk.injEq] at h
  rcases h with ⟨hmin, hmax⟩
  rw [Nat.min_def, Nat.min_def] at hmin
  rw [Nat.max_def, Nat.max_def] at hmax
  split at hmin <;> split at hmax <;> split at hmin <;> split at hmax <;> omega

theorem forall₂_append_rel {α β : Type} {R : α → β → Prop}
    {l1 l3 : List α} {l2 l4 : List β} (h1 : List.Forall₂ R l1 l2)
    (h2 : List.Forall₂ R l3 l4) : List.Forall₂ R (l1 ++ l3) (l2 ++ l4) := by
  induction h1 with
  | nil => exact h2
  | cons hab _ ih => exact List.Forall₂.cons hab ih

/-- One round of the circle method appends exactly the matches of the
closed-form slot pairs (no BYE filter fires when no team id is BYE). -/
theorem rrRoundAcc_pairs {teams : List Team} {m r : Nat} {now : Int}
    (hn : teams.length = m + 1) (hm : 1 ≤ m) (hm2 : m % 2 = 1) (hr : r < m)
    (hbye : ∀ tm ∈ teams, tm.id ≠ "BYE") :
    ∀ acc, ∃ tail,
      rrRoundAcc teams (rrIdxs m r) (m + 1) now acc = acc ++ tail ∧
      List.Forall₂ (matchAtPair teams) tail (roundPairs (m + 1) r) := by
  unfold rrRoundAcc roundPairs
  have hgen : ∀ (is : List Nat), (∀ i ∈ is, i < (m + 1 + 1) / 2) →
      ∀ acc, ∃ tail,
        is.foldl (fun acc i =>
          if (teams.getD (rrPairIdx (rrIdxs m r) (m + 1) i).1
                dummyTeam).id ≠ "BYE" ∧
              (teams.getD (rrPairIdx (rrIdxs m r) (m + 1) i).2
                dummyTeam).id ≠ "BYE" then
            acc ++ [mkRawMatch acc.length
              (teams.getD (rrPairIdx (rrIdxs m r) (m + 1) i).1 dummyTeam)
              (teams.getD (rrPairIdx (rrIdxs m r) (m + 1) i).2 dummyTeam)
              now]
          else acc) acc = acc ++ tail ∧
        List.Forall₂ (matchAtPair teams) tail (is.map (slotPair m r)) := by
    intro is
    induction is with
    | nil =>
        intro _ acc
        exact ⟨[], by simp, List.Forall₂.nil⟩
    | cons i rest ih =>
        intro his acc
        have hi := his i (List.mem_cons_self _ _)
        have hcase : i = 0 ∨ (1 ≤ i ∧ i ≤ m - 1) := by omega
        have hpf := rrPairIdx_slot m r i hm hr hcase
        have hb := slotPair_bounds m r i hm hr
        have hbye1 : (teams.getD (slotPair m r i).1 dummyTeam).id ≠ "BYE" :=
          hbye _ (getD_mem teams _ dummyTeam (by omega))
        have hbye2 : (teams.getD (slotPair m r i).2 dummyTeam).id ≠ "BYE" :=
          hbye _ (getD_mem teams _ dummyTeam (by omega))
        simp only [List.foldl_cons, hpf]
        rw [if_pos ⟨hbye1, hbye2⟩]
        obtain ⟨tail, heq, hrel⟩ :=
          ih (fun j hj => his j (List.mem_cons_of_mem _ hj))
            (acc ++ [mkRawMatch acc.length
              (teams.getD (slotPair m r i).1 dummyTeam)
              (teams.getD (slotPair m r i).2 dummyTeam) now])
        refine ⟨mkRawMatch acc.length
          (teams.getD (slotPair m r i).1 dummyTeam)
          (teams.getD (slotPair m r i).2 dummyTeam) now :: tail, ?_, ?_⟩
        · rw [heq]
          simp
        · exact List.Forall₂.cons ⟨rfl, rfl⟩ hrel
  intro acc
  exact hgen (List.range ((m + 1 + 1) / 2))
    (fun i hi => List.mem_range.mp hi) acc

/-- The raw round-robin matches realise exactly the closed-form index
pairs, in order. -/
theorem roundRobinRaw_pairs {teams : List Team} {m : Nat} {now : Int}
    (hn : teams.length = m + 1) (hm : 1 ≤ m) (hm2 : m % 2 = 1)
    (hbye : ∀ tm ∈ teams, tm.id ≠ "BYE") :
    List.Forall₂ (matchAtPair teams) (roundRobinRaw teams now)
      (allPairs (m + 1)) := by
  unfold roundRobinRaw allPairs
  have hgen : ∀ (rounds : List Nat) (r : Nat) (acc : List Match),
      r + rounds.length ≤ m →
      ∃ tail, (rounds.foldl (fun (st : List Nat × List Match) _ =>
        (rotateTeams st.1, rrRoundAcc teams st.1 (m + 1) now st.2))
        (rrIdxs m r, acc)).2 = acc ++ tail ∧
      List.Forall₂ (matchAtPair teams) tail
        ((List.range' r rounds.length).flatMap (roundPairs (m + 1))) := by
    intro rounds
    induction rounds with
    | nil =>
        intro r acc _
        exact ⟨[], by simp, List.Forall₂.nil⟩
    | cons hd rest ih =>
        intro r acc hle
        simp only [List.foldl_cons]
        have hrm : r < m := by
          simp only [List.length_cons] at hle
          omega
        obtain ⟨tail0, heq0, hrel0⟩ := rrRoundAcc_pairs hn hm hm2 hrm hbye acc
        rw [heq0, rrIdxs_rotate r hrm]
        obtain ⟨tail1, heq1, hrel1⟩ := ih (r + 1) (acc ++ tail0) (by
          simp only [List.length_cons] at hle
          omega)
        refine ⟨tail0 ++ tail1, ?_, ?_⟩
        · rw [heq1, List.append_assoc]
        · rw [List.length_cons, List.range'_succ, List.flatMap_cons]
          exact forall₂_append_rel hrel0 hrel1
  show List.Forall₂ (matchAtPair teams)
    ((List.range (teams.length - 1)).foldl
      (fun (st : List Nat × List Match) _ =>
        (rotateTeams st.1, rrRoundAcc teams st.1 teams.length now st.2))
      (List.range teams.length, [])).2
    ((List.range (m + 1 - 1)).flatMap (roundPairs (m + 1)))
  rw [hn]
  obtain ⟨tail, heq, hrel⟩ := hgen (List.range (m + 1 - 1)) 0 [] (by
    rw [List.length_range]
    omega)
  rw [rrIdxs_zero] at heq
  rw [heq, List.nil_append]
  have hrange : List.range' 0 (List.range (m + 1 - 1)).length =
      List.range (m + 1 - 1) := by
    rw [List.length_range, ← List.range_eq_range']
  rw [hrange] at hrel
  exact hrel

theorem roundPairs_mem {m r : Nat} {pr : Nat × Nat}
    (hpr : pr ∈ roundPairs (m + 1) r) :
    ∃ i, i < (m + 1 + 1) / 2 ∧ pr = slotPair m r i := by
  unfold roundPairs at hpr
  obtain ⟨i, hi, hieq⟩ := List.mem_map.mp hpr
  exact ⟨i, List.mem_range.mp hi, hieq.symm⟩

theorem slotPair_ne {m r i : Nat} (hm : 1 ≤ m) (hm2 : m % 2 = 1) (hr : r < m)
    (hi : i < (m + 1 + 1) / 2) : (slotPair m r i).1 ≠ (slotPair m r i).2 := by
  by_cases hi0 : i = 0
  · subst hi0
    rw [slotPair_zero]
    show (0 : Nat) ≠ m - r
    omega
  · have h1 : 1 ≤ i := by omega
    have h2 : 2 * i ≤ m - 1 := by omega
    rw [slotPair_pos m r i h1]
    show (i - 1 + (m - r)) % m + 1 ≠ (m - i - 1 + (m - r)) % m + 1
    intro heq
    exact slot_cross_ne (r := r) h1 h2 h1 h2 (by omega)

theorem roundPairs_cpair_nodup {m r : Nat} (hm : 1 ≤ m) (hm2 : m % 2 = 1)
    (hr : r < m) : ((roundPairs (m + 1) r).map cpair).Nodup := by
  unfold roundPairs
  simp only [Nat.add_sub_cancel]
  rw [List.map_map]
  refine List.Nodup.map_on ?_ (List.nodup_range _)
  intro i hi i' hi' heq
  have hib := List.mem_range.mp hi
  have hib' := List.mem_range.mp hi'
  simp only [Function.comp_apply] at heq
  by_cases h0 : i = 0 <;> by_cases h0' : i' = 0
  · omega
  · subst h0
    rw [slotPair_zero, slotPair_pos m r i' (by omega)] at heq
    rcases cpair_eq_cases heq with ⟨hA, hB⟩ | ⟨hA, hB⟩ <;>
      simp only at hA <;> omega
  · subst h0'
    rw [slotPair_zero, slotPair_pos m r i (by omega)] at heq
    rcases cpair_eq_cases heq with ⟨hA, hB⟩ | ⟨hA, hB⟩ <;>
      simp only at hA <;> omega
  · have h1 : 1 ≤ i := by omega
    have h1' : 1 ≤ i' := by omega
    have h2 : 2 * i ≤ m - 1 := by omega
    have h2' : 2 * i' ≤ m - 1 := by omega
    rw [slotPair_pos m r i h1, slotPair_pos m r i' h1'] at heq
    rcases cpair_eq_cases heq with ⟨hA, hB⟩ | ⟨hA, hB⟩
    · simp only at hA
      exact slot_first_inj (m := m) (r := r) h1 (by omega) h1' (by omega)
        (by omega)
    · simp only at hA
      exact (slot_cross_ne (r := r) h1 h2 h1' h2' (by omega)).elim

theorem roundPairs_cpair_disjoint {m r r' : Nat} (hm : 1 ≤ m)
    (hm2 : m % 2 = 1) (hr : r < m) (hr' : r' < m) (hne : r ≠ r') :
    ((roundPairs (m + 1) r).map cpair).Disjoint
      ((roundPairs (m + 1) r').map cpair) := by
  intro x hx hx'
  obtain ⟨p, hp, hpe⟩ := List.mem_map.mp hx
  obtain ⟨q, hq, hqe⟩ := List.mem_map.mp hx'
  obtain ⟨i, hi, rfl⟩ := roundPairs_mem hp
  obtain ⟨i', hi', rfl⟩ := roundPairs_mem hq
  have heq : cpair (slotPair m r i) = cpair (slotPair m r' i') := by
    rw [hpe, hqe]
  by_cases h0 : i = 0 <;> by_cases h0' : i' = 0
  · subst h0
    subst h0'
    rw [slotPair_zero, slotPair_zero] at heq
    rcases cpair_eq_cases heq with ⟨hA, hB⟩ | ⟨hA, hB⟩ <;>
      simp only at hA hB <;> omega
  · subst h0
    rw [slotPair_zero, slotPair_pos m r' i' (by omega)] at heq
    rcases cpair_eq_cases heq with ⟨hA, hB⟩ | ⟨hA, hB⟩ <;>
      simp only at hA <;> omega
  · subst h0'
    rw [slotPair_zero, slotPair_pos m r i (by omega)] at heq
    rcases cpair_eq_cases heq with ⟨hA, hB⟩ | ⟨hA, hB⟩ <;>
      simp only at hA <;> omega
  · have h1 : 1 ≤ i := by omega
    have h1' : 1 ≤ i' := by omega
    have hs := slot_sum_modeq (m := m) hr h1 (by omega)
    have hs' := slot_sum_modeq (m := m) hr' h1' (by omega)
    have hsum : (slotPair m r i).1 + (slotPair m r i).2 =
        (slotPair m r' i').1 + (slotPair m r' i').2 := by
      rcases cpair_eq_cases heq with ⟨hA, hB⟩ | ⟨hA, hB⟩ <;> omega
    rw [← hsum] at hs'
    have hrr : 2 * r ≡ 2 * r' [MOD m] :=
      Nat.ModEq.add_left_cancel' _ (hs.trans hs'.symm)
    exact hne (modeq_bounded_eq (modeq_cancel_two hm2 hrr) hr hr')

theorem allPairs_cpair_nodup {m : Nat} (hm : 1 ≤ m) (hm2 : m % 2 = 1) :
    ((allPairs (m + 1)).map cpair).Nodup := by
  unfold allPairs
  rw [List.map_flatMap, List.nodup_flatMap]
  constructor
  · intro r hrr
    refine roundPairs_cpair_nodup hm hm2 ?_
    have := List.mem_range.mp hrr
    omega
  · refine List.Pairwise.imp_of_mem ?_ (List.pairwise_lt_range _)
    intro r r' hrmem hrmem' hlt
    have hr := List.mem_range.mp hrmem
    have hr' := List.mem_range.mp hrmem'
    exact roundPairs_cpair_disjoint hm hm2 (by omega) (by omega) (by omega)

theorem allPairs_length {m : Nat} (hm2 : m % 2 = 1) :
    (allPairs (m + 1)).length = (m + 1) * m / 2 := by
  unfold allPairs
  rw [List.length_flatMap]
  simp only [Function.comp_def]
  have hlen : ∀ r ∈ List.range (m + 1 - 1),
      (roundPairs (m + 1) r).length = (m + 1 + 1) / 2 := by
    intro r _
    unfold roundPairs
    rw [List.length_map, List.length_range]
  rw [List.map_congr_left hlen]
  simp only [List.map_const', List.length_range]
  simp only [List.sum_replicate, smul_eq_mul]
  obtain ⟨k, rfl⟩ : ∃ k, m = 2 * k + 1 := ⟨m / 2, by omega⟩
  have e1 : 2 * k + 1 + 1 - 1 = 2 * k + 1 := by omega
  have e2 : (2 * k + 1 + 1 + 1) / 2 = k + 1 := by omega
  rw [e1, e2]
  have e3 : (2 * k + 1 + 1) * (2 * k + 1) = 2 * ((2 * k + 1) * (k + 1)) := by
    ring
  rw [e3, Nat.mul_div_cancel_left _ (by norm_num)]

theorem allPairs_mem_bounds {m : Nat} {pr : Nat × Nat} (hm : 1 ≤ m)
    (hm2 : m % 2 = 1) (hpr : pr ∈ allPairs (m + 1)) :
    pr.1 ≤ m ∧ pr.2 ≤ m ∧ pr.1 ≠ pr.2 := by
  unfold allPairs at hpr
  obtain ⟨r, hrmem, hq⟩ := List.mem_flatMap.mp hpr
  have hr : r < m := by
    have := List.mem_range.mp hrmem
    omega
  obtain ⟨i, hi, rfl⟩ := roundPairs_mem hq
  obtain ⟨hb1, hb2, hb3⟩ := slotPair_bounds m r i hm hr
  exact ⟨hb2, hb3, slotPair_ne hm hm2 hr hi⟩

theorem canonPairs_card (n : Nat) :
    (canonPairs n).card * 2 = n * (n - 1) := by
  unfold canonPairs
  rw [Finset.card_filter, Finset.sum_product]
  dsimp only
  rw [Finset.sum_comm]
  have hinner : ∀ b ∈ Finset.range n,
      (∑ a ∈ Finset.range n, if a < b then 1 else 0) = b := by
    intro b hb
    have hb' := Finset.mem_range.mp hb
    rw [← Finset.card_filter]
    have hfe : (Finset.range n).filter (fun a => a < b) = Finset.range b := by
      ext a
      simp only [Finset.mem_filter, Finset.mem_range]
      omega
    rw [hfe, Finset.card_range]
  rw [Finset.sum_congr rfl hinner]
  exact Finset.sum_range_id_mul_two n

theorem cpair_mem_canonPairs {n : Nat} {pr : Nat × Nat} (h1 : pr.1 < n)
    (h2 : pr.2 < n) (hne : pr.1 ≠ pr.2) : cpair pr ∈ canonPairs n := by
  unfold canonPairs cpair
  simp only [Finset.mem_filter, Finset.mem_product, Finset.mem_range,
    Nat.min_def, Nat.max_def]
  split_ifs <;> omega

theorem allPairs_cpair_toFinset {m : Nat} (hm : 1 ≤ m) (hm2 : m % 2 = 1) :
    ((allPairs (m + 1)).map cpair).toFinset = canonPairs (m + 1) := by
  apply Finset.eq_of_subset_of_card_le
  · intro x hx
    rw [List.mem_toFinset] at hx
    obtain ⟨pr, hpr, rfl⟩ := List.mem_map.mp hx
    obtain ⟨hb1, hb2, hb3⟩ := allPairs_mem_bounds hm hm2 hpr
    exact cpair_mem_canonPairs (by omega) (by omega) hb3
  · rw [List.toFinset_card_of_nodup (allPairs_cpair_nodup hm hm2),
      List.length_map]
    have hc := canonPairs_card (m + 1)
    have hl := allPairs_length (m := m) hm2
    have he : m + 1 - 1 = m := by omega
    rw [he] at hc
    omega

theorem nodup_countP_single {α : Type} [DecidableEq α] :
    ∀ {l : List α}, l.Nodup → ∀ {a : α}, a ∈ l →
      l.countP (fun x => x = a) = 1 := by
  intro l
  induction l with
  | nil =>
      intro _ a ha
      exact absurd ha (List.not_mem_nil a)
  | cons b t ih =>
      intro hnd a ha
      rw [List.nodup_cons] at hnd
      rw [List.countP_cons]
      rcases List.mem_cons.mp ha with rfl | hat
      · have hz : t.countP (fun x => x = a) = 0 := by
          rw [List.countP_eq_zero]
          intro x hx
          simp only [decide_eq_true_eq]
          intro hxa
          exact hnd.1 (hxa ▸ hx)
        rw [hz]
        simp
      · rw [ih hnd.2 hat]
        have hba : ¬ b = a := by
          intro h
          exact hnd.1 (h ▸ hat)
        simp [hba]

theorem allPairs_cpair_count {m : Nat} (hm : 1 ≤ m) (hm2 : m % 2 = 1)
    {u w : Nat} (huw : u < w) (hw : w < m + 1) :
    ((allPairs (m + 1)).map cpair).countP (fun x => x = (u, w)) = 1 := by
  apply nodup_countP_single (allPairs_cpair_nodup hm hm2)
  rw [← List.mem_toFinset, allPairs_cpair_toFinset hm hm2]
  unfold canonPairs
  simp only [Finset.mem_filter, Finset.mem_product, Finset.mem_range]
  exact ⟨⟨by omega, hw⟩, huw⟩

theorem isUPair_eq_cpair_decide {u w : Nat} (huw : u < w) (pr : Nat × Nat) :
    isUPair u w pr = decide (cpair pr = (u, w)) := by
  obtain ⟨a, b⟩ := pr
  rw [Bool.eq_iff_iff]
  simp only [isUPair, cpair, Bool.or_eq_true, Bool.and_eq_true,
    decide_eq_true_eq, Prod.mk.injEq, Nat.min_def, Nat.max_def]
  split_ifs <;> omega

theorem containsIdx_cpair (p : Nat) (pr : Nat × Nat) :
    containsIdx p (cpair pr) = containsIdx p pr := by
  obtain ⟨a, b⟩ := pr
  rw [Bool.eq_iff_iff]
  simp only [containsIdx, cpair, Bool.or_eq_true, decide_eq_true_eq,
    Nat.min_def, Nat.max_def]
  split_ifs <;> omega

theorem countP_pairs_eq_one {m : Nat} (hm : 1 ≤ m) (hm2 : m % 2 = 1)
    {u w : Nat} (huw : u < w) (hw : w < m + 1) :
    (allPairs (m + 1)).countP (isUPair u w) = 1 := by
  have h1 : (allPairs (m + 1)).countP (isUPair u w) =
      ((allPairs (m + 1)).map cpair).countP (fun x => x = (u, w)) := by
    rw [List.countP_map]
    apply List.countP_congr
    intro pr _
    simp only [Function.comp_apply]
    rw [isUPair_eq_cpair_decide huw pr]
  rw [h1]
  exact allPairs_cpair_count hm hm2 huw hw

theorem allPairs_upair_count {m : Nat} (hm : 1 ≤ m) (hm2 : m % 2 = 1)
    {u w : Nat} (hne : u ≠ w) (hu : u < m + 1) (hw : w < m + 1) :
    (allPairs (m + 1)).countP (isUPair u w) = 1 := by
  rcases Nat.lt_or_ge u w with h | h
  · exact countP_pairs_eq_one hm hm2 h hw
  · have hwu : w < u := by omega
    have hcomm : ∀ pr ∈ allPairs (m + 1),
        isUPair u w pr = true ↔ isUPair w u pr = true := by
      intro pr _
      unfold isUPair
      rw [Bool.or_comm]
    rw [List.countP_congr hcomm]
    exact countP_pairs_eq_one hm hm2 hwu hu

theorem canonPairs_contains_card {n p : Nat} (hp : p < n) :
    ((canonPairs n).filter (fun pr => pr.1 = p ∨ pr.2 = p)).card = n - 1 := by
  have hsplit : (canonPairs n).filter (fun pr => pr.1 = p ∨ pr.2 = p) =
      ((canonPairs n).filter (fun pr => pr.1 = p)) ∪
        ((canonPairs n).filter (fun pr => pr.2 = p)) :=
    Finset.filter_or _ _ _
  have hdisj : Disjoint ((canonPairs n).filter (fun pr => pr.1 = p))
      ((canonPairs n).filter (fun pr => pr.2 = p)) := by
    rw [Finset.disjoint_left]
    intro x hx1 hx2
    simp only [canonPairs, Finset.mem_filter, Finset.mem_product,
      Finset.mem_range] at hx1 hx2
    omega
  have h1 : (canonPairs n).filter (fun pr => pr.1 = p) =
      (Finset.Ico (p + 1) n).image (fun b => (p, b)) := by
    ext ⟨a, b⟩
    simp only [canonPairs, Finset.mem_filter, Finset.mem_product,
      Finset.mem_range, Finset.mem_image, Finset.mem_Ico, Prod.mk.injEq]
    constructor
    · rintro ⟨⟨⟨ha, hb⟩, hab⟩, hap⟩
      exact ⟨b, ⟨by omega, hb⟩, by omega, rfl⟩
    · rintro ⟨c, ⟨hc1, hc2⟩, hpa, hcb⟩
      exact ⟨⟨⟨by omega, by omega⟩, by omega⟩, by omega⟩
  have h2 : (canonPairs n).filter (fun pr => pr.2 = p) =
      (Finset.range p).image (fun a => (a, p)) := by
    ext ⟨a, b⟩
    simp only [canonPairs, Finset.mem_filter, Finset.mem_product,
      Finset.mem_range, Finset.mem_image, Prod.mk.injEq]
    constructor
    · rintro ⟨⟨⟨ha, hb⟩, hab⟩, hbp⟩
      exact ⟨a, by omega, rfl, by omega⟩
    · rintro ⟨c, hc, hca, hcb⟩
      exact ⟨⟨⟨by omega, by omega⟩, by omega⟩, by omega⟩
  rw [hsplit, Finset.card_union_of_disjoint hdisj, h1, h2,
    Finset.card_image_of_injective _ (fun x y h => by simpa using h),
    Finset.card_image_of_injective _ (fun x y h => by simpa using h),
    Nat.card_Ico, Finset.card_range]
  omega

theorem allPairs_contains_count {m : Nat} (hm : 1 ≤ m) (hm2 : m % 2 = 1)
    {p : Nat} (hp : p < m + 1) :
    (allPairs (m + 1)).countP (containsIdx p) = m := by
  have h1 : (allPairs (m + 1)).countP (containsIdx p) =
      ((allPairs (m + 1)).map cpair).countP (containsIdx p) := by
    rw [List.countP_map]
    apply List.countP_congr
    intro pr _
    simp only [Function.comp_apply]
    rw [containsIdx_cpair p pr]
  rw [h1]
  have hnd := allPairs_cpair_nodup hm hm2
  rw [List.countP_eq_length_filter,
    ← List.toFinset_card_of_nodup (hnd.filter _), List.toFinset_filter,
    allPairs_cpair_toFinset hm hm2]
  have hfe : (canonPairs (m + 1)).filter
      (fun a => containsIdx p a = true) =
      (canonPairs (m + 1)).filter (fun pr => pr.1 = p ∨ pr.2 = p) := by
    apply Finset.filter_congr
    intro x _
    simp [containsIdx]
  rw [hfe, canonPairs_contains_card hp]
  omega

theorem countP_rel {R : Match → (Nat × Nat) → Prop} {p : Match → Bool}
    {q : Nat × Nat → Bool} :
    ∀ {l1 : List Match} {l2 : List (Nat × Nat)}, List.Forall₂ R l1 l2 →
      (∀ a b, a ∈ l1 → b ∈ l2 → R a b → p a = q b) →
      l1.countP p = l2.countP q := by
  intro l1 l2 h
  induction h with
  | nil => intro _; rfl
  | @cons a b t1 t2 hab htail ih =>
      intro hpq
      rw [List.countP_cons, List.countP_cons,
        ih (fun x y hx hy hr => hpq x y (List.mem_cons_of_mem _ hx)
          (List.mem_cons_of_mem _ hy) hr),
        hpq a b (List.mem_cons_self _ _) (List.mem_cons_self _ _) hab]

theorem getD_of_getElem {l : List Team} {p : Nat} (hp : p < l.length) :
    l.getD p dummyTeam = l[p] := by
  rw [List.getD_eq_getElem?_getD, List.getElem?_eq_getElem hp]
  rfl

theorem getD_id_eq_iff {teams : List Team} (hnd : (teams.map Team.id).Nodup)
    {p a : Nat} (hp : p < teams.length) (ha : a < teams.length) :
    ((teams.getD a dummyTeam).id = (teams.getD p dummyTeam).id) ↔ a = p := by
  constructor
  · intro h
    by_contra hne
    exact nodup_getD_ne_team hnd ha hp hne h
  · intro h
    rw [h]

/-- In round-robin mode with an even team count of at least two, the returned
matches are exactly the assigned raw round-robin matches. -/
theorem generate_rr_even_eq {settings : TournamentSettings}
    {teams : List Team} {config : SchedulingConfig} {now : Int}
    {sched : GeneratedSchedule}
    (hmode : config.mode = SchedulingMode.roundRobin)
    (heven : teams.length % 2 = 0) (hlen2 : 2 ≤ teams.length)
    (hok : generateSchedule settings teams config now = Except.ok sched) :
    assignTimeSlots (roundRobinRaw teams now) settings =
      Except.ok sched.«matches» := by
  obtain ⟨mode, mmax, mtot⟩ := config
  cases mode with
  | limitedMatches => exact absurd hmode (by simp)
  | roundRobin =>
      simp only [generateSchedule, generateRoundRobinMatches, true_and] at hok
      have hodd : ¬ teams.length % 2 ≠ 0 := by omega
      simp only [if_neg hodd] at hok
      rw [if_neg (by omega : ¬ teams.length < 2)] at hok
      cases hres : assignTimeSlots (roundRobinRaw teams now) settings with
      | error e => rw [hres] at hok; exact absurd hok (by simp)
      | ok out =>
          rw [hres] at hok
          cases hok
          have hfin : (finishSchedule out []).«matches» = out := rfl
          rw [hfin]

/-- C2: with an even number `n ≥ 2` of teams carrying distinct non-BYE ids,
round-robin generation returns exactly `n(n-1)/2` matches; every team
appears in exactly `n-1` of them, and every unordered pair of distinct
teams meets in exactly one match (so each team's `n-1` opponents are
distinct). -/
theorem C2_round_robin_complete (settings : TournamentSettings)
    (teams : List Team) (config : SchedulingConfig) (now : Int)
    (sched : GeneratedSchedule)
    (hmode : config.mode = SchedulingMode.roundRobin)
    (hn2 : 2 ≤ teams.length) (heven : teams.length % 2 = 0)
    (hnd : (teams.map Team.id).Nodup)
    (hbye : ∀ tm ∈ teams, tm.id ≠ "BYE")
    (hok : generateSchedule settings teams config now = Except.ok sched) :
    sched.«matches».length = teams.length * (teams.length - 1) / 2 ∧
    (∀ tm ∈ teams, appearCount tm.id sched.«matches» = teams.length - 1) ∧
    (∀ t1 t2, t1 ∈ teams → t2 ∈ teams → t1.id ≠ t2.id →
      pairCount t1.id t2.id sched.«matches» = 1) := by
  obtain ⟨m, hm⟩ : ∃ m, teams.length = m + 1 := ⟨teams.length - 1, by omega⟩
  have hm1 : 1 ≤ m := by omega
  have hm2 : m % 2 = 1 := by omega
  have hres := generate_rr_even_eq hmode heven hn2 hok
  have hshape := @roundRobinRaw_pairs teams m now hm hm1 hm2 hbye
  refine ⟨?_, ?_, ?_⟩
  · rw [assignTimeSlots_length hres, List.Forall₂.length_eq hshape,
      allPairs_length (m := m) hm2, hm,
      show m + 1 - 1 = m from rfl]
  · intro tm htm
    obtain ⟨p, hp, hpe⟩ := List.mem_iff_getElem.mp htm
    have hgetp : teams.getD p dummyTeam = tm := by
      rw [getD_of_getElem hp, hpe]
    have hcount1 : appearCount tm.id sched.«matches» =
        appearCount tm.id (roundRobinRaw teams now) := by
      apply assignTimeSlots_countP hres
      intro m1 m2 hcore
      simp [involvesB, hcore.2.1, hcore.2.2]
    rw [hcount1]
    have hcount2 : appearCount tm.id (roundRobinRaw teams now) =
        (allPairs (m + 1)).countP (containsIdx p) := by
      apply countP_rel hshape
      intro mt pr hmt hpr hrel
      obtain ⟨hb1, hb2, hb3⟩ := allPairs_mem_bounds hm1 hm2 hpr
      obtain ⟨hh, ha⟩ := hrel
      rw [Bool.eq_iff_iff]
      simp only [involvesB, containsIdx, Bool.or_eq_true, decide_eq_true_eq]
      rw [hh, ha, ← hgetp,
        getD_id_eq_iff hnd (by omega) (by omega),
        getD_id_eq_iff hnd (by omega) (by omega)]
    rw [hcount2, allPairs_contains_count hm1 hm2 (by omega), hm,
      show m + 1 - 1 = m from rfl]
  · intro t1 t2 ht1 ht2 hneid
    obtain ⟨p1, hp1, hpe1⟩ := List.mem_iff_getElem.mp ht1
    obtain ⟨p2, hp2, hpe2⟩ := List.mem_iff_getElem.mp ht2
    have hg1 : teams.getD p1 dummyTeam = t1 := by
      rw [getD_of_getElem hp1, hpe1]
    have hg2 : teams.getD p2 dummyTeam = t2 := by
      rw [getD_of_getElem hp2, hpe2]
    have hp12 : p1 ≠ p2 := by
      intro h
      apply hneid
      rw [← hpe1, ← hpe2]
      subst h
      rfl
    have hcount1 : pairCount t1.id t2.id sched.«matches» =
        pairCount t1.id t2.id (roundRobinRaw teams now) := by
      apply assignTimeSlots_countP hres
      intro m1 m2 hcore
      simp [isPairOf, hcore.2.1, hcore.2.2]
    rw [hcount1]
    have hcount2 : pairCount t1.id t2.id (roundRobinRaw teams now) =
        (allPairs (m + 1)).countP (isUPair p1 p2) := by
      apply countP_rel hshape
      intro mt pr hmt hpr hrel
      obtain ⟨hb1, hb2, hb3⟩ := allPairs_mem_bounds hm1 hm2 hpr
      obtain ⟨hh, ha⟩ := hrel
      rw [Bool.eq_iff_iff]
      simp only [isPairOf, isUPair, Bool.or_eq_true, Bool.and_eq_true,
        decide_eq_true_eq]
      rw [hh, ha, ← hg1, ← hg2,
        getD_id_eq_iff hnd hp1 (by omega),
        getD_id_eq_iff hnd hp2 (by omega),
        getD_id_eq_iff hnd hp2 (by omega),
        getD_id_eq_iff hnd hp1 (by omega)]
    rw [hcount2]
    exact allPairs_upair_count hm1 hm2 hp12 (by omega) (by omega)

/-- Witness for C2 at the concrete four-team round-robin tournament. -/
theorem C2_round_robin_complete_witness :
    ∃ sched, generateSchedule exSettings exTeams4 exRRConfig 0 =
        Except.ok sched ∧
      sched.«matches».length = 6 ∧
      (∀ tm ∈ exTeams4, appearCount tm.id sched.«matches» = 3) ∧
      (∀ t1 t2, t1 ∈ exTeams4 → t2 ∈ exTeams4 → t1.id ≠ t2.id →
        pairCount t1.id t2.id sched.«matches» = 1) := by
  refine ⟨_, rfl, ?_⟩
  have h := C2_round_robin_complete exSettings exTeams4 exRRConfig 0 _
    rfl (by decide) (by decide) (by decide) (by decide) rfl
  exact ⟨h.1, h.2.1, h.2.2⟩

/-! General characterisation of `detectConflicts`: one conflict per
`(team id, start time)` bucket holding more than one match, on any list. -/

theorem bucketsOf_sub {tid : String} {tk : Int} :
    ∀ {ms : List Match} {m : Match}, m ∈ bucketsOf tid tk ms →
      m ∈ ms ∧ (m.homeTeam.id = tid ∨ m.awayTeam.id = tid) ∧
        m.startTime = tk := by
  intro ms
  induction ms with
  | nil =>
      intro m hm
      exact absurd hm (List.not_mem_nil m)
  | cons x rest ih =>
      intro m hm
      unfold bucketsOf at hm
      rcases List.mem_append.mp hm with h1 | h2
      · rcases List.mem_append.mp h1 with hA | hB
        · split at hA
          · rename_i hc
            obtain rfl := List.mem_singleton.mp hA
            exact ⟨List.mem_cons_self _ _, Or.inl hc.1, hc.2⟩
          · exact absurd hA (List.not_mem_nil m)
        · split at hB
          · rename_i hc
            obtain rfl := List.mem_singleton.mp hB
            exact ⟨List.mem_cons_self _ _, Or.inr hc.1, hc.2⟩
          · exact absurd hB (List.not_mem_nil m)
      · obtain ⟨hmem, hinv, ht⟩ := ih h2
        exact ⟨List.mem_cons_of_mem _ hmem, hinv, ht⟩

theorem mem_bucketsOf {tid : String} {tk : Int} :
    ∀ {ms : List Match} {m : Match}, m ∈ ms →
      (m.homeTeam.id = tid ∨ m.awayTeam.id = tid) → m.startTime = tk →
      m ∈ bucketsOf tid tk ms := by
  intro ms
  induction ms with
  | nil =>
      intro m hm _ _
      exact absurd hm (List.not_mem_nil m)
  | cons x rest ih =>
      intro m hm hinv ht
      unfold bucketsOf
      rcases List.mem_cons.mp hm with rfl | hmem
      · rcases hinv with hh | ha
        · apply List.mem_append_left
          apply List.mem_append_left
          rw [if_pos ⟨hh, ht⟩]
          exact List.mem_singleton.mpr rfl
        · apply List.mem_append_left
          apply List.mem_append_right
          rw [if_pos ⟨ha, ht⟩]
          exact List.mem_singleton.mpr rfl
      · exact List.mem_append_right _ (ih hmem hinv ht)

theorem bucketsOf_time_eq {tid : String} {t1 t2 : Int} {ms : List Match}
    (h : bucketsOf tid t1 ms = bucketsOf tid t2 ms)
    (hne : bucketsOf tid t1 ms ≠ []) : t1 = t2 := by
  obtain ⟨m, hm⟩ := List.exists_mem_of_ne_nil _ hne
  have h1 := (bucketsOf_sub hm).2.2
  rw [h] at hm
  have h2 := (bucketsOf_sub hm).2.2
  omega

theorem two_le_length_of_mem_ne {α : Type} {l : List α} {a b : α}
    (ha : a ∈ l) (hb : b ∈ l) (hab : a ≠ b) : 2 ≤ l.length := by
  cases l with
  | nil => exact absurd ha (List.not_mem_nil a)
  | cons x t =>
      cases t with
      | nil =>
          rw [List.mem_singleton] at ha hb
          exact absurd (ha.trans hb.symm) hab
      | cons y t2 =>
          simp only [List.length_cons]
          omega

theorem conflictOf_matches (tid : String) (bucket : List Match) :
    (conflictOf tid bucket).«matches» = bucket := by
  match bucket with
  | [] => rfl
  | m0 :: rest => rfl

theorem conflictOf_team_id {tid : String} {bucket : List Match}
    (hne : bucket ≠ [])
    (hmem : ∀ m ∈ bucket, m.homeTeam.id = tid ∨ m.awayTeam.id = tid) :
    (conflictOf tid bucket).team.id = tid := by
  match bucket with
  | [] => exact absurd rfl hne
  | m0 :: rest =>
      show (if m0.homeTeam.id = tid then m0.homeTeam else m0.awayTeam).id = tid
      by_cases h : m0.homeTeam.id = tid
      · rw [if_pos h]
        exact h
      · rw [if_neg h]
        rcases hmem m0 (List.mem_cons_self _ _) with hh | ha
        · exact absurd hh h
        · exact ha

theorem conflictStep_char {tid : String}
    {acc : List ScheduleConflict × List (String × Int)}
    {bucket : Int × List Match} (hfresh : (tid, bucket.1) ∉ acc.2) :
    conflictStep tid acc bucket =
      if 2 ≤ bucket.2.length
      then (acc.1 ++ [conflictOf tid bucket.2], (tid, bucket.1) :: acc.2)
      else acc := by
  obtain ⟨tk, bs⟩ := bucket
  match bs with
  | [] => rfl
  | [m0] => rfl
  | m0 :: m1 :: rest =>
      show (if (tid, tk) ∈ acc.2 then acc else _) = _
      rw [if_neg hfresh,
        if_pos (by simp only [List.length_cons]; omega :
          2 ≤ (m0 :: m1 :: rest).length)]
      rfl

theorem conflictEntry_fold {tid : String} :
    ∀ {inner : List (Int × List Match)}
      {a : List ScheduleConflict × List (String × Int)},
      (inner.map Prod.fst).Nodup →
      (∀ tk ∈ inner.map Prod.fst, (tid, tk) ∉ a.2) →
      (inner.foldl (conflictStep tid) a).1 =
        a.1 ++ (inner.filter (fun b => 2 ≤ b.2.length)).map
          (fun b => conflictOf tid b.2) ∧
      ∀ p ∈ (inner.foldl (conflictStep tid) a).2, p ∈ a.2 ∨ p.1 = tid := by
  intro inner
  induction inner with
  | nil =>
      intro a _ _
      exact ⟨by simp, fun p hp => Or.inl hp⟩
  | cons b rest ih =>
      intro a hnd hfresh
      simp only [List.map_cons, List.nodup_cons] at hnd
      rw [List.foldl_cons,
        conflictStep_char (hfresh b.1 (List.mem_cons_self _ _))]
      by_cases hlen : 2 ≤ b.2.length
      · rw [if_pos hlen]
        have hfresh2 : ∀ tk ∈ rest.map Prod.fst,
            (tid, tk) ∉ ((tid, b.1) :: a.2 : List (String × Int)) := by
          intro tk htk hc
          rcases List.mem_cons.mp hc with h1 | h1
          · have h2 : tk = b.1 := congrArg Prod.snd h1
            exact hnd.1 (h2 ▸ htk)
          · exact hfresh tk (List.mem_cons_of_mem _ htk) h1
        obtain ⟨h1, h2⟩ :=
          @ih (a.1 ++ [conflictOf tid b.2], (tid, b.1) :: a.2) hnd.2 hfresh2
        have hfe : (b :: rest).filter (fun x => 2 ≤ x.2.length) =
            b :: rest.filter (fun x => 2 ≤ x.2.length) := by
          simp [List.filter_cons, hlen]
        constructor
        · rw [h1, hfe, List.map_cons]
          simp [List.append_assoc]
        · intro p hp
          rcases h2 p hp with h3 | h3
          · rcases List.mem_cons.mp h3 with h4 | h4
            · exact Or.inr (congrArg Prod.fst h4)
            · exact Or.inl h4
          · exact Or.inr h3
      · rw [if_neg hlen]
        have hfresh2 : ∀ tk ∈ rest.map Prod.fst, (tid, tk) ∉ a.2 :=
          fun tk htk => hfresh tk (List.mem_cons_of_mem _ htk)
        obtain ⟨h1, h2⟩ := @ih a hnd.2 hfresh2
        have hfe : (b :: rest).filter (fun x => 2 ≤ x.2.length) =
            rest.filter (fun x => 2 ≤ x.2.length) := by
          simp [List.filter_cons, hlen]
        exact ⟨by rw [h1, hfe], h2⟩

theorem collectConflicts_fold :
    ∀ {outer : List (String × List (Int × List Match))}
      {a : List ScheduleConflict × List (String × Int)},
      OuterWF outer →
      (∀ p ∈ a.2, p.1 ∉ outer.map Prod.fst) →
      (outer.foldl conflictEntry a).1 = a.1 ++ emittedConflicts outer ∧
      ∀ p ∈ (outer.foldl conflictEntry a).2,
        p ∈ a.2 ∨ p.1 ∈ outer.map Prod.fst := by
  intro outer
  induction outer with
  | nil =>
      intro a _ _
      exact ⟨by simp [emittedConflicts], fun p hp => Or.inl hp⟩
  | cons e rest ih =>
      intro a hWF hfresh
      obtain ⟨hkeys, hinner⟩ := hWF
      simp only [List.map_cons, List.nodup_cons] at hkeys
      rw [List.foldl_cons]
      have hein : (e.2.map Prod.fst).Nodup := hinner e (List.mem_cons_self _ _)
      have hef : ∀ tk ∈ e.2.map Prod.fst, (e.1, tk) ∉ a.2 := by
        intro tk _ hc
        exact hfresh (e.1, tk) hc (List.mem_cons_self _ _)
      have hstep := @conflictEntry_fold e.1 e.2 a hein hef
      have hWFr : OuterWF rest :=
        ⟨hkeys.2, fun x hx => hinner x (List.mem_cons_of_mem _ hx)⟩
      have hfr : ∀ p ∈ (e.2.foldl (conflictStep e.1) a).2,
          p.1 ∉ rest.map Prod.fst := by
        intro p hp hc
        rcases hstep.2 p hp with h1 | h1
        · exact hfresh p h1 (List.mem_cons_of_mem _ hc)
        · exact hkeys.1 (h1 ▸ hc)
      obtain ⟨h1, h2⟩ := @ih (e.2.foldl (conflictStep e.1) a) hWFr hfr
      have hca : conflictEntry a e = e.2.foldl (conflictStep e.1) a := rfl
      have hfm : emittedConflicts (e :: rest) =
          ((e.2.filter (fun b => 2 ≤ b.2.length)).map
            (fun b => conflictOf e.1 b.2)) ++ emittedConflicts rest := by
        unfold emittedConflicts
        rw [List.flatMap_cons]
      constructor
      · rw [hca, h1, hstep.1, hfm, List.append_assoc]
      · intro p hp
        rw [hca] at hp
        rcases h2 p hp with h3 | h3
        · rcases hstep.2 p h3 with h4 | h4
          · exact Or.inl h4
          · exact Or.inr (h4 ▸ List.mem_cons_self _ _)
        · exact Or.inr (List.mem_cons_of_mem _ h3)

theorem detectConflicts_char (ms : List Match) :
    detectConflicts ms = emittedConflicts (buildBuckets ms) := by
  have h := @collectConflicts_fold (buildBuckets ms) ([], [])
    (buildBuckets_WF ms) (fun p hp => absurd hp (List.not_mem_nil p))
  unfold detectConflicts collectConflicts
  rw [h.1]
  rfl

theorem buildBuckets_buckets (ms : List Match) :
    ∀ e ∈ buildBuckets ms, ∀ b ∈ e.2, b.2 = bucketsOf e.1 b.1 ms := by
  intro e he b hb
  have h1 : bucketGet (buildBuckets ms) e.1 b.1 = b.2 :=
    bucketGet_of_mem (buildBuckets_WF ms)
      (show (e.1, e.2) ∈ _ from he) (show (b.1, b.2) ∈ _ from hb)
  rw [← h1, bucketGet_buildBuckets]

theorem innerGet_eq_nil_of_not_mem :
    ∀ {inner : List (Int × List Match)} {tk : Int},
      tk ∉ inner.map Prod.fst → innerGet inner tk = [] := by
  intro inner
  induction inner with
  | nil => intro tk _; rfl
  | cons kv rest ih =>
      intro tk h
      obtain ⟨t, ms⟩ := kv
      simp only [List.map_cons, List.mem_cons, not_or] at h
      have hne : ¬t = tk := fun he => h.1 he.symm
      simp only [innerGet, if_neg hne]
      exact ih h.2

theorem bucketGet_eq_nil_of_not_mem :
    ∀ {outer : List (String × List (Int × List Match))} {tid : String},
      tid ∉ outer.map Prod.fst → ∀ tk, bucketGet outer tid tk = [] := by
  intro outer
  induction outer with
  | nil => intro tid _ tk; rfl
  | cons kv rest ih =>
      intro tid h tk
      obtain ⟨id0, inner⟩ := kv
      simp only [List.map_cons, List.mem_cons, not_or] at h
      have hne : ¬id0 = tid := fun he => h.1 he.symm
      simp only [bucketGet, if_neg hne]
      exact ih h.2 tk

theorem entry_countP_zero {ms : List Match} {tid : String} {tk : Int}
    {id0 : String} {inner : List (Int × List Match)} (hne : id0 ≠ tid)
    (hb : ∀ b ∈ inner, b.2 = bucketsOf id0 b.1 ms) :
    ((inner.filter (fun b => 2 ≤ b.2.length)).map
        (fun b => conflictOf id0 b.2)).countP (conflictPred tid tk ms) = 0 := by
  rw [List.countP_eq_zero]
  intro c hc
  obtain ⟨b, hbf, rfl⟩ := List.mem_map.mp hc
  have hbm := List.mem_filter.mp hbf
  have hlen : 2 ≤ b.2.length := by simpa using hbm.2
  have hne2 : b.2 ≠ [] := by
    intro h0
    rw [h0] at hlen
    simp at hlen
  have hid : (conflictOf id0 b.2).team.id = id0 :=
    conflictOf_team_id hne2 (fun m hm => by
      rw [hb b hbm.1] at hm
      exact (bucketsOf_sub hm).2.1)
  simp only [conflictPred, decide_eq_true_eq]
  intro h
  exact hne (hid.symm.trans h.1)

theorem inner_count {ms : List Match} {tid : String} {tk : Int} :
    ∀ {inner : List (Int × List Match)},
      (inner.map Prod.fst).Nodup →
      (∀ b ∈ inner, b.2 = bucketsOf tid b.1 ms) →
      ((inner.filter (fun b => 2 ≤ b.2.length)).map
          (fun b => conflictOf tid b.2)).countP (conflictPred tid tk ms) =
        if 2 ≤ (innerGet inner tk).length then 1 else 0 := by
  intro inner
  induction inner with
  | nil =>
      intro _ _
      simp [innerGet]
  | cons b rest ih =>
      intro hnd hb
      obtain ⟨t, bs⟩ := b
      simp only [List.map_cons, List.nodup_cons] at hnd
      have hbB : bs = bucketsOf tid t ms := hb (t, bs) (List.mem_cons_self _ _)
      have ihr := ih hnd.2 (fun x hx => hb x (List.mem_cons_of_mem _ hx))
      by_cases hlen : 2 ≤ bs.length
      · have hfe : ((t, bs) :: rest).filter (fun x => 2 ≤ x.2.length) =
            (t, bs) :: rest.filter (fun x => 2 ≤ x.2.length) := by
          simp [List.filter_cons, hlen]
        rw [hfe, List.map_cons, List.countP_cons]
        have hne2 : bs ≠ [] := by
          intro h0
          rw [h0] at hlen
          simp at hlen
        have hid : (conflictOf tid bs).team.id = tid :=
          conflictOf_team_id hne2 (fun m hm => by
            rw [hbB] at hm
            exact (bucketsOf_sub hm).2.1)
        by_cases ht : t = tk
        · subst ht
          have hget : innerGet ((t, bs) :: rest) t = bs := by
            simp [innerGet]
          have hrest0 : innerGet rest t = [] :=
            innerGet_eq_nil_of_not_mem hnd.1
          have hpred : conflictPred tid t ms (conflictOf tid bs) = true := by
            simp only [conflictPred, decide_eq_true_eq]
            exact ⟨hid, by rw [conflictOf_matches, hbB]⟩
          rw [ihr, hrest0, hget, hpred]
          simp [hlen]
        · have hget : innerGet ((t, bs) :: rest) tk = innerGet rest tk := by
            simp [innerGet, ht]
          have hpred : conflictPred tid tk ms (conflictOf tid bs) = false := by
            simp only [conflictPred, decide_eq_false_iff_not]
            intro hcon
            have hmm : bs = bucketsOf tid tk ms := by
              rw [← conflictOf_matches tid bs]
              exact hcon.2
            exact ht (bucketsOf_time_eq (hbB.symm.trans hmm)
              (by rw [← hbB]; exact hne2))
          rw [hget, hpred, ihr]
          simp
      · have hfe : ((t, bs) :: rest).filter (fun x => 2 ≤ x.2.length) =
            rest.filter (fun x => 2 ≤ x.2.length) := by
          simp [List.filter_cons, hlen]
        rw [hfe, ihr]
        by_cases ht : t = tk
        · subst ht
          have hget : innerGet ((t, bs) :: rest) t = bs := by
            simp [innerGet]
          have hrest0 : innerGet rest t = [] :=
            innerGet_eq_nil_of_not_mem hnd.1
          rw [hget, hrest0]
          simp [hlen]
        · have hget : innerGet ((t, bs) :: rest) tk = innerGet rest tk := by
            simp [innerGet, ht]
          rw [hget]

theorem emitted_countP {ms : List Match} {tid : String} {tk : Int} :
    ∀ {outer : List (String × List (Int × List Match))},
      OuterWF outer →
      (∀ e ∈ outer, ∀ b ∈ e.2, b.2 = bucketsOf e.1 b.1 ms) →
      (emittedConflicts outer).countP (conflictPred tid tk ms) =
        if 2 ≤ (bucketGet outer tid tk).length then 1 else 0 := by
  intro outer
  induction outer with
  | nil =>
      intro _ _
      simp [emittedConflicts, bucketGet]
  | cons e rest ih =>
      intro hWF hb
      obtain ⟨hkeys, hinner⟩ := hWF
      simp only [List.map_cons, List.nodup_cons] at hkeys
      have ihr := ih ⟨hkeys.2, fun x hx => hinner x (List.mem_cons_of_mem _ hx)⟩
        (fun x hx => hb x (List.mem_cons_of_mem _ hx))
      obtain ⟨id0, inner⟩ := e
      have hfm : emittedConflicts ((id0, inner) :: rest) =
          ((inner.filter (fun b => 2 ≤ b.2.length)).map
            (fun b => conflictOf id0 b.2)) ++ emittedConflicts rest := by
        unfold emittedConflicts
        rw [List.flatMap_cons]
      rw [hfm, List.countP_append]
      by_cases hid : id0 = tid
      · subst hid
        have hc1 := @inner_count ms id0 tk inner
          (hinner (id0, inner) (List.mem_cons_self _ _))
          (hb (id0, inner) (List.mem_cons_self _ _))
        have hbg : bucketGet ((id0, inner) :: rest) id0 tk =
            innerGet inner tk := by
          simp [bucketGet]
        have hbr : bucketGet rest id0 tk = [] :=
          bucketGet_eq_nil_of_not_mem hkeys.1 tk
        rw [hc1, ihr, hbg, hbr]
        simp
      · have he0 := @entry_countP_zero ms tid tk id0 inner hid
          (hb (id0, inner) (List.mem_cons_self _ _))
        have hbg : bucketGet ((id0, inner) :: rest) tid tk =
            bucketGet rest tid tk := by
          simp [bucketGet, hid]
        rw [he0, ihr, hbg]
        simp

/-- **C7.** On any match list, the conflict detector implements the
one-conflict-per-bucket rule: for every team id `tid` and start time `tk`,
(1) the output holds exactly one conflict for the `(tid, tk)` bucket when
that bucket (the matches involving `tid` starting at `tk`, as grouped by the
detector) has two or more matches, and none otherwise; (2) every reported
conflict for `tid` is such a bucket with at least two matches; (3) any two
distinct matches sharing `tid` and the start time `tk` are reported together
in the `(tid, tk)` conflict record. -/
theorem C7_conflict_detector (ms : List Match) (tid : String) (tk : Int) :
    ((detectConflicts ms).countP (conflictPred tid tk ms) =
      if 2 ≤ (bucketsOf tid tk ms).length then 1 else 0) ∧
    (∀ c ∈ detectConflicts ms, c.team.id = tid →
      ∃ u, c.«matches» = bucketsOf tid u ms ∧
        2 ≤ (bucketsOf tid u ms).length) ∧
    (∀ m1 m2, m1 ∈ ms → m2 ∈ ms → m1 ≠ m2 →
      (m1.homeTeam.id = tid ∨ m1.awayTeam.id = tid) →
      (m2.homeTeam.id = tid ∨ m2.awayTeam.id = tid) →
      m1.startTime = tk → m2.startTime = tk →
      ∃ c ∈ detectConflicts ms, c.team.id = tid ∧
        c.«matches» = bucketsOf tid tk ms ∧
        m1 ∈ c.«matches» ∧ m2 ∈ c.«matches») := by
  have hchar := detectConflicts_char ms
  have hcount : (detectConflicts ms).countP (conflictPred tid tk ms) =
      if 2 ≤ (bucketsOf tid tk ms).length then 1 else 0 := by
    rw [hchar, emitted_countP (buildBuckets_WF ms) (buildBuckets_buckets ms),
      bucketGet_buildBuckets]
  refine ⟨hcount, ?_, ?_⟩
  · intro c hc hcid
    rw [hchar] at hc
    obtain ⟨e, he, hce⟩ := List.mem_flatMap.mp hc
    obtain ⟨b, hbf, rfl⟩ := List.mem_map.mp hce
    have hbm := List.mem_filter.mp hbf
    have hlen : 2 ≤ b.2.length := by simpa using hbm.2
    have hbB : b.2 = bucketsOf e.1 b.1 ms := buildBuckets_buckets ms e he b hbm.1
    have hne2 : b.2 ≠ [] := by
      intro h0
      rw [h0] at hlen
      simp at hlen
    have hid : (conflictOf e.1 b.2).team.id = e.1 :=
      conflictOf_team_id hne2 (fun m hm => by
        rw [hbB] at hm
        exact (bucketsOf_sub hm).2.1)
    have heid : e.1 = tid := hid.symm.trans hcid
    refine ⟨b.1, ?_, ?_⟩
    · rw [conflictOf_matches, hbB, heid]
    · rw [← heid, ← hbB]
      exact hlen
  · intro m1 m2 h1 h2 hne hi1 hi2 ht1 ht2
    have hm1 : m1 ∈ bucketsOf tid tk ms := mem_bucketsOf h1 hi1 ht1
    have hm2 : m2 ∈ bucketsOf tid tk ms := mem_bucketsOf h2 hi2 ht2
    have hlen : 2 ≤ (bucketsOf tid tk ms).length :=
      two_le_length_of_mem_ne hm1 hm2 hne
    have hpos : 0 < (detectConflicts ms).countP (conflictPred tid tk ms) := by
      rw [hcount, if_pos hlen]
      exact Nat.zero_lt_one
    obtain ⟨c, hc, hp⟩ := List.countP_pos_iff.mp hpos
    simp only [conflictPred, decide_eq_true_eq] at hp
    exact ⟨c, hc, hp.1, hp.2, by rw [hp.2]; exact hm1, by rw [hp.2]; exact hm2⟩

/-- Concrete run of the C7 theorem: two matches sharing team B at time 0 are
reported together in one conflict record for B. -/
theorem C7_conflict_detector_witness :
    ∃ c ∈ detectConflicts [wM1, wM2], c.team.id = "B" ∧
      c.«matches» = bucketsOf "B" 0 [wM1, wM2] ∧
      wM1 ∈ c.«matches» ∧ wM2 ∈ c.«matches» :=
  (C7_conflict_detector [wM1, wM2] "B" 0).2.2 wM1 wM2
    (by decide) (by decide) (by decide) (by decide) (by decide)
    (by decide) (by decide)

/-- **C6 counterexample.** The loop guard of `generateLimitedMatches` uses the
UN-floored threshold `teams.length * maxMatchesPerTeam / 2` (a JS float): for
3 teams with `maxMatchesPerTeam = 1` and one match already paired, the source
guard still holds (`2·1 < 3·1`), while the spec's floored target
`min(∞, ⌊3·1/2⌋) = 1` has already been reached. -/
theorem C6_unfloored_target_counterexample :
    ltdGuard 3 1 none 1 = true ∧ ltdGuardSpec 3 1 none 1 = false := by
  constructor
  · rfl
  · rfl

end Scheduler
